import Mathlib

/-!
Verification of the Pedersen commitment / Back-Maxwell rangeproof module of the
grin secp256k1-zkp library (src/modules/rangeproof).  The machine-level C code
is embedded shallowly: `uint64_t` arithmetic becomes `Nat` arithmetic with
explicit reduction modulo `2 ^ 64` wherever the C can wrap, byte buffers become
lists of naturals below 256, scalars modulo the curve order become `ZMod`, and
the elliptic-curve group (which is external to the module, provided by the
surrounding library) is modelled as an abstract additive commutative group.
-/

namespace RangeproofVerification

/-- Largest value of an unsigned 64-bit integer, `UINT64_MAX` in the C source. -/
def U64MAX : ℕ := 2 ^ 64 - 1

/-- Largest value of a signed 64-bit integer, `INT64_MAX` in the C source. -/
def I64MAX : ℕ := 2 ^ 63 - 1

/-- Wrapping 64-bit subtraction `a - b` as C computes it on `uint64_t` operands
(arguments are below `2 ^ 64`). -/
def sub64 (a b : ℕ) : ℕ := (2 ^ 64 + a - b) % 2 ^ 64

/-- Wrapping 64-bit multiplication. -/
def mul64 (a b : ℕ) : ℕ := a * b % 2 ^ 64

/-- Modelled from the spec: `secp256k1_clz64_var`, the count of leading zero bits
of a nonzero 64-bit value.  The helper lives in util.h, outside the module under
verification; the spec uses it as `max_bits = min_value ? clz64(min_value) : 64`
and `mantissa = v ? 64 - clz64(v) : 1`. -/
def clz64 (n : ℕ) : ℕ := 64 - Nat.size n

/-- Values left in the output parameters of `secp256k1_range_proveparams` on
success. -/
structure ProveParams where
  v : ℕ
  rings : ℕ
  rsizes : List ℕ
  npub : ℕ
  secidx : List ℕ
  min_value : ℕ
  mantissa : ℕ
  scale : ℕ
  exp : ℤ
  min_bits : ℕ
  deriving DecidableEq

/-- The radix-10 reduction loop of `secp256k1_range_proveparams`:
`for (i = 0; i < *exp && (v2 <= UINT64_MAX/10); i++) { *v /= 10; v2 *= 10; }`.
The last argument is the number of iterations still allowed (`*exp - i`); the
result carries the final `v`, the final `v2` and the number of iterations that
actually ran, which the C assigns back to `*exp`. -/
def reduceLoop : ℕ → ℕ → ℕ → ℕ × ℕ × ℕ
  | v, v2, 0 => (v, v2, 0)
  | v, v2, k + 1 =>
    if v2 ≤ U64MAX / 10 then
      let r := reduceLoop (v / 10) (mul64 v2 10) k
      (r.1, r.2.1, r.2.2 + 1)
    else (v, v2, 0)

/-- The rescaling loop of `secp256k1_range_proveparams`:
`for (i = 0; i < *exp; i++) { v2 *= 10; *scale *= 10; }`. -/
def scaleLoop : ℕ → ℕ → ℕ → ℕ × ℕ
  | v2, scale, 0 => (v2, scale)
  | v2, scale, k + 1 => scaleLoop (mul64 v2 10) (mul64 scale 10) k

/-- The line `max_bits = *min_value ? secp256k1_clz64_var(*min_value) : 64;` of
`secp256k1_range_proveparams`. -/
def maxBitsOf (mv : ℕ) : ℕ := if mv ≠ 0 then clz64 mv else 64

/-- The clamp `if (*min_bits > max_bits) { *min_bits = max_bits; }`. -/
def clampBits (mb mv : ℕ) : ℕ := if mb > maxBitsOf mv then maxBitsOf mv else mb

/-- The main (`*exp >= 0`, not rejected) branch of `secp256k1_range_proveparams`,
computing the record of output-parameter values. -/
def proveparamsMain (min_value0 : ℕ) (exp1 : ℤ) (min_bits0 value : ℕ) : ProveParams :=
  let min_bits1 : ℕ := clampBits min_bits0 min_value0
  let exp2 : ℤ := if min_bits1 > 61 ∨ value > I64MAX then 0 else exp1
  let v0 : ℕ := sub64 value min_value0
  let v2a : ℕ := if min_bits1 ≠ 0 then U64MAX >>> (64 - min_bits1) else 0
  let r := reduceLoop v0 v2a exp2.toNat
  let v1 := r.1
  let expf : ℕ := r.2.2
  let sl := scaleLoop v1 1 expf
  let v2b := sl.1
  let scalef := sl.2
  let min_value1 : ℕ := sub64 value v2b
  let mantissa0 : ℕ := if v1 ≠ 0 then 64 - clz64 v1 else 1
  let mantissa : ℕ := if min_bits1 > mantissa0 then min_bits1 else mantissa0
  let rings : ℕ := (mantissa + 1) >>> 1
  let rsizes : List ℕ :=
    (List.range rings).map fun i => if i < rings - 1 ∨ mantissa % 2 = 0 then 4 else 2
  let npub : ℕ := rsizes.sum
  let secidx : List ℕ := (List.range rings).map fun i => (v1 >>> (i * 2)) &&& 3
  ⟨v1, rings, rsizes, npub, secidx, min_value1, mantissa, scalef, (expf : ℤ), min_bits1⟩

/-- Shallow embedding of `secp256k1_range_proveparams` (rangeproof_impl.h).
`none` models `return 0`.  The in/out parameters `min_value`, `exp`, `min_bits`
enter as arguments `min_value0`, `exp0`, `min_bits0` and leave inside the result
record. -/
def range_proveparams (min_value0 : ℕ) (exp0 : ℤ) (min_bits0 : ℕ) (value : ℕ) :
    Option ProveParams :=
  let exp1 : ℤ := if min_value0 = U64MAX then -1 else exp0
  if 0 ≤ exp1 then
    if (min_value0 ≠ 0 ∧ value > I64MAX) ∨ (value ≠ 0 ∧ min_value0 ≥ I64MAX) then
      none
    else
      some (proveparamsMain min_value0 exp1 min_bits0 value)
  else
    some ⟨0, 1, [1], 2, [0], value, 0, 1, 0, min_bits0⟩

/-! ### Arithmetic facts about the embedded helpers -/

theorem sub64_eq {a b : ℕ} (hb : b ≤ a) (ha : a < 2 ^ 64) : sub64 a b = a - b := by
  unfold sub64; omega

theorem mul64_eq {a b : ℕ} (h : a * b < 2 ^ 64) : mul64 a b = a * b := Nat.mod_eq_of_lt h

theorem reduceLoop_spec : ∀ (k v v2 : ℕ),
    (reduceLoop v v2 k).2.2 ≤ k ∧
    (reduceLoop v v2 k).1 = v / 10 ^ (reduceLoop v v2 k).2.2 ∧
    ∀ i < (reduceLoop v v2 k).2.2, v2 * 10 ^ i ≤ U64MAX / 10
  | 0, v, v2 => by simp [reduceLoop]
  | k + 1, v, v2 => by
    by_cases h : v2 ≤ U64MAX / 10
    · have hm : mul64 v2 10 = v2 * 10 := by
        apply mul64_eq
        have h10 : U64MAX / 10 * 10 < 2 ^ 64 := by norm_num [U64MAX]
        omega
      obtain ⟨h1, h2, h3⟩ := reduceLoop_spec k (v / 10) (mul64 v2 10)
      simp only [reduceLoop, if_pos h]
      refine ⟨by omega, ?_, ?_⟩
      · rw [h2, Nat.div_div_eq_div_mul, ← pow_succ']
      · intro i hi
        match i with
        | 0 => simpa using h
        | Nat.succ j =>
          have hj := h3 j (by omega)
          rw [hm] at hj
          calc v2 * 10 ^ (j + 1) = v2 * 10 * 10 ^ j := by ring
          _ ≤ U64MAX / 10 := hj
    · simp [reduceLoop, if_neg h]

theorem scaleLoop_spec : ∀ (k v2 s : ℕ), v2 * 10 ^ k < 2 ^ 64 → s * 10 ^ k < 2 ^ 64 →
    scaleLoop v2 s k = (v2 * 10 ^ k, s * 10 ^ k)
  | 0, v2, s, _, _ => by simp [scaleLoop]
  | k + 1, v2, s, h2, hs => by
    have hv2 : v2 * 10 ≤ v2 * 10 ^ (k + 1) :=
      Nat.mul_le_mul_left v2 (by calc (10:ℕ) = 10 ^ 1 := (pow_one 10).symm
        _ ≤ 10 ^ (k + 1) := Nat.pow_le_pow_right (by norm_num) (by omega))
    have hs2 : s * 10 ≤ s * 10 ^ (k + 1) :=
      Nat.mul_le_mul_left s (by calc (10:ℕ) = 10 ^ 1 := (pow_one 10).symm
        _ ≤ 10 ^ (k + 1) := Nat.pow_le_pow_right (by norm_num) (by omega))
    have e2 : mul64 v2 10 = v2 * 10 := mul64_eq (by omega)
    have es : mul64 s 10 = s * 10 := mul64_eq (by omega)
    have hrec := scaleLoop_spec k (v2 * 10) (s * 10)
      (by rw [mul_assoc, ← pow_succ']; exact h2) (by rw [mul_assoc, ← pow_succ']; exact hs)
    rw [scaleLoop, e2, es, hrec]
    rw [mul_assoc, ← pow_succ', mul_assoc, ← pow_succ']

theorem U64MAX_shift : ∀ m : ℕ, m < 65 → U64MAX >>> (64 - m) = 2 ^ m - 1 := by decide

theorem shift_and3 (x i : ℕ) : (x >>> (i * 2)) &&& 3 = x / 4 ^ i % 4 := by
  have h3 : (3:ℕ) = 2 ^ 2 - 1 := by norm_num
  have h4 : (4:ℕ) ^ i = 2 ^ (i * 2) := by
    rw [mul_comm, pow_mul]; norm_num
  rw [h3, Nat.and_pow_two_sub_one_eq_mod, Nat.shiftRight_eq_div_pow, h4]

theorem clampBits_le {mb : ℕ} (mv : ℕ) (h : mb ≤ 64) : clampBits mb mv ≤ 64 := by
  unfold clampBits maxBitsOf clz64; split_ifs <;> omega

theorem U64MAX_lt : U64MAX < 2 ^ 64 := by norm_num [U64MAX]

/-- The normal form of the record computed by the main branch of
`secp256k1_range_proveparams`, with the loop results expressed arithmetically:
`expf` is the number of radix-10 reduction steps that actually ran. -/
def mkClean (mv mb val expf : ℕ) : ProveParams :=
  let mb1 := clampBits mb mv
  let v1 := (val - mv) / 10 ^ expf
  let mant := max (if v1 = 0 then 1 else Nat.size v1) mb1
  let rings := (mant + 1) / 2
  let rsizes := (List.range rings).map fun i => if i < rings - 1 ∨ mant % 2 = 0 then 4 else 2
  ⟨v1, rings, rsizes, rsizes.sum, (List.range rings).map (fun i => v1 / 4 ^ i % 4),
   val - v1 * 10 ^ expf, mant, 10 ^ expf, (expf : ℤ), mb1⟩

theorem proveparamsMain_eq (mv : ℕ) (e : ℤ) (mb val : ℕ)
    (he0 : 0 ≤ e) (he1 : e ≤ 18) (hmb : mb ≤ 64)
    (hmvval : mv ≤ val) (hval : val ≤ U64MAX) :
    ∃ expf : ℕ,
      proveparamsMain mv e mb val = mkClean mv mb val expf ∧
      expf ≤ e.toNat ∧
      ((clampBits mb mv > 61 ∨ val > I64MAX) → expf = 0) ∧
      (∀ i < expf, (2 ^ clampBits mb mv - 1) * 10 ^ i ≤ U64MAX / 10) := by
  have hvlt : val < 2 ^ 64 := lt_of_le_of_lt hval U64MAX_lt
  have hmb1 : clampBits mb mv ≤ 64 := clampBits_le mv hmb
  have hv2a : (if clampBits mb mv ≠ 0 then U64MAX >>> (64 - clampBits mb mv) else 0) =
      2 ^ clampBits mb mv - 1 := by
    split_ifs with h
    · exact U64MAX_shift _ (by omega)
    · simp at h; simp [h]
  have hsub : sub64 val mv = val - mv := sub64_eq hmvval hvlt
  obtain ⟨hle, heq, hinv⟩ := reduceLoop_spec
    (if clampBits mb mv > 61 ∨ val > I64MAX then (0:ℤ) else e).toNat
    (val - mv) (2 ^ clampBits mb mv - 1)
  set expf := (reduceLoop (val - mv) (2 ^ clampBits mb mv - 1)
    (if clampBits mb mv > 61 ∨ val > I64MAX then (0:ℤ) else e).toNat).2.2 with hexpf
  have hexpfe : expf ≤ e.toNat := by
    refine le_trans hle ?_
    split <;> simp <;> omega
  have hexpf18 : expf ≤ 18 := le_trans hexpfe (by omega)
  have hdivle : (val - mv) / 10 ^ expf * 10 ^ expf ≤ val - mv := Nat.div_mul_le_self _ _
  have h10 : (10:ℕ) ^ expf < 2 ^ 64 := by
    calc (10:ℕ) ^ expf ≤ 10 ^ 18 := Nat.pow_le_pow_right (by norm_num) hexpf18
    _ < 2 ^ 64 := by norm_num
  have hscale := scaleLoop_spec expf ((val - mv) / 10 ^ expf) 1
    (by omega) (by omega)
  have hm : sub64 val ((val - mv) / 10 ^ expf * 10 ^ expf) =
      val - (val - mv) / 10 ^ expf * 10 ^ expf := sub64_eq (by omega) hvlt
  have hsz : (if (val - mv) / 10 ^ expf ≠ 0 then 64 - clz64 ((val - mv) / 10 ^ expf) else 1) =
      (if (val - mv) / 10 ^ expf = 0 then 1 else Nat.size ((val - mv) / 10 ^ expf)) := by
    have hs64 : Nat.size ((val - mv) / 10 ^ expf) ≤ 64 := by
      rw [Nat.size_le]
      have : (val - mv) / 10 ^ expf ≤ val - mv := Nat.div_le_self _ _
      omega
    unfold clz64
    split_ifs with h1 h2 <;> simp_all <;> omega
  have hmax : ∀ a b : ℕ, (if b > a then b else a) = max a b := by
    intro a b; split_ifs <;> omega
  have hr2 : ∀ m : ℕ, (m + 1) >>> 1 = (m + 1) / 2 := by
    intro m; rw [Nat.shiftRight_eq_div_pow]
  refine ⟨expf, ?_, hexpfe, ?_, fun i hi => hinv i hi⟩
  · simp only [proveparamsMain, mkClean, hv2a, hsub]
    rw [← hexpf, heq, hscale]
    dsimp only
    rw [hm, hsz, one_mul]
    simp only [hmax, hr2, shift_and3]
  · intro h
    rw [hexpf]
    have h0 : (if clampBits mb mv > 61 ∨ val > I64MAX then (0:ℤ) else e).toNat = 0 := by
      rw [if_pos h]; rfl
    omega

theorem mkClean_post (mv mb val expf : ℕ) (hmb : mb ≤ 64) (hmvval : mv ≤ val)
    (hval : val < 2 ^ 64) :
    (mkClean mv mb val expf).v * (mkClean mv mb val expf).scale +
        (mkClean mv mb val expf).min_value = val ∧
    1 ≤ (mkClean mv mb val expf).mantissa ∧ (mkClean mv mb val expf).mantissa ≤ 64 ∧
    1 ≤ (mkClean mv mb val expf).rings ∧ (mkClean mv mb val expf).rings ≤ 32 ∧
    (mkClean mv mb val expf).npub ≤ 128 := by
  have hdivle : (val - mv) / 10 ^ expf * 10 ^ expf ≤ val - mv := Nat.div_mul_le_self _ _
  have hmb1 : clampBits mb mv ≤ 64 := clampBits_le mv hmb
  have hs64 : Nat.size ((val - mv) / 10 ^ expf) ≤ 64 := by
    rw [Nat.size_le]
    have := Nat.div_le_self (val - mv) (10 ^ expf)
    omega
  have hs1 : (val - mv) / 10 ^ expf ≠ 0 → 1 ≤ Nat.size ((val - mv) / 10 ^ expf) := by
    intro h
    have := Nat.size_pos.mpr (Nat.pos_of_ne_zero h)
    omega
  simp only [mkClean]
  refine ⟨by omega, ?_, ?_, ?_, ?_, ?_⟩
  · split_ifs with h <;> simp [le_max_iff] <;> omega
  · have : (if (val - mv) / 10 ^ expf = 0 then 1 else Nat.size ((val - mv) / 10 ^ expf)) ≤ 64 := by
      split_ifs with h <;> omega
    simp only [max_le_iff]
    omega
  · have h1 : 1 ≤ (if (val - mv) / 10 ^ expf = 0 then 1 else Nat.size ((val - mv) / 10 ^ expf)) := by
      split_ifs with h
      · omega
      · exact hs1 h
    have := le_max_left (if (val - mv) / 10 ^ expf = 0 then 1
      else Nat.size ((val - mv) / 10 ^ expf)) (clampBits mb mv)
    omega
  · have h64 : (if (val - mv) / 10 ^ expf = 0 then 1
        else Nat.size ((val - mv) / 10 ^ expf)) ⊔ clampBits mb mv ≤ 64 := by
      simp only [max_le_iff]
      constructor
      · split_ifs with h <;> omega
      · omega
    omega
  · set rings := ((if (val - mv) / 10 ^ expf = 0 then 1
      else Nat.size ((val - mv) / 10 ^ expf)) ⊔ clampBits mb mv + 1) / 2 with hrings
    have h64 : (if (val - mv) / 10 ^ expf = 0 then 1
        else Nat.size ((val - mv) / 10 ^ expf)) ⊔ clampBits mb mv ≤ 64 := by
      simp only [max_le_iff]
      constructor
      · split_ifs with h <;> omega
      · omega
    have hr32 : rings ≤ 32 := by omega
    have hsum : ∀ l : List ℕ, (∀ x ∈ l, x ≤ 4) → l.sum ≤ l.length * 4 := by
      intro l hl
      have := List.sum_le_card_nsmul l 4 hl
      simpa [smul_eq_mul, mul_comm] using this
    refine le_trans (hsum _ ?_) ?_
    · intro x hx
      simp only [List.mem_map] at hx
      obtain ⟨i, _, hxi⟩ := hx
      split_ifs at hxi <;> omega
    · simp only [List.length_map, List.length_range]
      omega

/-- Helper: unpacking an `Option.some` equation for `range_proveparams`. -/
theorem range_proveparams_cases (mv : ℕ) (e : ℤ) (mb val : ℕ) (p : ProveParams)
    (hp : range_proveparams mv e mb val = some p) :
    (mv ≠ U64MAX ∧ 0 ≤ e ∧
      ¬((mv ≠ 0 ∧ val > I64MAX) ∨ (val ≠ 0 ∧ mv ≥ I64MAX)) ∧
      p = proveparamsMain mv e mb val) ∨
    ((mv = U64MAX ∨ ¬0 ≤ e) ∧ p = ⟨0, 1, [1], 2, [0], val, 0, 1, 0, mb⟩) := by
  unfold range_proveparams at hp
  by_cases hU : mv = U64MAX
  · rw [if_pos hU] at hp
    rw [if_neg (by norm_num)] at hp
    right
    exact ⟨Or.inl hU, (Option.some_inj.mp hp).symm⟩
  · rw [if_neg hU] at hp
    by_cases he : 0 ≤ e
    · rw [if_pos he] at hp
      split_ifs at hp with hrej <;>
        first
          | exact Option.noConfusion hp
          | exact Or.inl ⟨hU, he, hrej, (Option.some_inj.mp hp).symm⟩
    · rw [if_neg he] at hp
      right
      exact ⟨Or.inr he, (Option.some_inj.mp hp).symm⟩

/-- C7: for every input with `exp ∈ [-1, 18]`, `min_bits ∈ [0, 64]` and
`min_value ≤ value < 2^64` on which `secp256k1_range_proveparams` returns
success, the outputs satisfy `v * scale + min_value = value` in exact unsigned
64-bit arithmetic, `1 ≤ rings ≤ 32`, and `npub ≤ 128`. -/
theorem C7_proveparams_postconditions (mv : ℕ) (e : ℤ) (mb val : ℕ) (p : ProveParams)
    (he0 : -1 ≤ e) (he1 : e ≤ 18) (hmb : mb ≤ 64) (hmvval : mv ≤ val) (hval : val < 2 ^ 64)
    (hp : range_proveparams mv e mb val = some p) :
    p.v * p.scale + p.min_value = val ∧ 1 ≤ p.rings ∧ p.rings ≤ 32 ∧ p.npub ≤ 128 := by
  rcases range_proveparams_cases mv e mb val p hp with ⟨_, he, _, hpeq⟩ | ⟨_, hpeq⟩
  · obtain ⟨expf, hmain, _, _, _⟩ :=
      proveparamsMain_eq mv e mb val he he1 hmb hmvval (by unfold U64MAX; omega)
    obtain ⟨h1, _, _, h4, h5, h6⟩ := mkClean_post mv mb val expf hmb hmvval hval
    rw [hpeq, hmain]
    exact ⟨h1, h4, h5, h6⟩
  · rw [hpeq]
    refine ⟨by simp, by simp, by simp, by simp⟩

/-- Witness for C7 at the concrete input `min_value = 5`, `exp = 2`,
`min_bits = 8`, `value = 12345`. -/
theorem C7_witness :
    ∃ p, range_proveparams 5 2 8 12345 = some p ∧
      p.v * p.scale + p.min_value = 12345 ∧ 1 ≤ p.rings ∧ p.rings ≤ 32 ∧ p.npub ≤ 128 :=
  ⟨_, rfl, C7_proveparams_postconditions 5 2 8 12345 _ (by norm_num) (by norm_num)
    (by norm_num) (by norm_num) (by norm_num) rfl⟩

/-- C5 as stated is false on the code: at `min_value = value = 2^63 - 1`
(with `exp = 0`, `min_bits = 0`) the code rejects, while neither
`min_value > 0 ∧ value ≥ 2^63` nor `value > 0 ∧ min_value ≥ 2^63` holds. -/
theorem C5_counterexample :
    range_proveparams (2 ^ 63 - 1) 0 0 (2 ^ 63 - 1) = none ∧
    ¬((0 < 2 ^ 63 - 1 ∧ 2 ^ 63 ≤ (2 ^ 63 - 1 : ℕ)) ∨
      (0 < 2 ^ 63 - 1 ∧ 2 ^ 63 ≤ (2 ^ 63 - 1 : ℕ))) := by
  constructor
  · rfl
  · decide

/-- C5 (amended): with `min_value ≠ 2^64 - 1` and `exp ≥ 0`,
`secp256k1_range_proveparams` fails exactly when
`(min_value > 0 ∧ value ≥ 2^63) ∨ (value > 0 ∧ min_value ≥ 2^63 - 1)`
(the code compares `min_value` against `INT64_MAX = 2^63 - 1`, not `2^63`);
in every other case it does not reject. -/
theorem C5_overflow_span (mv : ℕ) (e : ℤ) (mb val : ℕ)
    (hmvU : mv ≠ U64MAX) (he0 : 0 ≤ e) :
    range_proveparams mv e mb val = none ↔
      ((0 < mv ∧ 2 ^ 63 ≤ val) ∨ (0 < val ∧ 2 ^ 63 - 1 ≤ mv)) := by
  unfold range_proveparams
  rw [if_neg hmvU, if_pos he0]
  split_ifs with h
  · exact iff_of_true rfl (by unfold I64MAX at h; omega)
  · exact iff_of_false (by simp) (by unfold I64MAX at h; omega)

/-- Witness for the amended C5: at `min_value = 0`, `exp = 3`, `min_bits = 10`,
`value = 12345` neither disjunct holds, so the computation does not reject. -/
theorem C5_witness : range_proveparams 0 3 10 12345 ≠ none := fun h =>
  absurd ((C5_overflow_span 0 3 10 12345 (by decide) (by norm_num)).mp h) (by decide)

/-! ### Byte-buffer helpers -/

/-- Big-endian accumulation of a byte list, as the C loop
`x = (x << 8) | proof[offset + i]`. -/
def beRead (l : List ℕ) : ℕ := l.foldl (fun acc b => acc <<< 8 ||| b) 0

/-- Big-endian serialization of `n` into `len` bytes, as the C loop
`proof[len + i] = (v >> ((len-1-i)*8)) & 255` (position `i` of the resulting
list holds `(n >>> ((len-1-i)*8)) &&& 255`). -/
def beBytes : ℕ → ℕ → List ℕ
  | 0, _ => []
  | len + 1, n => ((n >>> (len * 8)) &&& 255) :: beBytes len n

theorem beStep_eq (acc b : ℕ) (hb : b < 256) : acc <<< 8 ||| b = acc * 256 + b := by
  have hb8 : b < 2 ^ 8 := by omega
  have h := (Nat.mul_add_lt_is_or hb8 acc).symm
  rw [Nat.shiftLeft_eq, mul_comm acc (2 ^ 8), h]

theorem beRead_foldl (l : List ℕ) (hl : ∀ b ∈ l, b < 256) :
    ∀ acc : ℕ, l.foldl (fun acc b => acc <<< 8 ||| b) acc =
      l.foldl (fun acc b => acc * 256 + b) acc := by
  induction l with
  | nil => intro acc; rfl
  | cons b t ih =>
    intro acc
    have hb : b < 256 := hl b (List.mem_cons_self b t)
    simp only [List.foldl_cons]
    rw [beStep_eq acc b hb, ih (fun x hx => hl x (List.mem_cons_of_mem b hx))]

theorem foldl_mul_acc (l : List ℕ) :
    ∀ acc : ℕ, l.foldl (fun acc b => acc * 256 + b) acc =
      acc * 256 ^ l.length + l.foldl (fun acc b => acc * 256 + b) 0 := by
  induction l with
  | nil => intro acc; simp
  | cons b t ih =>
    intro acc
    simp only [List.foldl_cons, List.length_cons]
    rw [ih (acc * 256 + b), ih (0 * 256 + b)]
    ring

theorem beRead_lt (l : List ℕ) (hl : ∀ b ∈ l, b < 256) : beRead l < 256 ^ l.length := by
  unfold beRead
  rw [beRead_foldl l hl]
  induction l with
  | nil => simp
  | cons b t ih =>
    have hb : b < 256 := hl b (List.mem_cons_self b t)
    simp only [List.foldl_cons, List.length_cons]
    rw [foldl_mul_acc]
    have ht := ih (fun x hx => hl x (List.mem_cons_of_mem b hx))
    have h2 : (0 * 256 + b) * 256 ^ t.length ≤ 255 * 256 ^ t.length :=
      Nat.mul_le_mul_right _ (by omega)
    calc (0 * 256 + b) * 256 ^ t.length + t.foldl (fun acc b => acc * 256 + b) 0
        ≤ 255 * 256 ^ t.length + (256 ^ t.length - 1) := by omega
      _ < 256 ^ (t.length + 1) := by
          have : (0:ℕ) < 256 ^ t.length := Nat.pos_pow_of_pos _ (by norm_num)
          rw [pow_succ]
          omega

theorem byte_and255 (x : ℕ) : x &&& 255 = x % 256 := by
  have h : (255:ℕ) = 2 ^ 8 - 1 := by norm_num
  rw [h, Nat.and_pow_two_sub_one_eq_mod]

theorem beBytes_lt : ∀ len n : ℕ, ∀ b ∈ beBytes len n, b < 256
  | 0, _ => by simp [beBytes]
  | len + 1, n => by
    intro b hb
    rw [beBytes] at hb
    rcases List.mem_cons.mp hb with h | h
    · rw [h, byte_and255]; exact Nat.mod_lt _ (by norm_num)
    · exact beBytes_lt len n b h

theorem beBytes_length : ∀ len n : ℕ, (beBytes len n).length = len
  | 0, _ => rfl
  | len + 1, n => by rw [beBytes, List.length_cons, beBytes_length len n]

theorem beRead_cons (b : ℕ) (t : List ℕ) (hb : b < 256) (ht : ∀ x ∈ t, x < 256) :
    beRead (b :: t) = b * 256 ^ t.length + beRead t := by
  have hall : ∀ x ∈ b :: t, x < 256 := by
    intro x hx
    rcases List.mem_cons.mp hx with h | h
    · omega
    · exact ht x h
  unfold beRead
  rw [beRead_foldl _ hall, beRead_foldl t ht]
  simp only [List.foldl_cons]
  rw [foldl_mul_acc]
  norm_num

theorem beRead_beBytes_mod : ∀ len n : ℕ, beRead (beBytes len n) = n % 2 ^ (8 * len)
  | 0, n => by simp [beBytes, beRead, Nat.mod_one]
  | len + 1, n => by
    rw [beBytes, beRead_cons _ _ (by rw [byte_and255]; exact Nat.mod_lt _ (by norm_num))
      (beBytes_lt len n), beRead_beBytes_mod len n, beBytes_length]
    rw [byte_and255, Nat.shiftRight_eq_div_pow]
    have h1 : (2:ℕ) ^ (8 * (len + 1)) = 2 ^ (8 * len) * 256 := by
      rw [show 8 * (len + 1) = 8 * len + 8 by ring, pow_add]
      norm_num
    have h2 : (256:ℕ) ^ len = 2 ^ (8 * len) := by
      rw [show (256:ℕ) = 2 ^ 8 by norm_num, ← pow_mul]
    have h3 : (2:ℕ) ^ (len * 8) = 2 ^ (8 * len) := by rw [mul_comm]
    rw [h1, h2, h3, Nat.mod_mul]
    ring

theorem beRead_beBytes (len n : ℕ) (h : n < 2 ^ (8 * len)) : beRead (beBytes len n) = n := by
  rw [beRead_beBytes_mod, Nat.mod_eq_of_lt h]

/-! ### The header parser `secp256k1_rangeproof_getheader_impl` -/

/-- Values left in the output parameters of the header parser. -/
structure Header where
  offset : ℕ
  exp : ℤ
  mantissa : ℕ
  scale : ℕ
  min_value : ℕ
  max_value : ℕ
  deriving DecidableEq

/-- The loop `for (i = 0; i < *exp; i++) { if (*max_value > UINT64_MAX/10)
return 0; *max_value *= 10; *scale *= 10; }` of the header parser. -/
def headerScaleLoop : ℕ → ℕ → ℕ → Option (ℕ × ℕ)
  | mx, sc, 0 => some (mx, sc)
  | mx, sc, k + 1 =>
    if mx > U64MAX / 10 then none
    else headerScaleLoop (mul64 mx 10) (mul64 sc 10) k

/-- Shallow embedding of `secp256k1_rangeproof_getheader_impl` (with the initial
offset 0, as both callers pass).  `none` models `return 0`. -/
def getheader (proof : List ℕ) : Option Header :=
  if proof.length < 65 ∨ proof.getD 0 0 &&& 128 ≠ 0 then none
  else
    if proof.getD 0 0 &&& 64 ≠ 0 then
      if proof.getD 0 0 &&& 31 > 18 then none
      else if proof.getD 1 0 + 1 > 64 then none
      else
        match headerScaleLoop (U64MAX >>> (64 - (proof.getD 1 0 + 1))) 1
            (proof.getD 0 0 &&& 31) with
        | none => none
        | some (max1, scalef) =>
          if proof.getD 0 0 &&& 32 ≠ 0 then
            if proof.length - 2 < 8 then none
            else
              if max1 > U64MAX - beRead ((proof.drop 2).take 8) then none
              else some ⟨10, ((proof.getD 0 0 &&& 31 : ℕ) : ℤ), proof.getD 1 0 + 1, scalef,
                beRead ((proof.drop 2).take 8), max1 + beRead ((proof.drop 2).take 8)⟩
          else
            if max1 > U64MAX - 0 then none
            else some ⟨2, ((proof.getD 0 0 &&& 31 : ℕ) : ℤ), proof.getD 1 0 + 1, scalef, 0, max1⟩
    else
      if proof.getD 0 0 &&& 32 ≠ 0 then
        if proof.length - 1 < 8 then none
        else
          if (0:ℕ) > U64MAX - beRead ((proof.drop 1).take 8) then none
          else some ⟨9, -1, 0, 1, beRead ((proof.drop 1).take 8),
            beRead ((proof.drop 1).take 8)⟩
      else some ⟨1, -1, 0, 1, 0, 0⟩

theorem headerScaleLoop_some : ∀ (k mx sc a b : ℕ), sc * 10 ^ k < 2 ^ 64 →
    headerScaleLoop mx sc k = some (a, b) →
    a = mx * 10 ^ k ∧ b = sc * 10 ^ k ∧ ∀ i < k, mx * 10 ^ i ≤ U64MAX / 10
  | 0, mx, sc, a, b, _, h => by
    simp only [headerScaleLoop, Option.some_inj, Prod.mk.injEq] at h
    obtain ⟨h1, h2⟩ := h
    exact ⟨by simp [← h1], by simp [← h2], by omega⟩
  | k + 1, mx, sc, a, b, hsc, h => by
    rw [headerScaleLoop] at h
    split_ifs at h with hg
    have hsc10 : sc * 10 ≤ sc * 10 ^ (k + 1) :=
      Nat.mul_le_mul_left sc (by
        calc (10:ℕ) = 10 ^ 1 := (pow_one 10).symm
        _ ≤ 10 ^ (k + 1) := Nat.pow_le_pow_right (by norm_num) (by omega))
    have hmx : mul64 mx 10 = mx * 10 := by
      apply mul64_eq
      have h10 : U64MAX / 10 * 10 < 2 ^ 64 := by norm_num [U64MAX]
      omega
    have hsc2 : mul64 sc 10 = sc * 10 := mul64_eq (by omega)
    rw [hmx, hsc2] at h
    obtain ⟨h1, h2, h3⟩ := headerScaleLoop_some k (mx * 10) (sc * 10) a b
      (by rw [mul_assoc, ← pow_succ']; exact hsc) h
    refine ⟨by rw [h1, mul_assoc, ← pow_succ'], by rw [h2, mul_assoc, ← pow_succ'], ?_⟩
    intro i hi
    match i with
    | 0 => simpa using hg
    | Nat.succ j =>
      have := h3 j (by omega)
      calc mx * 10 ^ (j + 1) = mx * 10 * 10 ^ j := by ring
      _ ≤ U64MAX / 10 := this

theorem headerScaleLoop_none : ∀ (k mx sc : ℕ),
    headerScaleLoop mx sc k = none ↔ ∃ i < k, U64MAX / 10 < mx * 10 ^ i
  | 0, mx, sc => by simp [headerScaleLoop]
  | k + 1, mx, sc => by
    rw [headerScaleLoop]
    split_ifs with hg
    · simp only [true_iff]
      exact ⟨0, by omega, by simpa using hg⟩
    · push_neg at hg
      have hmx : mul64 mx 10 = mx * 10 := by
        apply mul64_eq
        have h10 : U64MAX / 10 * 10 < 2 ^ 64 := by norm_num [U64MAX]
        omega
      rw [hmx, headerScaleLoop_none k (mx * 10) (mul64 sc 10)]
      constructor
      · rintro ⟨i, hik, hi⟩
        exact ⟨i + 1, by omega, by calc U64MAX / 10 < mx * 10 * 10 ^ i := hi
          _ = mx * 10 ^ (i + 1) := by ring⟩
      · rintro ⟨i, hik, hi⟩
        match i with
        | 0 => simp at hi; omega
        | Nat.succ j =>
          exact ⟨j, by omega, by calc U64MAX / 10 < mx * 10 ^ (j + 1) := hi
            _ = mx * 10 * 10 ^ j := by ring⟩

theorem beRead_le_U64MAX (l : List ℕ) (k : ℕ) (hl : ∀ b ∈ l, b < 256) :
    beRead ((l.drop k).take 8) ≤ U64MAX := by
  have hsub : ∀ b ∈ (l.drop k).take 8, b < 256 := fun b hb =>
    hl b (List.drop_subset k l (List.take_subset 8 _ hb))
  have h1 := beRead_lt _ hsub
  have hlen : ((l.drop k).take 8).length ≤ 8 := by
    rw [List.length_take]; omega
  have h2 : 256 ^ ((l.drop k).take 8).length ≤ 256 ^ 8 :=
    Nat.pow_le_pow_right (by norm_num) hlen
  have h3 : (256:ℕ) ^ 8 = 18446744073709551616 := by norm_num
  unfold U64MAX
  omega

/-- Success of the header parser determines the outputs: the proven range is
exactly `(2^mantissa - 1) * 10^exp + min_value`, computed without any 64-bit
overflow, and `scale = 10^exp`. -/
theorem getheader_spec (proof : List ℕ) (h : Header) (hbytes : ∀ b ∈ proof, b < 256)
    (hp : getheader proof = some h) :
    h.max_value = (2 ^ h.mantissa - 1) * 10 ^ h.exp.toNat + h.min_value ∧
    h.max_value ≤ U64MAX ∧ h.scale = 10 ^ h.exp.toNat ∧ h.min_value ≤ U64MAX := by
  unfold getheader at hp
  by_cases hc1 : proof.length < 65 ∨ proof.getD 0 0 &&& 128 ≠ 0
  · rw [if_pos hc1] at hp; exact Option.noConfusion hp
  rw [if_neg hc1] at hp
  by_cases hc2 : proof.getD 0 0 &&& 64 ≠ 0
  · rw [if_pos hc2] at hp
    by_cases hc3 : proof.getD 0 0 &&& 31 > 18
    · rw [if_pos hc3] at hp; exact Option.noConfusion hp
    rw [if_neg hc3] at hp
    by_cases hc4 : proof.getD 1 0 + 1 > 64
    · rw [if_pos hc4] at hp; exact Option.noConfusion hp
    rw [if_neg hc4] at hp
    rcases hsl : headerScaleLoop (U64MAX >>> (64 - (proof.getD 1 0 + 1))) 1
        (proof.getD 0 0 &&& 31) with _ | ⟨mx, sc⟩
    · rw [hsl] at hp; exact Option.noConfusion hp
    rw [hsl] at hp
    dsimp only at hp
    have hshift : U64MAX >>> (64 - (proof.getD 1 0 + 1)) =
        2 ^ (proof.getD 1 0 + 1) - 1 := U64MAX_shift _ (by omega)
    have hfuel : proof.getD 0 0 &&& 31 ≤ 18 := by omega
    have hsc : 1 * 10 ^ (proof.getD 0 0 &&& 31) < 2 ^ 64 := by
      have hm1 : (10:ℕ) ^ (proof.getD 0 0 &&& 31) ≤ 10 ^ 18 :=
        Nat.pow_le_pow_right (by norm_num) hfuel
      have h18 : (10:ℕ) ^ 18 < 2 ^ 64 := by norm_num
      omega
    rw [hshift] at hsl
    obtain ⟨hmx, hscv, _⟩ := headerScaleLoop_some _ _ _ _ _ hsc hsl
    have h2m : (2:ℕ) ≤ 2 ^ (proof.getD 1 0 + 1) := by
      calc (2:ℕ) = 2 ^ 1 := by norm_num
      _ ≤ 2 ^ (proof.getD 1 0 + 1) := Nat.pow_le_pow_right (by norm_num) (by omega)
    have h10p : 1 ≤ 10 ^ (proof.getD 0 0 &&& 31) := Nat.one_le_pow _ _ (by norm_num)
    have hmx1 : 1 ≤ mx := by
      rw [hmx]
      exact Nat.mul_pos (by omega) (by omega)
    by_cases hc5 : proof.getD 0 0 &&& 32 ≠ 0
    · rw [if_pos hc5] at hp
      by_cases hc6 : proof.length - 2 < 8
      · rw [if_pos hc6] at hp; exact Option.noConfusion hp
      rw [if_neg hc6] at hp
      by_cases hc7 : mx > U64MAX - beRead ((proof.drop 2).take 8)
      · rw [if_pos hc7] at hp; exact Option.noConfusion hp
      rw [if_neg hc7] at hp
      obtain rfl := (Option.some_inj.mp hp).symm
      simp only
      rw [Int.toNat_natCast]
      exact ⟨by omega, by omega, by omega, by omega⟩
    · rw [if_neg hc5] at hp
      by_cases hc7 : mx > U64MAX - 0
      · rw [if_pos hc7] at hp; exact Option.noConfusion hp
      rw [if_neg hc7] at hp
      obtain rfl := (Option.some_inj.mp hp).symm
      simp only
      rw [Int.toNat_natCast]
      exact ⟨by omega, by omega, by omega, by omega⟩
  · rw [if_neg hc2] at hp
    by_cases hc5 : proof.getD 0 0 &&& 32 ≠ 0
    · rw [if_pos hc5] at hp
      by_cases hc6 : proof.length - 1 < 8
      · rw [if_pos hc6] at hp; exact Option.noConfusion hp
      rw [if_neg hc6] at hp
      rw [if_neg (by omega)] at hp
      obtain rfl := (Option.some_inj.mp hp).symm
      have hmn : beRead ((proof.drop 1).take 8) ≤ U64MAX := beRead_le_U64MAX proof 1 hbytes
      have ht : ((-1:ℤ)).toNat = 0 := rfl
      exact ⟨by simp [ht], hmn, by simp [ht], hmn⟩
    · rw [if_neg hc5] at hp
      obtain rfl := (Option.some_inj.mp hp).symm
      have ht : ((-1:ℤ)).toNat = 0 := rfl
      exact ⟨by simp [ht], by simp, by simp [ht], by simp⟩

/-- The header parser fails when a multiplication step of the base-10 expansion
would exceed `2^64 - 1`. -/
theorem getheader_mul_overflow (proof : List ℕ)
    (hlen : 65 ≤ proof.length) (h128 : proof.getD 0 0 &&& 128 = 0)
    (h64 : proof.getD 0 0 &&& 64 ≠ 0) (h18 : proof.getD 0 0 &&& 31 ≤ 18)
    (hm : proof.getD 1 0 + 1 ≤ 64)
    (hov : ∃ k < proof.getD 0 0 &&& 31,
      U64MAX / 10 < (2 ^ (proof.getD 1 0 + 1) - 1) * 10 ^ k) :
    getheader proof = none := by
  unfold getheader
  rw [if_neg (by push_neg; exact ⟨by omega, h128⟩)]
  rw [if_pos h64, if_neg (by omega : ¬proof.getD 0 0 &&& 31 > 18),
    if_neg (by omega : ¬proof.getD 1 0 + 1 > 64)]
  have hshift : U64MAX >>> (64 - (proof.getD 1 0 + 1)) =
      2 ^ (proof.getD 1 0 + 1) - 1 := U64MAX_shift _ (by omega)
  have hnone : headerScaleLoop (U64MAX >>> (64 - (proof.getD 1 0 + 1))) 1
      (proof.getD 0 0 &&& 31) = none := by
    rw [hshift, headerScaleLoop_none]
    exact hov
  rw [hnone]

/-- The header parser fails when the final addition `min_value + max_value`
would wrap past `2^64`. -/
theorem getheader_add_overflow (proof : List ℕ)
    (hlen : 65 ≤ proof.length) (h128 : proof.getD 0 0 &&& 128 = 0)
    (h64 : proof.getD 0 0 &&& 64 ≠ 0) (h18 : proof.getD 0 0 &&& 31 ≤ 18)
    (hm : proof.getD 1 0 + 1 ≤ 64)
    (hok : ∀ k < proof.getD 0 0 &&& 31,
      (2 ^ (proof.getD 1 0 + 1) - 1) * 10 ^ k ≤ U64MAX / 10)
    (hov : U64MAX - (if proof.getD 0 0 &&& 32 ≠ 0 then beRead ((proof.drop 2).take 8) else 0) <
      (2 ^ (proof.getD 1 0 + 1) - 1) * 10 ^ (proof.getD 0 0 &&& 31)) :
    getheader proof = none := by
  unfold getheader
  rw [if_neg (by push_neg; exact ⟨by omega, h128⟩)]
  rw [if_pos h64, if_neg (by omega : ¬proof.getD 0 0 &&& 31 > 18),
    if_neg (by omega : ¬proof.getD 1 0 + 1 > 64)]
  have hshift : U64MAX >>> (64 - (proof.getD 1 0 + 1)) =
      2 ^ (proof.getD 1 0 + 1) - 1 := U64MAX_shift _ (by omega)
  rcases hsl : headerScaleLoop (U64MAX >>> (64 - (proof.getD 1 0 + 1))) 1
      (proof.getD 0 0 &&& 31) with _ | ⟨mx, sc⟩
  · rfl
  · dsimp only
    have hfuel : proof.getD 0 0 &&& 31 ≤ 18 := h18
    have hsc : 1 * 10 ^ (proof.getD 0 0 &&& 31) < 2 ^ 64 := by
      have hm1 : (10:ℕ) ^ (proof.getD 0 0 &&& 31) ≤ 10 ^ 18 :=
        Nat.pow_le_pow_right (by norm_num) hfuel
      have h18b : (10:ℕ) ^ 18 < 2 ^ 64 := by norm_num
      omega
    rw [hshift] at hsl
    obtain ⟨hmx, _, _⟩ := headerScaleLoop_some _ _ _ _ _ hsc hsl
    by_cases hc5 : proof.getD 0 0 &&& 32 ≠ 0
    · rw [if_pos hc5]
      rw [if_neg (by omega : ¬proof.length - 2 < 8)]
      rw [if_pos hc5] at hov
      rw [if_pos (by omega : mx > U64MAX - beRead ((proof.drop 2).take 8))]
    · rw [if_neg hc5]
      rw [if_neg hc5] at hov
      rw [if_pos (by omega : mx > U64MAX - 0)]

/-- C9: for every proof accepted by the header parser, the returned values
satisfy `max_value = (2^mantissa - 1) * 10^exp + min_value` in exact unsigned
64-bit arithmetic (degenerating to `max_value = min_value` when the
non-zero-range flag is clear, as then `mantissa = 0`), and the parser fails
whenever an intermediate multiplication by 10 would exceed `2^64 - 1` or the
final addition `min_value + max_value` would wrap past `2^64`. -/
theorem C9_header_range_arithmetic (proof : List ℕ) (hbytes : ∀ b ∈ proof, b < 256) :
    (∀ h : Header, getheader proof = some h →
      h.max_value = (2 ^ h.mantissa - 1) * 10 ^ h.exp.toNat + h.min_value ∧
      (2 ^ h.mantissa - 1) * 10 ^ h.exp.toNat + h.min_value ≤ U64MAX) ∧
    (65 ≤ proof.length → proof.getD 0 0 &&& 128 = 0 → proof.getD 0 0 &&& 64 ≠ 0 →
      proof.getD 0 0 &&& 31 ≤ 18 → proof.getD 1 0 + 1 ≤ 64 →
      (∃ k < proof.getD 0 0 &&& 31,
        U64MAX / 10 < (2 ^ (proof.getD 1 0 + 1) - 1) * 10 ^ k) →
      getheader proof = none) ∧
    (65 ≤ proof.length → proof.getD 0 0 &&& 128 = 0 → proof.getD 0 0 &&& 64 ≠ 0 →
      proof.getD 0 0 &&& 31 ≤ 18 → proof.getD 1 0 + 1 ≤ 64 →
      (∀ k < proof.getD 0 0 &&& 31,
        (2 ^ (proof.getD 1 0 + 1) - 1) * 10 ^ k ≤ U64MAX / 10) →
      U64MAX - (if proof.getD 0 0 &&& 32 ≠ 0 then beRead ((proof.drop 2).take 8) else 0) <
        (2 ^ (proof.getD 1 0 + 1) - 1) * 10 ^ (proof.getD 0 0 &&& 31) →
      getheader proof = none) := by
  refine ⟨?_, ?_, ?_⟩
  · intro h hp
    obtain ⟨h1, h2, _, _⟩ := getheader_spec proof h hbytes hp
    exact ⟨h1, h1 ▸ h2⟩
  · exact fun a b c d e f => getheader_mul_overflow proof a b c d e f
  · exact fun a b c d e f g => getheader_add_overflow proof a b c d e f g

/-- Witness for C9: the 65-byte proof with flag byte 64 (non-zero range,
`exp = 0`) and mantissa byte 9 parses with `max_value = 2^10 - 1`. -/
theorem C9_witness :
    ∃ h : Header, getheader (64 :: 9 :: List.replicate 63 0) = some h ∧
      h.max_value = (2 ^ h.mantissa - 1) * 10 ^ h.exp.toNat + h.min_value ∧
      (2 ^ h.mantissa - 1) * 10 ^ h.exp.toNat + h.min_value ≤ U64MAX :=
  ⟨⟨2, 0, 10, 1, 0, 1023⟩, by decide,
    (C9_header_range_arithmetic (64 :: 9 :: List.replicate 63 0) (by decide)).1
      ⟨2, 0, 10, 1, 0, 1023⟩ (by decide)⟩

/-! ### Scalars modulo the curve order -/

/-- Modelled from the spec: the secp256k1 curve group order `n`, the modulus of
the scalar field ("Scalar: integer mod n (curve order)").  The scalar
implementation itself is external to the module under verification. -/
def scalarOrder : ℕ :=
  115792089237316195423570985008687907852837564279074904382605163141518161494337

/-- Modelled from the spec: scalars are integers modulo the curve order. -/
abbrev Scalar : Type := ZMod scalarOrder

/-- Modelled from the spec: `secp256k1_scalar_set_b32` parses 32 big-endian
bytes into a scalar, with an `overflow` flag set when the encoded integer is
`>= n`. -/
def scalar_set_b32 (l : List ℕ) : Scalar × Bool :=
  ((beRead l : Scalar), decide (scalarOrder ≤ beRead l))

/-- Modelled from the spec: `secp256k1_scalar_get_b32` serializes a scalar to
32 big-endian bytes. -/
def scalar_get_b32 (s : Scalar) : List ℕ := beBytes 32 s.val

/-- The accumulation loop of `secp256k1_pedersen_blind_sum`: each 32-byte input
is parsed (rejecting overflow), negated from position `npositive` on, and added
into the accumulator. -/
def blindSumLoop : List (List ℕ) → ℕ → ℕ → Scalar → Option Scalar
  | [], _, _, acc => some acc
  | b :: rest, i, npos, acc =>
    if scalarOrder ≤ beRead b then none
    else blindSumLoop rest (i + 1) npos
      (acc + (if npos ≤ i then -(beRead b : Scalar) else (beRead b : Scalar)))

/-- Shallow embedding of `secp256k1_pedersen_blind_sum` (main_impl.h): the
first `npositive` blinding factors enter positively, the rest negatively, and
the accumulated scalar is serialized with `secp256k1_scalar_get_b32`. -/
def pedersen_blind_sum (blinds : List (List ℕ)) (npositive : ℕ) : Option (List ℕ) :=
  (blindSumLoop blinds 0 npositive 0).map scalar_get_b32

theorem blindSumLoop_spec : ∀ (bs : List (List ℕ)) (i npos : ℕ) (acc : Scalar),
    (blindSumLoop bs i npos acc = none ↔ ∃ b ∈ bs, scalarOrder ≤ beRead b) ∧
    ∀ r, blindSumLoop bs i npos acc = some r →
      r = acc + ((bs.take (npos - i)).map (fun b => (beRead b : Scalar))).sum -
        ((bs.drop (npos - i)).map (fun b => (beRead b : Scalar))).sum
  | [], i, npos, acc => by
    constructor
    · simp [blindSumLoop]
    · intro r hr
      simp only [blindSumLoop, Option.some_inj] at hr
      simp [← hr]
  | b :: rest, i, npos, acc => by
    rw [blindSumLoop]
    by_cases hov : scalarOrder ≤ beRead b
    · rw [if_pos hov]
      constructor
      · simp only [true_iff]
        exact ⟨b, List.mem_cons_self b rest, hov⟩
      · intro r hr; exact Option.noConfusion hr
    · rw [if_neg hov]
      obtain ⟨ih1, ih2⟩ := blindSumLoop_spec rest (i + 1) npos
        (acc + (if npos ≤ i then -(beRead b : Scalar) else (beRead b : Scalar)))
      constructor
      · rw [ih1]
        constructor
        · rintro ⟨x, hx, hxo⟩
          exact ⟨x, List.mem_cons_of_mem b hx, hxo⟩
        · rintro ⟨x, hx, hxo⟩
          rcases List.mem_cons.mp hx with h | h
          · exact absurd (h ▸ hxo) hov
          · exact ⟨x, h, hxo⟩
      · intro r hr
        have heq := ih2 r hr
        by_cases hni : npos ≤ i
        · have h0 : npos - i = 0 := by omega
          have h1 : npos - (i + 1) = 0 := by omega
          rw [h0] at *
          rw [h1, if_pos hni] at heq
          simp only [List.take_zero, List.map_nil, List.sum_nil, List.drop_zero,
            List.map_cons, List.sum_cons] at heq ⊢
          rw [heq]
          ring
        · have hk : npos - i = (npos - (i + 1)) + 1 := by omega
          rw [if_neg hni] at heq
          rw [hk, List.take_succ_cons, List.drop_succ_cons]
          simp only [List.map_cons, List.sum_cons]
          rw [heq]
          ring

/-- C8: `pedersen_blind_sum` over `n` 32-byte blinding values with
`npositive <= n` returns the 32-byte big-endian encoding of
`blinds[0] + ... + blinds[npositive-1] - blinds[npositive] - ... - blinds[n-1]`
reduced modulo the curve order, and fails exactly when some input, read as a
32-byte big-endian integer, is `>=` the curve order. -/
theorem C8_blind_sum (blinds : List (List ℕ)) (npositive : ℕ)
    (hb32 : ∀ b ∈ blinds, b.length = 32 ∧ ∀ x ∈ b, x < 256)
    (hnp : npositive ≤ blinds.length) :
    (pedersen_blind_sum blinds npositive = none ↔
      ∃ b ∈ blinds, scalarOrder ≤ beRead b) ∧
    ∀ out, pedersen_blind_sum blinds npositive = some out →
      out = beBytes 32 ((((blinds.take npositive).map
          (fun b => (beRead b : Scalar))).sum -
        ((blinds.drop npositive).map (fun b => (beRead b : Scalar))).sum).val) := by
  obtain ⟨h1, h2⟩ := blindSumLoop_spec blinds 0 npositive 0
  constructor
  · rw [← h1]
    unfold pedersen_blind_sum
    cases blindSumLoop blinds 0 npositive 0 <;> simp
  · intro out hout
    unfold pedersen_blind_sum at hout
    rcases hl : blindSumLoop blinds 0 npositive 0 with _ | r
    · rw [hl] at hout; exact Option.noConfusion hout
    · rw [hl] at hout
      simp at hout
      have := h2 r hl
      rw [← hout, this]
      simp only [Nat.sub_zero, zero_add]
      rfl

/-- Witness for C8: summing the encodings of 2 and 3 positively and 1
negatively yields the encoding of 4. -/
theorem C8_witness :
    ∃ out, pedersen_blind_sum [beBytes 32 2, beBytes 32 3, beBytes 32 1] 2 = some out ∧
      out = beBytes 32 ((([beBytes 32 2, beBytes 32 3].map
          (fun b => (beRead b : Scalar))).sum -
        ([beBytes 32 1].map (fun b => (beRead b : Scalar))).sum).val) :=
  ⟨_, rfl, (C8_blind_sum [beBytes 32 2, beBytes 32 3, beBytes 32 1] 2
    (by decide) (by decide)).2 _ rfl⟩

/-! ### The auxiliary-generator table (`secp256k1_pedersen_context_build`)

The elliptic-curve group arithmetic (`secp256k1_gej_add_var`,
`secp256k1_gej_double_var`, `secp256k1_gej_neg`, the Jacobian/affine/storage
representation changes) is external to the module under verification, so the
group is modelled abstractly: an additive commutative group `P`, with doubling
as `x + x` and the representation conversions as the identity. -/

/-- The `gbase` sequence of `secp256k1_pedersen_context_build`: starts at the
table generator and is doubled four times between rows (`gbase *= 16`). -/
def gbaseSeq {P : Type} [AddCommGroup P] (g2 : P) : ℕ → P
  | 0 => g2
  | j + 1 =>
    (((gbaseSeq g2 j + gbaseSeq g2 j) + (gbaseSeq g2 j + gbaseSeq g2 j)) +
     ((gbaseSeq g2 j + gbaseSeq g2 j) + (gbaseSeq g2 j + gbaseSeq g2 j))) +
    (((gbaseSeq g2 j + gbaseSeq g2 j) + (gbaseSeq g2 j + gbaseSeq g2 j)) +
     ((gbaseSeq g2 j + gbaseSeq g2 j) + (gbaseSeq g2 j + gbaseSeq g2 j)))

/-- The `numsbase` sequence: doubled between rows, and after row 14 replaced by
`-numsbase + nums_gej` (the code comment: in the last iteration, numsbase is
`(1 - 2^j) * nums` instead). -/
def numsbaseSeq {P : Type} [AddCommGroup P] (ng : P) : ℕ → P
  | 0 => ng
  | j + 1 =>
    if j = 14 then -(numsbaseSeq ng j + numsbaseSeq ng j) + ng
    else numsbaseSeq ng j + numsbaseSeq ng j

/-- Row contents: `precj[j*16] = numsbase` and
`precj[j*16+i] = precj[j*16+i-1] + gbase`. -/
def precjRow {P : Type} [AddCommGroup P] (g2 ng : P) (j : ℕ) : ℕ → P
  | 0 => numsbaseSeq ng j
  | i + 1 => precjRow g2 ng j i + gbaseSeq g2 j

/-- The built 16x16 Pedersen table: `nums_gej` is the nothing-up-my-sleeve
point plus the generator (`/* Add G to make the bits in x uniformly
distributed. */`); affine/storage conversion is representation-only and is
modelled as the identity. -/
def pedersen_prec {P : Type} [AddCommGroup P] (g2 numsPt : P) (j i : ℕ) : P :=
  precjRow g2 (numsPt + g2) j i

/-- The constant-time selection loop of `secp256k1_pedersen_ecmult_small`:
`secp256k1_ge_storage_cmov(&adds, &prec[j][i], i == bits)` for `i = 0..15`
(the accumulator is always overwritten because `bits < 16`, so the initial
value is irrelevant and modelled as 0). -/
def cmovRow {P : Type} [AddCommGroup P] (row : ℕ → P) (bits : ℕ) : P :=
  (List.range 16).foldl (fun adds i => if i = bits then row i else adds) 0

/-- Shallow embedding of `secp256k1_pedersen_ecmult_small` (pedersen_impl.h):
per row `j` the nibble `(gn >> 4j) & 15` selects a column, and the selected
entries are accumulated starting from infinity. -/
def pedersen_ecmult_small {P : Type} [AddCommGroup P] (prec : ℕ → ℕ → P) (gn : ℕ) : P :=
  (List.range 16).foldl (fun r j => r + cmovRow (prec j) ((gn >>> (j * 4)) &&& 15)) 0

theorem cmovRow_eq {P : Type} [AddCommGroup P] (row : ℕ → P) (bits : ℕ) (h : bits < 16) :
    cmovRow row bits = row bits := by
  interval_cases bits <;> rfl

theorem foldl_add_eq {P : Type} [AddCommGroup P] (f : ℕ → P) :
    ∀ (l : List ℕ) (init : P), l.foldl (fun r j => r + f j) init = init + (l.map f).sum
  | [], init => by simp
  | x :: t, init => by
    simp only [List.foldl_cons, List.map_cons, List.sum_cons]
    rw [foldl_add_eq f t (init + f x)]
    abel

theorem gbaseSeq_eq {P : Type} [AddCommGroup P] (g2 : P) :
    ∀ j : ℕ, gbaseSeq g2 j = (16 ^ j) • g2
  | 0 => by simp [gbaseSeq]
  | j + 1 => by
    rw [gbaseSeq, gbaseSeq_eq g2 j]
    rw [show (16:ℕ) ^ (j + 1) = 16 * 16 ^ j by ring, mul_smul]
    generalize (16 ^ j) • g2 = x
    abel

theorem numsbaseSeq_le14 {P : Type} [AddCommGroup P] (ng : P) :
    ∀ j : ℕ, j ≤ 14 → numsbaseSeq ng j = (2 ^ j) • ng
  | 0, _ => by simp [numsbaseSeq]
  | j + 1, h => by
    rw [numsbaseSeq, if_neg (by omega), numsbaseSeq_le14 ng j (by omega)]
    rw [show (2:ℕ) ^ (j + 1) = 2 ^ j + 2 ^ j by ring, add_smul]

theorem numsbaseSeq_15 {P : Type} [AddCommGroup P] (ng : P) :
    numsbaseSeq ng 15 = ng - (2 ^ 15) • ng := by
  rw [show (15:ℕ) = 14 + 1 by norm_num, numsbaseSeq, if_pos rfl,
    numsbaseSeq_le14 ng 14 (by norm_num)]
  rw [show (2:ℕ) ^ 15 = 2 ^ 14 + 2 ^ 14 by norm_num, add_smul]
  abel

/-- The per-row nothing-up-my-sleeve offsets telescope to zero. -/
theorem numsbase_sum_zero {P : Type} [AddCommGroup P] (ng : P) :
    ((List.range 16).map (numsbaseSeq ng)).sum = 0 := by
  have h : List.range 16 = [0,1,2,3,4,5,6,7,8,9,10,11,12,13,14,15] := rfl
  rw [h]
  simp only [List.map_cons, List.map_nil, List.sum_cons, List.sum_nil]
  rw [numsbaseSeq_15 ng]
  rw [numsbaseSeq_le14 ng 0 (by norm_num), numsbaseSeq_le14 ng 1 (by norm_num),
    numsbaseSeq_le14 ng 2 (by norm_num), numsbaseSeq_le14 ng 3 (by norm_num),
    numsbaseSeq_le14 ng 4 (by norm_num), numsbaseSeq_le14 ng 5 (by norm_num),
    numsbaseSeq_le14 ng 6 (by norm_num), numsbaseSeq_le14 ng 7 (by norm_num),
    numsbaseSeq_le14 ng 8 (by norm_num), numsbaseSeq_le14 ng 9 (by norm_num),
    numsbaseSeq_le14 ng 10 (by norm_num), numsbaseSeq_le14 ng 11 (by norm_num),
    numsbaseSeq_le14 ng 12 (by norm_num), numsbaseSeq_le14 ng 13 (by norm_num),
    numsbaseSeq_le14 ng 14 (by norm_num)]
  norm_num
  abel

theorem precjRow_eq {P : Type} [AddCommGroup P] (g2 ng : P) (j : ℕ) :
    ∀ i : ℕ, precjRow g2 ng j i = numsbaseSeq ng j + i • gbaseSeq g2 j
  | 0 => by simp [precjRow]
  | i + 1 => by
    rw [precjRow, precjRow_eq g2 ng j i, succ_nsmul]
    abel

theorem sum_nsmul_const {P : Type} [AddCommGroup P] (x : P) :
    ∀ l : List ℕ, (l.map (fun c => c • x)).sum = l.sum • x
  | [] => by simp
  | c :: t => by
    simp only [List.map_cons, List.sum_cons]
    rw [sum_nsmul_const x t, add_smul]

theorem nibble_eq (gn j : ℕ) : (gn >>> (j * 4)) &&& 15 = gn / 16 ^ j % 16 := by
  have h15 : (15:ℕ) = 2 ^ 4 - 1 := by norm_num
  have h16 : (16:ℕ) ^ j = 2 ^ (j * 4) := by
    rw [mul_comm, pow_mul]; norm_num
  rw [h15, Nat.and_pow_two_sub_one_eq_mod, Nat.shiftRight_eq_div_pow, h16]

theorem digit16_sum : ∀ (k n : ℕ),
    ((List.range k).map (fun j => n / 16 ^ j % 16 * 16 ^ j)).sum = n % 16 ^ k
  | 0, n => by simp [Nat.mod_one]
  | k + 1, n => by
    rw [List.range_succ, List.map_append, List.sum_append, digit16_sum k n]
    simp only [List.map_cons, List.map_nil, List.sum_cons, List.sum_nil]
    rw [pow_succ, Nat.mod_mul]
    ring

/-- Correctness of the constant-time small-scalar multiplier over the built
table: the selected entries accumulate to `gn • g2` because the per-row nums
offsets cancel. -/
theorem pedersen_ecmult_small_eq {P : Type} [AddCommGroup P] (g2 numsPt : P)
    (gn : ℕ) (hgn : gn < 2 ^ 64) :
    pedersen_ecmult_small (pedersen_prec g2 numsPt) gn = gn • g2 := by
  unfold pedersen_ecmult_small
  rw [foldl_add_eq, zero_add]
  have hrow : ∀ j : ℕ, cmovRow (pedersen_prec g2 numsPt j) ((gn >>> (j * 4)) &&& 15) =
      numsbaseSeq (numsPt + g2) j + (gn / 16 ^ j % 16 * 16 ^ j) • g2 := by
    intro j
    have hb : (gn >>> (j * 4)) &&& 15 < 16 := by
      rw [nibble_eq]; exact Nat.mod_lt _ (by norm_num)
    rw [cmovRow_eq _ _ hb]
    unfold pedersen_prec
    rw [precjRow_eq, nibble_eq, gbaseSeq_eq, smul_smul]
  rw [List.map_congr_left (fun j _ => hrow j)]
  rw [List.sum_map_add]
  rw [numsbase_sum_zero, zero_add]
  have hmm : ((List.range 16).map fun j => (gn / 16 ^ j % 16 * 16 ^ j) • g2).sum
      = (((List.range 16).map fun j => gn / 16 ^ j % 16 * 16 ^ j).map fun c => c • g2).sum := by
    rw [List.map_map]
    rfl
  rw [hmm, sum_nsmul_const, digit16_sum]
  congr 1
  have h16 : (16:ℕ) ^ 16 = 2 ^ 64 := by norm_num
  omega

/-- C6: after the auxiliary-generator table for generator `H = G2` is built,
for every 64-bit `s` the constant-time lookup `secp256k1_pedersen_ecmult_small`
returns `s • H`, and the per-row nothing-up-my-sleeve offsets
`numsbase_0 .. numsbase_15` sum to the identity. -/
theorem C6_small_scalar_mult {P : Type} [AddCommGroup P] (g2 numsPt : P)
    (gn : ℕ) (hgn : gn < 2 ^ 64) :
    pedersen_ecmult_small (pedersen_prec g2 numsPt) gn = gn • g2 ∧
    ((List.range 16).map (numsbaseSeq (numsPt + g2))).sum = 0 :=
  ⟨pedersen_ecmult_small_eq g2 numsPt gn hgn, numsbase_sum_zero (numsPt + g2)⟩

/-- Witness for C6 in the additive group of integers with `g2 = 1`,
`nums = 5`, `s = 300`. -/
theorem C6_witness :
    pedersen_ecmult_small (pedersen_prec (1:ℤ) 5) 300 = 300 • (1:ℤ) ∧
    ((List.range 16).map (numsbaseSeq ((5:ℤ) + 1))).sum = 0 :=
  C6_small_scalar_mult (1:ℤ) 5 300 (by norm_num)

/-! ### The tally verifier `secp256k1_pedersen_verify_tally` -/

/-- Modelled from the spec: `secp256k1_sign_and_abs64` (util.h, outside the
module under verification) returns the sign and absolute value of a signed
64-bit integer; `INT64_MIN` maps to `2^63`. -/
def sign_and_abs64 (x : ℤ) : Bool × ℕ := (decide (x < 0), x.natAbs)

/-- Modelled from the spec: `secp256k1_ecmult_gen`, the constant-time
generator multiplication, an external primitive computing `sec * G`. -/
def ecmult_gen {P : Type} [AddCommGroup P] (G : P) (sec : Scalar) : P := sec.val • G

/-- Shallow embedding of `secp256k1_pedersen_ecmult` (pedersen_impl.h):
`sec * G + value * G2`. -/
def pedersen_ecmult {P : Type} [AddCommGroup P] (G g2 numsPt : P)
    (sec : Scalar) (value : ℕ) : P :=
  ecmult_gen G sec + pedersen_ecmult_small (pedersen_prec g2 numsPt) value

/-- The accumulation loops of the tally verifier and of `commit_sum`: parse
each 33-byte commitment (`secp256k1_eckey_pubkey_parse`, an external
primitive, abstracted as `parsePt`) and add it; a parse failure aborts. -/
def addParsedList {P : Type} [AddCommGroup P] (parsePt : List ℕ → Option P) :
    P → List (List ℕ) → Option P
  | acc, [] => some acc
  | acc, c :: rest =>
    match parsePt c with
    | none => none
    | some pt => addParsedList parsePt (acc + pt) rest

/-- Shallow embedding of `secp256k1_pedersen_verify_tally` (main_impl.h):
start from `excess * G2` (via `sign_and_abs64` and the small multiplier), add
the negative commitments, negate, add the positive commitments, and accept
exactly when the accumulator is the point at infinity. -/
def pedersen_verify_tally {P : Type} [AddCommGroup P] [DecidableEq P]
    (parsePt : List ℕ → Option P) (g2 numsPt : P)
    (commits ncommits : List (List ℕ)) (excess : ℤ) : Bool :=
  match addParsedList parsePt
      (if excess ≠ 0 then
        (if (sign_and_abs64 excess).1 then
          -(pedersen_ecmult_small (pedersen_prec g2 numsPt) (sign_and_abs64 excess).2)
         else pedersen_ecmult_small (pedersen_prec g2 numsPt) (sign_and_abs64 excess).2)
       else 0) ncommits with
  | none => false
  | some acc1 =>
    match addParsedList parsePt (-acc1) commits with
    | none => false
    | some acc2 => decide (acc2 = 0)

theorem addParsedList_spec {P : Type} [AddCommGroup P] (parsePt : List ℕ → Option P) :
    ∀ (cs : List (List ℕ)) (Ps : List P),
    List.Forall₂ (fun c p => parsePt c = some p) cs Ps →
    ∀ acc : P, addParsedList parsePt acc cs = some (acc + Ps.sum)
  | [], Ps, h, acc => by
    cases h
    simp [addParsedList]
  | c :: rest, Ps, h, acc => by
    cases h with
    | cons hc hrest =>
      rw [addParsedList, hc]
      dsimp only
      rw [addParsedList_spec parsePt rest _ hrest]
      simp only [List.sum_cons, Option.some_inj]
      abel_nf

/-- The starting accumulator equals `excess • g2` as an integer scalar
multiple. -/
theorem tally_head_eq {P : Type} [AddCommGroup P] (g2 numsPt : P) (excess : ℤ)
    (hex : excess.natAbs < 2 ^ 64) :
    (if excess ≠ 0 then
      (if (sign_and_abs64 excess).1 then
        -(pedersen_ecmult_small (pedersen_prec g2 numsPt) (sign_and_abs64 excess).2)
       else pedersen_ecmult_small (pedersen_prec g2 numsPt) (sign_and_abs64 excess).2)
     else 0) = excess • g2 := by
  by_cases h0 : excess = 0
  · rw [if_neg (by simp [h0])]
    rw [h0, zero_smul]
  · rw [if_pos h0]
    unfold sign_and_abs64
    have hsmall := pedersen_ecmult_small_eq g2 numsPt excess.natAbs hex
    by_cases hneg : excess < 0
    · rw [if_pos (by simpa using hneg)]
      rw [hsmall]
      have : ((excess.natAbs : ℤ)) = -excess := Int.ofNat_natAbs_of_nonpos (by omega)
      calc -(excess.natAbs • g2) = -(((excess.natAbs : ℤ)) • g2) := by rw [natCast_zsmul]
      _ = -((-excess) • g2) := by rw [this]
      _ = excess • g2 := by rw [neg_smul, neg_neg]
    · rw [if_neg (by simpa using hneg)]
      rw [hsmall]
      have : ((excess.natAbs : ℤ)) = excess := Int.natAbs_of_nonneg (by omega)
      calc excess.natAbs • g2 = ((excess.natAbs : ℤ)) • g2 := by rw [natCast_zsmul]
      _ = excess • g2 := by rw [this]

/-- Characterization of the tally verifier on parseable inputs: it accepts
exactly when the group-element identity `Σpos - Σneg - excess*G2 = O` holds. -/
theorem verify_tally_iff {P : Type} [AddCommGroup P] [DecidableEq P]
    (parsePt : List ℕ → Option P) (g2 numsPt : P)
    (pos neg : List (List ℕ)) (Ps Ns : List P) (excess : ℤ)
    (hex : excess.natAbs < 2 ^ 64)
    (hpos : List.Forall₂ (fun c p => parsePt c = some p) pos Ps)
    (hneg : List.Forall₂ (fun c p => parsePt c = some p) neg Ns) :
    pedersen_verify_tally parsePt g2 numsPt pos neg excess = true ↔
      Ps.sum - Ns.sum - excess • g2 = 0 := by
  unfold pedersen_verify_tally
  rw [addParsedList_spec parsePt neg Ns hneg _]
  dsimp only
  rw [addParsedList_spec parsePt pos Ps hpos _]
  dsimp only
  simp only [decide_eq_true_eq]
  have hhead := tally_head_eq g2 numsPt excess hex
  rw [hhead]
  have hre : -((excess • g2) + Ns.sum) + Ps.sum = Ps.sum - Ns.sum - excess • g2 := by abel
  rw [hre]

instance : NeZero scalarOrder := ⟨by norm_num [scalarOrder]⟩

theorem pedersen_zip_sum {P : Type} [AddCommGroup P] (G g2 numsPt : P) :
    ∀ (rs : List Scalar) (vs : List ℕ), rs.length = vs.length →
    (∀ v ∈ vs, v < 2 ^ 64) →
    (List.zipWith (fun r v => pedersen_ecmult G g2 numsPt r v) rs vs).sum =
      ((rs.map ZMod.val).sum) • G + (vs.sum) • g2
  | [], [], _, _ => by simp
  | [], v :: vs, h, _ => by simp at h
  | r :: rs, [], h, _ => by simp at h
  | r :: rs, v :: vs, h, hb => by
    simp only [List.zipWith_cons_cons, List.sum_cons, List.map_cons]
    rw [pedersen_zip_sum G g2 numsPt rs vs (by simpa using h)
      (fun x hx => hb x (List.mem_cons_of_mem v hx))]
    unfold pedersen_ecmult ecmult_gen
    rw [pedersen_ecmult_small_eq g2 numsPt v (hb v (List.mem_cons_self v vs))]
    rw [add_nsmul, add_nsmul]
    abel

theorem scalar_cast_val (s : Scalar) : ((s.val : ℕ) : Scalar) = s := by
  rw [ZMod.natCast_val, ZMod.cast_id]

theorem zmod_sum_diff (rsP rsN : List Scalar) (h : rsP.sum - rsN.sum = 0) :
    ∃ k : ℤ, (((rsP.map ZMod.val).sum : ℕ) : ℤ) - ((rsN.map ZMod.val).sum : ℕ) =
      (scalarOrder : ℤ) * k := by
  have hc : ∀ rs : List Scalar, (((rs.map ZMod.val).sum : ℕ) : Scalar) = rs.sum := by
    intro rs
    rw [Nat.cast_list_sum, List.map_map]
    congr 1
    conv_rhs => rw [← List.map_id rs]
    apply List.map_congr_left
    intro s _
    exact scalar_cast_val s
  have heqz : ((((rsP.map ZMod.val).sum : ℕ)) : Scalar) = (((rsN.map ZMod.val).sum : ℕ)) := by
    rw [hc, hc]
    rw [sub_eq_zero] at h
    exact h
  rw [ZMod.natCast_eq_natCast_iff] at heqz
  obtain ⟨k, hk⟩ := (Nat.modEq_iff_dvd.mp heqz)
  refine ⟨-k, ?_⟩
  rw [mul_neg, ← hk]
  ring

/-- C3: tally exactness.  For parseable commitment lists,
`secp256k1_pedersen_verify_tally` accepts exactly when
`Σpos - Σneg - excess*G2` is the point at infinity; in particular, for
Pedersen commitments whose blinding factors cancel modulo the curve order and
whose values account exactly for `excess`, it accepts, and perturbing `excess`
by any nonzero delta makes it reject (given that `G2` has no small torsion, as
on the real curve). -/
theorem C3_tally_exactness {P : Type} [AddCommGroup P] [DecidableEq P]
    (parsePt : List ℕ → Option P) (G g2 numsPt : P)
    (pos neg : List (List ℕ)) (Ps Ns : List P) (excess : ℤ)
    (hex : excess.natAbs < 2 ^ 64)
    (hpos : List.Forall₂ (fun c p => parsePt c = some p) pos Ps)
    (hneg : List.Forall₂ (fun c p => parsePt c = some p) neg Ns) :
    (pedersen_verify_tally parsePt g2 numsPt pos neg excess = true ↔
      Ps.sum - Ns.sum - excess • g2 = 0) ∧
    (∀ (rsP rsN : List Scalar) (vsP vsN : List ℕ),
      (scalarOrder : ℕ) • G = 0 →
      rsP.length = vsP.length → rsN.length = vsN.length →
      (∀ v ∈ vsP, v < 2 ^ 64) → (∀ v ∈ vsN, v < 2 ^ 64) →
      Ps = List.zipWith (fun r v => pedersen_ecmult G g2 numsPt r v) rsP vsP →
      Ns = List.zipWith (fun r v => pedersen_ecmult G g2 numsPt r v) rsN vsN →
      rsP.sum - rsN.sum = 0 →
      (vsP.map (Nat.cast : ℕ → ℤ)).sum - (vsN.map (Nat.cast : ℕ → ℤ)).sum = excess →
      pedersen_verify_tally parsePt g2 numsPt pos neg excess = true ∧
      ∀ δ : ℤ, δ ≠ 0 → (excess + δ).natAbs < 2 ^ 64 →
        (∀ k : ℤ, k ≠ 0 → k.natAbs ≤ 2 ^ 65 → k • g2 ≠ 0) →
        pedersen_verify_tally parsePt g2 numsPt pos neg (excess + δ) = false) := by
  have hiff := verify_tally_iff parsePt g2 numsPt pos neg Ps Ns excess hex hpos hneg
  refine ⟨hiff, ?_⟩
  intro rsP rsN vsP vsN hGord hlP hlN hbP hbN hPs hNs hr hv
  have hzero : Ps.sum - Ns.sum - excess • g2 = 0 := by
    rw [hPs, hNs, pedersen_zip_sum G g2 numsPt rsP vsP hlP hbP,
      pedersen_zip_sum G g2 numsPt rsN vsN hlN hbN]
    obtain ⟨k, hk⟩ := zmod_sum_diff rsP rsN hr
    have hGz : (scalarOrder : ℤ) • G = 0 := by
      rw [natCast_zsmul]; exact hGord
    have hVP : ((vsP.sum : ℕ) : ℤ) = (vsP.map (Nat.cast : ℕ → ℤ)).sum := Nat.cast_list_sum _
    have hVN : ((vsN.sum : ℕ) : ℤ) = (vsN.map (Nat.cast : ℕ → ℤ)).sum := Nat.cast_list_sum _
    have hsplit :
        ((rsP.map ZMod.val).sum • G + vsP.sum • g2) -
          ((rsN.map ZMod.val).sum • G + vsN.sum • g2) - excess • g2 =
        ((((rsP.map ZMod.val).sum : ℕ) : ℤ) - (((rsN.map ZMod.val).sum : ℕ) : ℤ)) • G +
          ((((vsP.sum : ℕ)) : ℤ) - ((vsN.sum : ℕ) : ℤ) - excess) • g2 := by
      rw [sub_smul, sub_smul, sub_smul, natCast_zsmul, natCast_zsmul, natCast_zsmul,
        natCast_zsmul]
      abel
    rw [hsplit, hk]
    rw [hVP, hVN, hv, sub_self, zero_smul, add_zero]
    rw [mul_smul, smul_comm, hGz, smul_zero]
  constructor
  · exact hiff.mpr hzero
  · intro δ hδ hδex hord
    have hiffδ := verify_tally_iff parsePt g2 numsPt pos neg Ps Ns (excess + δ) hδex hpos hneg
    have hne : Ps.sum - Ns.sum - (excess + δ) • g2 ≠ 0 := by
      have hsplit2 : Ps.sum - Ns.sum - (excess + δ) • g2 =
          (Ps.sum - Ns.sum - excess • g2) - δ • g2 := by
        rw [add_smul]; abel
      rw [hsplit2, hzero, zero_sub]
      intro hcon
      exact hord δ hδ (by omega) (neg_eq_zero.mp hcon)
    rcases Bool.eq_false_or_eq_true (pedersen_verify_tally parsePt g2 numsPt pos neg
      (excess + δ)) with ht | hf
    · exact absurd (hiffδ.mp ht) hne
    · exact hf

/-- Witness for C3 in the additive group of integers: a single positive
commitment to (5, 7) against a single negative commitment to (5, 3) tallies to
excess 4 and rejects excess 5. -/
theorem C3_witness :
    pedersen_verify_tally
      (fun c => some (pedersen_ecmult (0:ℤ) 1 0 (5 : Scalar) (beRead c))) 1 0
      [[7]] [[3]] 4 = true ∧
    pedersen_verify_tally
      (fun c => some (pedersen_ecmult (0:ℤ) 1 0 (5 : Scalar) (beRead c))) 1 0
      [[7]] [[3]] (4 + 1) = false := by
  have h := (C3_tally_exactness
    (fun c => some (pedersen_ecmult (0:ℤ) 1 0 (5 : Scalar) (beRead c))) (0:ℤ) 1 0
    [[7]] [[3]]
    [pedersen_ecmult (0:ℤ) 1 0 (5 : Scalar) 7] [pedersen_ecmult (0:ℤ) 1 0 (5 : Scalar) 3] 4
    (by norm_num)
    (by constructor
        · rfl
        · constructor)
    (by constructor
        · rfl
        · constructor)).2
    [(5 : Scalar)] [(5 : Scalar)] [7] [3]
    (by simp) rfl rfl (by norm_num) (by norm_num) rfl rfl (by norm_num) (by norm_num)
  exact ⟨h.1, h.2 1 (by norm_num) (by norm_num)
    (fun k hk _ => by simpa using hk)⟩

/-- C10: on two empty commitment lists the tally verifier accepts exactly
`excess = 0`: for every nonzero signed 64-bit excess (including `INT64_MIN`,
whose absolute value is `2^63`) the accumulated point `excess*G2` is not
infinity (given `G2` has no small torsion, as on the real curve), so the call
returns false. -/
theorem C10_empty_tally {P : Type} [AddCommGroup P] [DecidableEq P]
    (parsePt : List ℕ → Option P) (g2 numsPt : P) (excess : ℤ)
    (hlo : -(2 ^ 63) ≤ excess) (hhi : excess < 2 ^ 63)
    (hord : ∀ k : ℤ, k ≠ 0 → k.natAbs ≤ 2 ^ 63 → k • g2 ≠ 0) :
    pedersen_verify_tally parsePt g2 numsPt [] [] excess = true ↔ excess = 0 := by
  rw [verify_tally_iff parsePt g2 numsPt [] [] [] [] excess (by omega)
    List.Forall₂.nil List.Forall₂.nil]
  simp only [List.sum_nil]
  rw [sub_self, zero_sub, neg_eq_zero]
  constructor
  · intro h
    by_contra hne
    exact absurd h (hord excess hne (by omega))
  · intro h
    rw [h, zero_smul]

/-- Witness for C10 in the additive group of integers with `g2 = 1`: the
empty tally rejects `INT64_MIN` and accepts 0. -/
theorem C10_witness :
    pedersen_verify_tally (fun _ : List ℕ => (none : Option ℤ)) (1:ℤ) 0 [] [] (-(2 ^ 63))
      ≠ true ∧
    pedersen_verify_tally (fun _ : List ℕ => (none : Option ℤ)) (1:ℤ) 0 [] [] 0 = true := by
  constructor
  · intro ht
    have h := (C10_empty_tally (fun _ : List ℕ => (none : Option ℤ)) (1:ℤ) 0 (-(2 ^ 63))
      (by norm_num) (by norm_num) (fun k hk _ => by simpa using hk)).mp ht
    norm_num at h
  · exact (C10_empty_tally (fun _ : List ℕ => (none : Option ℤ)) (1:ℤ) 0 0
      (by norm_num) (by norm_num) (fun k hk _ => by simpa using hk)).mpr rfl

/-! ### The external primitives used by the prover, verifier and rewinder

All of these are outside the module under verification (spec section 1: the
field/group/scalar arithmetic, SHA-256, the RFC6979 PRNG, the Borromean ring
signature primitive and point serialization are "assumed to be available as
black-box primitives whose contracts are fixed").  They are bundled as
parameters; the contracts the proofs need appear as explicit hypotheses of the
theorems. -/
structure ExtEnv (P : Type) [AddCommGroup P] where
  parsePt : List ℕ → Option P
  serPt : P → Option (List ℕ)
  sha256 : List ℕ → List ℕ
  rfc : List ℕ → ℕ → List ℕ
  borrVerify : List ℕ → List Scalar → List P → List ℕ → ℕ → List ℕ → Bool
  borrEval : List ℕ → List Scalar → List P → List ℕ → ℕ → List ℕ → List Scalar
  borrSign : List Scalar → List P → List Scalar → List Scalar → List ℕ → List ℕ → ℕ →
    List ℕ → Option (List ℕ × List Scalar)
  prec : ℕ → P
  G : P
  g2 : P
  numsPt : P

/-- Byte-wise XOR of two 32-byte buffers (`secp256k1_rangeproof_ch32xor` and
the XOR loop inside genrand). -/
def xor32 (a b : List ℕ) : List ℕ := List.zipWith (fun x y => x ^^^ y) a b

/-- The offsets table `secp256k1_rangeproof_offsets`. -/
def rangeproofOffsets : List ℕ :=
  [0, 96, 189, 276, 360, 438, 510, 579, 642, 699, 753, 801, 843, 882, 915, 942,
   966, 984, 996, 1005]

/-- One expanded ring of `secp256k1_rangeproof_pub_expand`: slot 0 is the
transmitted point, and slot `j` (1-based `j` in the C) adds
`basis[i*3 + j - 1]`. -/
def expandRing {P : Type} [AddCommGroup P] (prec : ℕ → P) (off i rsize : ℕ) (base : P) :
    List P :=
  base :: (List.range (rsize - 1)).map (fun j => base + prec (off + i * 3 + j))

/-- The ring loop of `secp256k1_rangeproof_pub_expand`. -/
def pubExpandGo {P : Type} [AddCommGroup P] (prec : ℕ → P) (off : ℕ) :
    ℕ → List ℕ → List P → List P
  | _, [], _ => []
  | _, _ :: _, [] => []
  | i, rs :: rsizes, base :: bases =>
    expandRing prec off i rs base ++ pubExpandGo prec off (i + 1) rsizes bases

/-- Shallow embedding of `secp256k1_rangeproof_pub_expand` (rangeproof_impl.h):
the per-ring transmitted points are expanded with the basis stratum selected by
`exp` (clamped to 0 when negative). -/
def pub_expand {P : Type} [AddCommGroup P] (prec : ℕ → P) (e : ℤ) (rsizes : List ℕ)
    (bases : List P) : List P :=
  pubExpandGo prec (rangeproofOffsets.getD (if e < 0 then 0 else e.toNat) 0) 0 rsizes bases

/-- The retry loop of genrand for the per-ring blinding scalars:
`do { generate; set_b32 } while (overflow or zero)`.  The C loops until a good
block appears; the model bounds the retries by explicit fuel, so
`genrand` succeeding in the model is exactly the C call terminating with
success. -/
def genrandSec {P : Type} [AddCommGroup P] (env : ExtEnv P) (seed : List ℕ) :
    ℕ → ℕ → Option (Scalar × ℕ)
  | 0, _ => none
  | fuel + 1, ctr =>
    let (x, ov) := scalar_set_b32 (env.rfc seed ctr)
    if ov || decide (x = 0) then genrandSec env seed fuel (ctr + 1)
    else some (x, ctr + 1)

/-- The per-slot loop of genrand for ring `i`: draw a block, XOR it into the
message buffer slice `(i*4 + j) * 32` (updating the buffer in place), parse it
as the forged signature scalar and record overflow/zero in the return flag. -/
def genrandSlots {P : Type} [AddCommGroup P] (env : ExtEnv P) (seed : List ℕ)
    (useMsg : Bool) (i : ℕ) :
    ℕ → ℕ → ℕ → (ℕ → List ℕ) → List Scalar × (ℕ → List ℕ) × Bool × ℕ
  | _, 0, ctr, msg => ([], msg, true, ctr)
  | j, k + 1, ctr, msg =>
    let tmp := if useMsg then xor32 (env.rfc seed ctr) (msg (i * 4 + j)) else env.rfc seed ctr
    let msg1 := if useMsg then Function.update msg (i * 4 + j) tmp else msg
    let p := scalar_set_b32 tmp
    let rest := genrandSlots env seed useMsg i (j + 1) k (ctr + 1) msg1
    (p.1 :: rest.1, rest.2.1, (!(p.2 || decide (p.1 = 0)) && rest.2.2.1), rest.2.2.2)

/-- The ring loop of `secp256k1_rangeproof_genrand`: rings before the last draw
(and retry) a fresh blinding scalar, accumulating it; the last ring receives
the negated accumulator. -/
def genrandGo {P : Type} [AddCommGroup P] (env : ExtEnv P) (seed : List ℕ)
    (useMsg : Bool) (fuel : ℕ) :
    List ℕ → ℕ → Scalar → ℕ → (ℕ → List ℕ) →
    Option (List Scalar × List Scalar × (ℕ → List ℕ) × Bool)
  | [], _, _, _, msg => some ([], [], msg, true)
  | rs :: rest, i, acc, ctr, msg =>
    match
      (if rest.isEmpty then some (-acc, ctr) else genrandSec env seed fuel (ctr + 1)) with
    | none => none
    | some (sec_i, ctr1) =>
      let slots := genrandSlots env seed useMsg i 0 rs ctr1 msg
      match genrandGo env seed useMsg fuel rest (i + 1) (acc + sec_i) slots.2.2.2
          slots.2.1 with
      | none => none
      | some (secs, ss, msg2, ret) =>
        some (sec_i :: secs, slots.1 ++ ss, msg2, slots.2.2.1 && ret)

/-- Shallow embedding of `secp256k1_rangeproof_genrand` (rangeproof_impl.h).
The RFC6979 stream is seeded with `nonce ‖ commit ‖ proof-prefix`; the result
carries the per-ring blinding scalars, the per-slot scalars, the updated
message buffer (indexed by slot, 32 bytes per slot) and the success flag. -/
def rangeproof_genrand {P : Type} [AddCommGroup P] (env : ExtEnv P)
    (msg0 : ℕ → List ℕ) (rsizes : List ℕ) (nonce commit pre : List ℕ) (fuel : ℕ) :
    Option (List Scalar × List Scalar × (ℕ → List ℕ) × Bool) :=
  genrandGo env (nonce ++ commit ++ pre) true fuel rsizes 0 0 0 msg0

/-- The verifier re-derivation of `rings`, `rsizes` and `npub` from the header
mantissa alone (rangeproof_impl.h lines 628-642). -/
def verifierRings (mantissa : ℕ) : ℕ × List ℕ × ℕ :=
  if mantissa ≠ 0 then
    if mantissa % 2 ≠ 0 then
      (mantissa >>> 1 + 1, List.replicate (mantissa >>> 1) 4 ++ [2],
        ((mantissa >>> 1) <<< 2) + 2)
    else (mantissa >>> 1, List.replicate (mantissa >>> 1) 4, (mantissa >>> 1) <<< 2)
  else (1, [1], 1)

/-- `secp256k1_rangeproof_recover_x`: `x = (-s + k) * e^-1`. -/
def recover_x (k e s : Scalar) : Scalar := (-s + k) * e⁻¹

/-- `secp256k1_rangeproof_recover_k`: `k = s + x * e`. -/
def recover_k (x e s : Scalar) : Scalar := s + x * e

/-- A fail-fast effectful map, as the C loops that abort on the first failing
iteration (point parsing, scalar parsing, point serialization). -/
def tryMap {α β : Type} (f : α → Option β) : List α → Option (List β)
  | [] => some []
  | a :: t =>
    match f a with
    | none => none
    | some b =>
      match tryMap f t with
      | none => none
      | some bs => some (b :: bs)

/-- Byte `k` of the sign-bit area written by the prover:
`signs[i>>3] |= (tmp[0] == 3) << (i&7)` for every transmitted ring `i < count`
whose serialization starts with 3 (`heads` holds the leading bytes). -/
def signsByte (heads : List ℕ) (count k : ℕ) : ℕ :=
  (List.range 8).foldl
    (fun acc j =>
      if 8 * k + j < count ∧ heads.getD (8 * k + j) 0 = 3 then acc ||| (1 <<< j) else acc) 0

/-- The value-marker test of the rewinder (rangeproof_impl.h line 462):
high bit of the first byte set and bytes 8-15, 16-23 and 24-31 pairwise
equal. -/
def markerTest (tmp : List ℕ) : Bool :=
  (tmp.getD 0 0 &&& 128 != 0) &&
    (decide ((tmp.drop 16).take 8 = (tmp.drop 24).take 8) &&
      decide ((tmp.drop 8).take 8 = (tmp.drop 16).take 8))

/-- Shallow embedding of `secp256k1_rangeproof_rewind_inner` as called from the
verifier with `message_out = NULL` (the configuration under verification), so
the message-extraction loop is the early return at line 496.  `ev` are the
challenges recovered by `borromean_verify`, `s` the parsed signature scalars.
The genrand reconstruction is bounded by `fuel` exactly as in signing; the C
ignores genrand's return flag, and so does the model. -/
def rangeproof_rewind_inner {P : Type} [AddCommGroup P] (env : ExtEnv P) (fuel : ℕ)
    (ev s : List Scalar) (rsizes : List ℕ) (rings : ℕ)
    (nonce commit proof : List ℕ) (len : ℕ) : Option (Scalar × ℕ) :=
  match rangeproof_genrand env (fun _ => List.replicate 32 0) rsizes nonce commit
      (proof.take len) fuel with
  | none => none
  | some (sec, s_orig, prep, _) =>
    if rings = 1 ∧ rsizes.getD 0 0 = 1 then
      some (recover_x (s_orig.getD 0 0) (ev.getD 0 0) (s.getD 0 0), 0)
    else
      let idxAt : ℕ → ℕ := fun j => ((rings - 1) <<< 2) + rsizes.getD (rings - 1) 0 - 1 - j
      let tmpAt : ℕ → List ℕ := fun j =>
        xor32 (scalar_get_b32 (s.getD (idxAt j) 0)) (prep (idxAt j))
      match (if markerTest (tmpAt 0) then some (0, beRead (((tmpAt 0).drop 24).take 8))
          else if markerTest (tmpAt 1) then some (1, beRead (((tmpAt 1).drop 24).take 8))
          else none : Option (ℕ × ℕ)) with
      | none => none
      | some (j, value) =>
        let skip1 := rsizes.getD (rings - 1) 0 - 1 - j
        let skip2 := (value >>> ((rings - 1) <<< 1)) &&& 3
        if skip1 = skip2 then none
        else
          let t2 := skip2 + ((rings - 1) <<< 2)
          some (recover_x (s_orig.getD t2 0) (ev.getD t2 0) (s.getD t2 0) +
            -(sec.getD (rings - 1) 0), value)

/-- Shallow embedding of `secp256k1_rangeproof_verify_impl`.  `nonceOpt = none`
is plain verification; `nonceOpt = some nonce` is the rewind configuration
(`blindout`/`value_out` present, `message_out` absent).  The result carries the
proven `min_value`, `max_value` and, when rewinding, the recovered blinding
bytes and value. -/
def rangeproof_verify_impl {P : Type} [AddCommGroup P] [DecidableEq P] (env : ExtEnv P) (fuel : ℕ)
    (nonceOpt : Option (List ℕ)) (commit proof : List ℕ) :
    Option (ℕ × ℕ × Option (List ℕ × ℕ)) :=
  match getheader proof with
  | none => none
  | some hdr =>
    let rings := (verifierRings hdr.mantissa).1
    let rsizes := (verifierRings hdr.mantissa).2.1
    let npub := (verifierRings hdr.mantissa).2.2
    if proof.length - hdr.offset < 32 * (npub + rings - 1) + 32 + ((rings + 6) >>> 3) then
      none
    else
      let signs : ℕ → Bool := fun i =>
        proof.getD (hdr.offset + (i >>> 3)) 0 &&& (1 <<< (i &&& 7)) != 0
      let offset1 := hdr.offset + ((rings + 6) >>> 3)
      if (rings - 1) &&& 7 ≠ 0 ∧ proof.getD (offset1 - 1) 0 >>> ((rings - 1) &&& 7) ≠ 0 then
        none
      else
        match tryMap (fun i => env.parsePt ((if signs i then 3 else 2) ::
            (proof.drop (offset1 + 32 * i)).take 32)) (List.range (rings - 1)) with
        | none => none
        | some pts =>
          match env.parsePt commit with
          | none => none
          | some cpt =>
            let acc0 : P := if hdr.min_value ≠ 0 then
                pedersen_ecmult_small (pedersen_prec env.g2 env.numsPt) hdr.min_value
              else 0
            let publast := -(acc0 + pts.sum) + cpt
            if publast = 0 then none
            else
              let pubs := pub_expand env.prec hdr.exp rsizes (pts ++ [publast])
              let offset2 := offset1 + 32 * (rings - 1)
              let e0 := (proof.drop offset2).take 32
              match tryMap (fun i =>
                  let p := scalar_set_b32 ((proof.drop (offset2 + 32 + 32 * i)).take 32)
                  if p.2 then none else some p.1) (List.range npub) with
              | none => none
              | some ss =>
                if offset2 + 32 + 32 * npub ≠ proof.length then none
                else
                  let msg := env.sha256 (commit ++ proof.take hdr.offset ++
                    ((List.range (rings - 1)).map (fun i => (if signs i then 3 else 2) ::
                      (proof.drop (offset1 + 32 * i)).take 32)).flatten)
                  if env.borrVerify e0 ss pubs rsizes rings msg then
                    match nonceOpt with
                    | none => some (hdr.min_value, hdr.max_value, none)
                    | some nonce =>
                      match rangeproof_rewind_inner env fuel
                          (env.borrEval e0 ss pubs rsizes rings msg) ss rsizes rings
                          nonce commit proof hdr.offset with
                      | none => none
                      | some (blind, v0) =>
                        let vv := (mul64 v0 hdr.scale + hdr.min_value) % 2 ^ 64
                        let cr := pedersen_ecmult env.G env.g2 env.numsPt blind vv
                        if cr = 0 then none
                        else
                          match env.serPt cr with
                          | none => none
                          | some creco =>
                            if creco ≠ commit then none
                            else some (hdr.min_value, hdr.max_value,
                              some (scalar_get_b32 blind, vv))
                  else none

/-- Shallow embedding of `secp256k1_pedersen_commit` (main_impl.h):
`commit = serialize(blind*G + value*G2)`, failing on scalar overflow or an
infinite result. -/
def pedersen_commit {P : Type} [AddCommGroup P] [DecidableEq P] (env : ExtEnv P) (blind : List ℕ)
    (value : ℕ) : Option (List ℕ) :=
  let bl := scalar_set_b32 blind
  if bl.2 then none
  else
    let cp := pedersen_ecmult env.G env.g2 env.numsPt bl.1 value
    if cp = 0 then none else env.serPt cp

/-- The value-marker block placed in the prover's `prep` buffer
(rangeproof_impl.h lines 319-330): byte 0 is 128, bytes 1-7 zero, and the
64-bit value big-endian three times. -/
def markerBlock (v : ℕ) : List ℕ :=
  128 :: (List.replicate 7 0 ++ (beBytes 8 v ++ (beBytes 8 v ++ beBytes 8 v)))

/-- The slot of the prover's `prep` buffer holding the value marker: the last
slot of the last ring, or the one before it when the secret index sits
there. -/
def markerSlot (pp : ProveParams) : ℕ :=
  (pp.rings - 1) * 4 +
    (pp.rsizes.getD (pp.rings - 1) 0 - 1 -
      (if pp.secidx.getD (pp.rings - 1) 0 = pp.rsizes.getD (pp.rings - 1) 0 - 1
        then 1 else 0))

/-- The header bytes written by the prover (rangeproof_impl.h lines 296-308):
flag byte, then the mantissa byte when the first ring is non-degenerate, then
8 bytes of big-endian `min_value` when nonzero. -/
def signHeader (pp : ProveParams) : List ℕ :=
  (((if pp.rsizes.getD 0 0 > 1 then 64 ||| pp.exp.toNat else 0) |||
      (if pp.min_value ≠ 0 then 32 else 0)) ::
    ((if pp.rsizes.getD 0 0 > 1 then [pp.mantissa - 1] else []) ++
      (if pp.min_value ≠ 0 then beBytes 8 pp.min_value else [])))

/-- The prover's `prep` buffer as handed to genrand: all zero except the
value-marker block when the last ring has more than one slot. -/
def signPrep (pp : ProveParams) : ℕ → List ℕ :=
  if pp.rsizes.getD (pp.rings - 1) 0 > 1 then
    Function.update (fun _ => List.replicate 32 0) (markerSlot pp) (markerBlock pp.v)
  else fun _ => List.replicate 32 0

/-- The non-forged nonces `k[i] = s[i*4 + secidx[i]]`. -/
def signKs (pp : ProveParams) (s : List Scalar) : List Scalar :=
  (List.range pp.rings).map fun i => s.getD (i * 4 + pp.secidx.getD i 0) 0

/-- The signature array after clearing the non-forged slots
(`secp256k1_scalar_clear(&s[i*4 + secidx[i]])`). -/
def signS1 (pp : ProveParams) (s : List Scalar) : List Scalar :=
  (List.range s.length).map fun t =>
    if (List.range pp.rings).any (fun i => t == i * 4 + pp.secidx.getD i 0)
      then 0 else s.getD t 0

/-- The committed amount fed to ring `i`'s base point:
`((uint64_t)secidx[i] * scale) << (i*2)` in 64-bit arithmetic. -/
def signVals (pp : ProveParams) (i : ℕ) : ℕ :=
  (mul64 (pp.secidx.getD i 0) pp.scale <<< (i * 2)) % 2 ^ 64

/-- The per-ring base points `pubs[npub] = sec[i]*G + vals[i]*G2`. -/
def signBases {P : Type} [AddCommGroup P] (env : ExtEnv P) (pp : ProveParams)
    (sec1 : List Scalar) : List P :=
  (List.range pp.rings).map fun i =>
    pedersen_ecmult env.G env.g2 env.numsPt (sec1.getD i 0) (signVals pp i)

/-- The sign-bit bytes written by the prover. -/
def signSigns (pp : ProveParams) (serL : List (List ℕ)) : List ℕ :=
  (List.range ((pp.rings + 6) >>> 3)).map fun k1 =>
    signsByte ((List.range (pp.rings - 1)).map fun i =>
      (serL.getD i []).getD 0 0) (pp.rings - 1) k1

/-- The transmitted x-coordinates: byte 1 onward of each serialized ring base
point. -/
def signXs (pp : ProveParams) (serL : List (List ℕ)) : List ℕ :=
  ((List.range (pp.rings - 1)).map fun i => (serL.getD i []).drop 1).flatten

/-- Shallow embedding of `secp256k1_rangeproof_sign_impl`.  `plen` is the
caller's buffer size; the result is the written proof (whose length the C
returns in `*plen`).  The per-ring base points are checked for infinity before
the serialization loop; the C interleaves the two checks, but a failure of
either yields `return 0` just the same. -/
def rangeproof_sign_impl {P : Type} [AddCommGroup P] [DecidableEq P] (env : ExtEnv P) (fuel : ℕ)
    (plen : ℕ) (min_value : ℕ) (commit blind nonce : List ℕ) (exp : ℤ)
    (min_bits : ℕ) (value : ℕ) : Option (List ℕ) :=
  if plen < 65 ∨ min_value > value ∨ min_bits > 64 ∨ exp < -1 ∨ exp > 18 then none
  else
    match range_proveparams min_value exp min_bits value with
    | none => none
    | some pp =>
      if plen - (signHeader pp).length <
          32 * (pp.npub + pp.rings - 1) + 32 + ((pp.rings + 6) >>> 3) then none
      else
        match rangeproof_genrand env (signPrep pp) pp.rsizes nonce commit
            (signHeader pp) fuel with
        | none => none
        | some (sec, s, _, ok) =>
          if !ok then none
          else
            let bl := scalar_set_b32 blind
            let secLast := sec.getD (pp.rings - 1) 0 + bl.1
            if bl.2 || decide (secLast = 0) then none
            else
              let sec1 := sec.set (pp.rings - 1) secLast
              if (List.range pp.rings).any
                  (fun i => decide ((signBases env pp sec1).getD i 0 = 0)) then none
              else
                match tryMap (fun i => env.serPt ((signBases env pp sec1).getD i 0))
                    (List.range (pp.rings - 1)) with
                | none => none
                | some serL =>
                  let msg := env.sha256 (commit ++ signHeader pp ++ serL.flatten)
                  match env.borrSign (signS1 pp s)
                      (pub_expand env.prec pp.exp pp.rsizes (signBases env pp sec1))
                      (signKs pp s) sec1 pp.rsizes pp.secidx pp.rings msg with
                  | none => none
                  | some (e0, s2) =>
                    some (signHeader pp ++ (signSigns pp serL ++ (signXs pp serL ++
                      (e0 ++ (s2.map scalar_get_b32).flatten))))

/-- A environment over `ℤ` whose external primitives all reject. -/
def rejectEnv : ExtEnv ℤ :=
  ⟨fun _ => none, fun _ => none, fun _ => List.replicate 32 0,
   fun _ _ => List.replicate 32 0, fun _ _ _ _ _ _ => false,
   fun _ _ _ _ _ _ => [], fun _ _ _ _ _ _ _ _ => none, fun _ => 0, 0, 0, 0⟩

/-- An environment over `ℤ` whose point parser always returns `1` and whose
ring-signature verifier accepts; enough to drive the plain verifier to success
on an exact-value proof. -/
def acceptEnv : ExtEnv ℤ :=
  ⟨fun _ => some 1, fun _ => some (List.replicate 33 0), fun _ => List.replicate 32 0,
   fun _ _ => List.replicate 32 0, fun _ _ _ _ _ _ => true,
   fun _ _ _ _ _ _ => [], fun _ _ _ _ _ _ _ _ => none, fun _ => 0, 0, 0, 0⟩

/-- C4: header robustness of `secp256k1_rangeproof_verify_impl`.  (a) a set
high bit in the flag byte rejects; (b) a decoded exp over 18 or mantissa over
64 rejects; (c) a nonzero pad bit in the last sign-bit byte rejects; (d) on
success the proof length equals the length derived from the header: header
bytes, `(rings+6)>>3` sign bytes, `32*(rings-1)` x-coordinates, 32 bytes `e0`
and `32*npub` signature bytes — so any missing or trailing byte rejects. -/
theorem C4_header_robustness {P : Type} [AddCommGroup P] [DecidableEq P]
    (env : ExtEnv P) (fuel : ℕ) (nonceOpt : Option (List ℕ)) (commit proof : List ℕ) :
    (proof.getD 0 0 &&& 128 ≠ 0 →
      rangeproof_verify_impl env fuel nonceOpt commit proof = none) ∧
    (proof.getD 0 0 &&& 64 ≠ 0 ∧ (proof.getD 0 0 &&& 31 > 18 ∨ proof.getD 1 0 + 1 > 64) →
      rangeproof_verify_impl env fuel nonceOpt commit proof = none) ∧
    (∀ hdr, getheader proof = some hdr →
      ((verifierRings hdr.mantissa).1 - 1) &&& 7 ≠ 0 →
      proof.getD (hdr.offset + (((verifierRings hdr.mantissa).1 + 6) >>> 3) - 1) 0 >>>
          (((verifierRings hdr.mantissa).1 - 1) &&& 7) ≠ 0 →
      rangeproof_verify_impl env fuel nonceOpt commit proof = none) ∧
    (∀ r, rangeproof_verify_impl env fuel nonceOpt commit proof = some r →
      ∃ hdr, getheader proof = some hdr ∧
        proof.length = hdr.offset + (((verifierRings hdr.mantissa).1 + 6) >>> 3) +
          32 * ((verifierRings hdr.mantissa).1 - 1) + 32 +
          32 * (verifierRings hdr.mantissa).2.2) := by
  refine ⟨?_, ?_, ?_, ?_⟩
  · intro h
    have hgh : getheader proof = none := by
      unfold getheader
      rw [if_pos (Or.inr h)]
    unfold rangeproof_verify_impl
    rw [hgh]
  · rintro ⟨h64, hbig⟩
    have hgh : getheader proof = none := by
      unfold getheader
      by_cases hc1 : proof.length < 65 ∨ proof.getD 0 0 &&& 128 ≠ 0
      · rw [if_pos hc1]
      · rw [if_neg hc1, if_pos h64]
        rcases hbig with hexp | hmant
        · rw [if_pos hexp]
        · by_cases hexp : proof.getD 0 0 &&& 31 > 18
          · rw [if_pos hexp]
          · rw [if_neg hexp, if_pos hmant]
    unfold rangeproof_verify_impl
    rw [hgh]
  · intro hdr hhdr hc hbit
    unfold rangeproof_verify_impl
    rw [hhdr]
    dsimp only
    by_cases hlen : proof.length - hdr.offset <
        32 * ((verifierRings hdr.mantissa).2.2 + (verifierRings hdr.mantissa).1 - 1) + 32 +
          (((verifierRings hdr.mantissa).1 + 6) >>> 3)
    · rw [if_pos hlen]
    · rw [if_neg hlen, if_pos ⟨hc, hbit⟩]
  · intro r hr
    unfold rangeproof_verify_impl at hr
    rcases hhdr : getheader proof with _ | hdr
    · rw [hhdr] at hr
      exact Option.noConfusion hr
    · rw [hhdr] at hr
      dsimp only at hr
      refine ⟨hdr, rfl, ?_⟩
      repeat' first
        | exact Option.noConfusion hr
        | split at hr
      all_goals omega

/-- Witness for C4: part (a) at a proof with flag byte 128, part (b) at flag
byte 83 (exp decodes to 19), part (c) at a two-ring proof with pad byte 255,
part (d) at a 65-byte exact-value proof accepted by `acceptEnv`. -/
theorem C4_witness :
    rangeproof_verify_impl rejectEnv 0 none (List.replicate 33 0)
        (128 :: List.replicate 64 0) = none ∧
    rangeproof_verify_impl rejectEnv 0 none (List.replicate 33 0)
        (83 :: List.replicate 64 0) = none ∧
    rangeproof_verify_impl rejectEnv 0 none (List.replicate 33 0)
        (64 :: 3 :: 255 :: List.replicate 62 0) = none ∧
    (∃ hdr, getheader (List.replicate 65 0) = some hdr ∧
      (List.replicate 65 (0:ℕ)).length = hdr.offset +
        (((verifierRings hdr.mantissa).1 + 6) >>> 3) +
        32 * ((verifierRings hdr.mantissa).1 - 1) + 32 +
        32 * (verifierRings hdr.mantissa).2.2) :=
  ⟨(C4_header_robustness rejectEnv 0 none (List.replicate 33 0)
      (128 :: List.replicate 64 0)).1 (by decide),
   (C4_header_robustness rejectEnv 0 none (List.replicate 33 0)
      (83 :: List.replicate 64 0)).2.1 (by decide),
   (C4_header_robustness rejectEnv 0 none (List.replicate 33 0)
      (64 :: 3 :: 255 :: List.replicate 62 0)).2.2.1 ⟨2, 0, 4, 1, 0, 15⟩
      (by decide) (by decide) (by decide),
   (C4_header_robustness acceptEnv 0 none (List.replicate 33 0)
      (List.replicate 65 0)).2.2.2 (0, 0, none) (by decide)⟩

/-! ### Utilities for the end-to-end sign/verify/rewind theorems -/

theorem beBytes_mod : ∀ len n : ℕ, beBytes len n = beBytes len (n % 2 ^ (8 * len))
  | 0, n => rfl
  | len + 1, n => by
    have hsplit : (2:ℕ) ^ (8 * (len + 1)) = 2 ^ (8 * len) * 2 ^ 8 := by
      rw [← pow_add]; ring_nf
    have hpos : (0:ℕ) < 2 ^ (8 * len) := Nat.pos_pow_of_pos _ (by norm_num)
    have hdiv : n % 2 ^ (8 * (len + 1)) / 2 ^ (8 * len) = n / 2 ^ (8 * len) % 2 ^ 8 := by
      rw [hsplit, Nat.mod_mul, Nat.add_mul_div_left _ _ hpos,
        Nat.div_eq_of_lt (Nat.mod_lt _ hpos), zero_add]
    have hmod : n % 2 ^ (8 * (len + 1)) % 2 ^ (8 * len) = n % 2 ^ (8 * len) := by
      rw [hsplit]
      exact Nat.mod_mod_of_dvd n ⟨2 ^ 8, rfl⟩
    rw [beBytes, beBytes]
    congr 1
    · rw [byte_and255, byte_and255, Nat.shiftRight_eq_div_pow, Nat.shiftRight_eq_div_pow,
        mul_comm len 8, hdiv]
      have h256 : (256:ℕ) = 2 ^ 8 := by norm_num
      rw [h256]
      exact (Nat.mod_mod_of_dvd _ dvd_rfl).symm
    · rw [beBytes_mod len n, beBytes_mod len (n % 2 ^ (8 * (len + 1))), hmod]

theorem beBytes_beRead : ∀ l : List ℕ, (∀ b ∈ l, b < 256) →
    beBytes l.length (beRead l) = l
  | [], _ => rfl
  | b :: t, hl => by
    have hb : b < 256 := hl b (List.mem_cons_self b t)
    have ht : ∀ x ∈ t, x < 256 := fun x hx => hl x (List.mem_cons_of_mem b hx)
    have hr : beRead t < 256 ^ t.length := beRead_lt t ht
    have hX : (256:ℕ) ^ t.length = 2 ^ (t.length * 8) := by
      rw [show (256:ℕ) = 2 ^ 8 by norm_num, ← pow_mul, mul_comm]
    have hXpos : (0:ℕ) < 256 ^ t.length := Nat.pos_pow_of_pos _ (by norm_num)
    rw [List.length_cons, beRead_cons b t hb ht, beBytes]
    congr 1
    · rw [byte_and255, Nat.shiftRight_eq_div_pow, ← hX, mul_comm b (256 ^ t.length),
        Nat.mul_add_div hXpos, Nat.div_eq_of_lt hr, add_zero, Nat.mod_eq_of_lt hb]
    · rw [beBytes_mod, mul_comm 8 t.length, ← hX, mul_comm b (256 ^ t.length),
        Nat.mul_add_mod, Nat.mod_eq_of_lt hr]
      exact beBytes_beRead t ht

theorem xorList_zero : ∀ (l : List ℕ) (n : ℕ), l.length = n →
    List.zipWith (fun x y => x ^^^ y) l (List.replicate n 0) = l
  | [], _, h => by simp
  | b :: t, n, h => by
    match n, h with
    | m + 1, h =>
      simp only [List.replicate, List.zipWith_cons_cons, Nat.xor_zero]
      rw [xorList_zero t m (by simpa using h)]

theorem xorList_cancel : ∀ (a b : List ℕ), a.length = b.length →
    List.zipWith (fun x y => x ^^^ y) (List.zipWith (fun x y => x ^^^ y) a b) a = b
  | [], [], _ => rfl
  | [], _ :: _, h => by simp at h
  | _ :: _, [], h => by simp at h
  | x :: a, y :: b, h => by
    simp only [List.zipWith_cons_cons]
    rw [xorList_cancel a b (by simpa using h)]
    congr 1
    rw [Nat.xor_comm x y, Nat.xor_assoc, Nat.xor_self, Nat.xor_zero]

theorem tryMap_of_map {α β : Type} (f : α → Option β) (g : α → β) :
    ∀ l : List α, (∀ a ∈ l, f a = some (g a)) → tryMap f l = some (l.map g)
  | [], _ => rfl
  | a :: t, h => by
    rw [tryMap, h a (List.mem_cons_self a t),
      tryMap_of_map f g t (fun x hx => h x (List.mem_cons_of_mem a hx))]
    rfl

theorem tryMap_forall {α β : Type} (f : α → Option β) :
    ∀ (l : List α) (bs : List β), tryMap f l = some bs →
      List.Forall₂ (fun a b => f a = some b) l bs
  | [], bs, h => by
    rw [tryMap, Option.some_inj] at h
    rw [← h]
    exact List.Forall₂.nil
  | a :: t, bs, h => by
    rw [tryMap] at h
    rcases hf : f a with _ | b
    · rw [hf] at h; exact Option.noConfusion h
    · rw [hf] at h
      rcases ht : tryMap f t with _ | bs'
      · rw [ht] at h; exact Option.noConfusion h
      · rw [ht, Option.some_inj] at h
        rw [← h]
        exact List.Forall₂.cons hf (tryMap_forall f t bs' ht)

theorem flatten_length_const {m : ℕ} :
    ∀ blocks : List (List ℕ), (∀ b ∈ blocks, b.length = m) →
      blocks.flatten.length = m * blocks.length
  | [], _ => by simp
  | b :: t, h => by
    simp only [List.flatten_cons, List.length_append, List.length_cons]
    rw [h b (List.mem_cons_self b t),
      flatten_length_const t (fun x hx => h x (List.mem_cons_of_mem b hx))]
    ring

theorem flatten_drop {m : ℕ} :
    ∀ (i : ℕ) (blocks : List (List ℕ)), (∀ b ∈ blocks, b.length = m) →
      blocks.flatten.drop (m * i) = (blocks.drop i).flatten
  | 0, blocks, _ => by simp
  | i + 1, [], _ => by simp
  | i + 1, b :: t, h => by
    have hb : b.length = m := h b (List.mem_cons_self b t)
    have hmi : m * (i + 1) = b.length + m * i := by rw [hb]; ring
    simp only [List.flatten_cons, List.drop_succ_cons]
    rw [hmi, ← List.drop_drop, List.drop_left]
    exact flatten_drop i t (fun x hx => h x (List.mem_cons_of_mem b hx))

theorem flatten_slice {m : ℕ} (blocks : List (List ℕ))
    (h : ∀ b ∈ blocks, b.length = m) (i : ℕ) (hi : i < blocks.length) :
    (blocks.flatten.drop (m * i)).take m = blocks.getD i [] := by
  rw [flatten_drop i blocks h, List.drop_eq_getElem_cons hi, List.flatten_cons,
    List.take_left' (h _ (List.getElem_mem hi)), List.getD_eq_getElem blocks [] hi]

theorem headerScaleLoop_succeeds : ∀ (k mx sc : ℕ),
    (∀ i < k, mx * 10 ^ i ≤ U64MAX / 10) → sc * 10 ^ k < 2 ^ 64 →
    headerScaleLoop mx sc k = some (mx * 10 ^ k, sc * 10 ^ k)
  | 0, mx, sc, _, _ => by simp [headerScaleLoop]
  | k + 1, mx, sc, hinv, hsc => by
    have h0 : mx ≤ U64MAX / 10 := by simpa using hinv 0 (by omega)
    have hL : U64MAX / 10 * 10 < 2 ^ 64 := by norm_num [U64MAX]
    have hmx : mul64 mx 10 = mx * 10 := mul64_eq (by omega)
    have hsc10 : sc * 10 ≤ sc * 10 ^ (k + 1) := Nat.mul_le_mul_left sc (by
      calc (10:ℕ) = 10 ^ 1 := (pow_one 10).symm
      _ ≤ 10 ^ (k + 1) := Nat.pow_le_pow_right (by norm_num) (by omega))
    have hscm : mul64 sc 10 = sc * 10 := mul64_eq (by omega)
    rw [headerScaleLoop, if_neg (by omega), hmx, hscm,
      headerScaleLoop_succeeds k (mx * 10) (sc * 10)
        (fun i hi => by
          have := hinv (i + 1) (by omega)
          calc mx * 10 * 10 ^ i = mx * 10 ^ (i + 1) := by ring
          _ ≤ U64MAX / 10 := this)
        (by rw [mul_assoc, ← pow_succ']; exact hsc)]
    rw [mul_assoc, ← pow_succ', mul_assoc, ← pow_succ']

theorem digit4_sum : ∀ (k n : ℕ),
    ((List.range k).map (fun j => n / 4 ^ j % 4 * 4 ^ j)).sum = n % 4 ^ k
  | 0, n => by simp [Nat.mod_one]
  | k + 1, n => by
    rw [List.range_succ, List.map_append, List.sum_append, digit4_sum k n]
    simp only [List.map_cons, List.map_nil, List.sum_cons, List.sum_nil]
    rw [pow_succ, Nat.mod_mul]
    ring

theorem mod_smul {P : Type} [AddCommGroup P] (G : P)
    (hGord : (scalarOrder : ℕ) • G = 0) (m : ℕ) :
    (m % scalarOrder) • G = m • G := by
  have hq : (scalarOrder * (m / scalarOrder)) • G =
      (m / scalarOrder) • ((scalarOrder : ℕ) • G) := by
    rw [smul_smul, mul_comm]
  conv_rhs => rw [← Nat.div_add_mod m scalarOrder]
  rw [add_nsmul, hq, hGord, smul_zero, zero_add]

theorem sum_val_smul {P : Type} [AddCommGroup P] (G : P)
    (hGord : (scalarOrder : ℕ) • G = 0) :
    ∀ l : List Scalar, ((l.map ZMod.val).sum) • G = (l.sum).val • G
  | [] => by simp [ZMod.val_zero]
  | x :: t => by
    simp only [List.map_cons, List.sum_cons]
    rw [add_nsmul, sum_val_smul G hGord t, ZMod.val_add, mod_smul G hGord, add_nsmul]

theorem pedersen_range_sum {P : Type} [AddCommGroup P] (G g2 numsPt : P)
    (sc : ℕ → Scalar) (vl : ℕ → ℕ) :
    ∀ n : ℕ, (∀ i < n, vl i < 2 ^ 64) →
    ((List.range n).map (fun i => pedersen_ecmult G g2 numsPt (sc i) (vl i))).sum =
      (((List.range n).map (fun i => (sc i).val)).sum) • G +
        (((List.range n).map vl).sum) • g2
  | 0, _ => by simp
  | n + 1, hb => by
    rw [List.range_succ]
    simp only [List.map_append, List.sum_append, List.map_cons, List.map_nil,
      List.sum_cons, List.sum_nil]
    rw [pedersen_range_sum G g2 numsPt sc vl n (fun i hi => hb i (by omega))]
    unfold pedersen_ecmult ecmult_gen
    rw [pedersen_ecmult_small_eq g2 numsPt (vl n) (hb n (by omega))]
    simp only [add_nsmul, zero_smul, zero_add]
    abel

theorem signsByte_eq (heads : List ℕ) (count k : ℕ) :
    signsByte heads count k =
      (if 8 * k + 0 < count ∧ heads.getD (8 * k + 0) 0 = 3 then 1 else 0) +
      ((if 8 * k + 1 < count ∧ heads.getD (8 * k + 1) 0 = 3 then 2 else 0) +
      ((if 8 * k + 2 < count ∧ heads.getD (8 * k + 2) 0 = 3 then 4 else 0) +
      ((if 8 * k + 3 < count ∧ heads.getD (8 * k + 3) 0 = 3 then 8 else 0) +
      ((if 8 * k + 4 < count ∧ heads.getD (8 * k + 4) 0 = 3 then 16 else 0) +
      ((if 8 * k + 5 < count ∧ heads.getD (8 * k + 5) 0 = 3 then 32 else 0) +
      ((if 8 * k + 6 < count ∧ heads.getD (8 * k + 6) 0 = 3 then 64 else 0) +
       (if 8 * k + 7 < count ∧ heads.getD (8 * k + 7) 0 = 3 then 128 else 0))))))) := by
  unfold signsByte
  rw [show List.range 8 = [0,1,2,3,4,5,6,7] from rfl]
  simp only [List.foldl_cons, List.foldl_nil]
  simp only [← Bool.cond_decide]
  generalize decide (8 * k + 0 < count ∧ heads.getD (8 * k + 0) 0 = 3) = b0
  generalize decide (8 * k + 1 < count ∧ heads.getD (8 * k + 1) 0 = 3) = b1
  generalize decide (8 * k + 2 < count ∧ heads.getD (8 * k + 2) 0 = 3) = b2
  generalize decide (8 * k + 3 < count ∧ heads.getD (8 * k + 3) 0 = 3) = b3
  generalize decide (8 * k + 4 < count ∧ heads.getD (8 * k + 4) 0 = 3) = b4
  generalize decide (8 * k + 5 < count ∧ heads.getD (8 * k + 5) 0 = 3) = b5
  generalize decide (8 * k + 6 < count ∧ heads.getD (8 * k + 6) 0 = 3) = b6
  generalize decide (8 * k + 7 < count ∧ heads.getD (8 * k + 7) 0 = 3) = b7
  revert b0 b1 b2 b3 b4 b5 b6 b7
  decide

theorem signsByte_testBit (heads : List ℕ) (count k j : ℕ) (hj : j < 8) :
    (signsByte heads count k &&& (1 <<< j) ≠ 0) ↔
      (8 * k + j < count ∧ heads.getD (8 * k + j) 0 = 3) := by
  rw [signsByte_eq]
  rw [← @decide_eq_true_eq (8 * k + j < count ∧ heads.getD (8 * k + j) 0 = 3) _]
  simp only [← Bool.cond_decide]
  interval_cases j <;>
  · generalize decide (8 * k + 0 < count ∧ heads.getD (8 * k + 0) 0 = 3) = b0
    generalize decide (8 * k + 1 < count ∧ heads.getD (8 * k + 1) 0 = 3) = b1
    generalize decide (8 * k + 2 < count ∧ heads.getD (8 * k + 2) 0 = 3) = b2
    generalize decide (8 * k + 3 < count ∧ heads.getD (8 * k + 3) 0 = 3) = b3
    generalize decide (8 * k + 4 < count ∧ heads.getD (8 * k + 4) 0 = 3) = b4
    generalize decide (8 * k + 5 < count ∧ heads.getD (8 * k + 5) 0 = 3) = b5
    generalize decide (8 * k + 6 < count ∧ heads.getD (8 * k + 6) 0 = 3) = b6
    generalize decide (8 * k + 7 < count ∧ heads.getD (8 * k + 7) 0 = 3) = b7
    revert b0 b1 b2 b3 b4 b5 b6 b7
    decide

set_option maxHeartbeats 1000000 in
theorem signsByte_shift (heads : List ℕ) (k r : ℕ) (hr : r < 8) :
    signsByte heads (8 * k + r) k >>> r = 0 := by
  rw [signsByte_eq]
  simp only [Nat.add_lt_add_iff_left]
  rw [Nat.shiftRight_eq_div_pow]
  interval_cases r <;> norm_num <;> (split_ifs <;> simp_all) <;> omega

/-- The finite overflow bound behind header acceptance: whenever the scale
loop's last step stayed under `UINT64_MAX/10`, adding a `min_value` below
`2^(64-min_bits)` cannot wrap the final `max_value`. -/
theorem header_fit_bound : ∀ mb < 62, ∀ e < 19, 1 ≤ mb → 1 ≤ e →
    (2 ^ mb - 1) * 10 ^ e ≤ 2 ^ 64 - 6 →
    (2 ^ mb - 1) * 10 ^ e + 2 ^ (64 - mb) + 10 ^ e ≤ 2 ^ 64 := by decide

/-- Bit structure of the prover's flag byte `(64 | exp) | 32` for the four
sign-code combinations. -/
theorem flagByte_bits : ∀ e < 19,
    (((64 ||| e) ||| 32) &&& 128 = 0 ∧ ((64 ||| e) ||| 32) &&& 64 = 64 ∧
      ((64 ||| e) ||| 32) &&& 31 = e ∧ ((64 ||| e) ||| 32) &&& 32 = 32 ∧
      ((64 ||| e) ||| 32) < 256) ∧
    ((64 ||| e) &&& 128 = 0 ∧ (64 ||| e) &&& 64 = 64 ∧ (64 ||| e) &&& 31 = e ∧
      (64 ||| e) &&& 32 = 0 ∧ (64 ||| e) < 256) := by decide

/-- The two arithmetic conditions under which the header parser accepts the
prover's header: every scale-loop step stays under `UINT64_MAX/10`, and the
final `max_value + min_value` does not wrap.  Stated over the `mkClean` record
fields. -/
theorem header_fits (mv mb val expf : ℕ)
    (hmb : mb ≤ 64) (hmvval : mv ≤ val) (hval : val < 2 ^ 64) (hmvU : mv ≠ U64MAX)
    (hNR : ¬((mv ≠ 0 ∧ val > I64MAX) ∨ (val ≠ 0 ∧ mv ≥ I64MAX)))
    (hEXPF0 : (clampBits mb mv > 61 ∨ val > I64MAX) → expf = 0)
    (hINV : ∀ i < expf, (2 ^ clampBits mb mv - 1) * 10 ^ i ≤ U64MAX / 10)
    (hexpf18 : expf ≤ 18) :
    (∀ i < expf,
      (2 ^ (max (if (val - mv) / 10 ^ expf = 0 then 1
          else Nat.size ((val - mv) / 10 ^ expf)) (clampBits mb mv)) - 1) * 10 ^ i ≤
        U64MAX / 10) ∧
    (2 ^ (max (if (val - mv) / 10 ^ expf = 0 then 1
        else Nat.size ((val - mv) / 10 ^ expf)) (clampBits mb mv)) - 1) * 10 ^ expf +
      (val - (val - mv) / 10 ^ expf * 10 ^ expf) ≤ U64MAX := by
  set mb1 := clampBits mb mv with hmb1def
  set v1 := (val - mv) / 10 ^ expf with hv1def
  set σ := if v1 = 0 then 1 else Nat.size v1 with hσdef
  set mant := max σ mb1 with hmantdef
  have hmb1_64 : mb1 ≤ 64 := by
    rw [hmb1def]; unfold clampBits maxBitsOf clz64; split_ifs <;> omega
  have hσ1 : 1 ≤ σ := by
    rw [hσdef]; split_ifs with h
    · omega
    · exact Nat.size_pos.mpr (Nat.pos_of_ne_zero h)
  have hσ64 : σ ≤ 64 := by
    rw [hσdef]
    split_ifs with h
    · omega
    · have : Nat.size v1 ≤ 64 := by
        rw [Nat.size_le]
        have h1 : v1 ≤ val - mv := Nat.div_le_self _ _
        omega
      omega
  have hmant64 : mant ≤ 64 := by omega
  have hmant1 : 1 ≤ mant := by omega
  have hm10 : (0:ℕ) < 10 ^ expf := Nat.pos_pow_of_pos _ (by norm_num)
  have hdm : v1 * 10 ^ expf + (val - mv) % 10 ^ expf = val - mv := Nat.div_add_mod' _ _
  have hmodlt : (val - mv) % 10 ^ expf < 10 ^ expf := Nat.mod_lt _ hm10
  have hv1mul : v1 * 10 ^ expf ≤ val - mv := by omega
  have hmin1 : val - v1 * 10 ^ expf = mv + (val - mv) % 10 ^ expf := by omega
  have hmv_bound : mv ≠ 0 → mv < 2 ^ (64 - mb1) ∧ mb1 ≤ 64 - Nat.size mv := by
    intro h0
    have hsz : mv < 2 ^ Nat.size mv := Nat.lt_size_self mv
    have hszle64 : Nat.size mv ≤ 64 := by
      rw [Nat.size_le]
      omega
    have hle : mb1 ≤ 64 - Nat.size mv := by
      rw [hmb1def]
      unfold clampBits maxBitsOf clz64
      rw [if_pos h0]
      split_ifs <;> omega
    refine ⟨?_, hle⟩
    calc mv < 2 ^ Nat.size mv := hsz
    _ ≤ 2 ^ (64 - mb1) := Nat.pow_le_pow_right (by norm_num) (by omega)
  have hsizemv1 : mv ≠ 0 → 1 ≤ Nat.size mv := fun h0 => Nat.size_pos.mpr (Nat.pos_of_ne_zero h0)
  have hL : U64MAX / 10 = 1844674407370955161 := by norm_num [U64MAX]
  have hcase : mant = mb1 ∧ σ ≤ mb1 ∨ mant = σ ∧ mb1 ≤ σ := by
    rcases Nat.le_total σ mb1 with h | h
    · left; exact ⟨max_eq_right h, h⟩
    · right; exact ⟨max_eq_left h, h⟩
  -- facts used when v1 ≠ 0
  have hv1facts : v1 ≠ 0 → σ = Nat.size v1 ∧ 2 ^ σ ≤ 2 * v1 := by
    intro h0
    have hσs : σ = Nat.size v1 := by rw [hσdef, if_neg h0]
    refine ⟨hσs, ?_⟩
    have hsz1 : 1 ≤ Nat.size v1 := Nat.size_pos.mpr (Nat.pos_of_ne_zero h0)
    have hlow : 2 ^ (σ - 1) ≤ v1 := by
      by_contra hcon
      have : Nat.size v1 ≤ σ - 1 := Nat.size_le.mpr (by omega)
      omega
    have h2 : 2 ^ σ = 2 * 2 ^ (σ - 1) := by
      rw [← pow_succ']
      congr 1
      omega
    omega
  constructor
  · intro i hi
    have hexpf1 : 1 ≤ expf := by omega
    have hvalI : val ≤ I64MAX := by
      by_contra hbig
      have := hEXPF0 (Or.inr (by omega))
      omega
    rcases hcase with ⟨hm, _⟩ | ⟨hm, hble⟩
    · rw [hm]; exact hINV i hi
    · rw [hm]
      rcases (show v1 = 0 ∨ v1 ≠ 0 from by omega) with h0 | h0
      · have hs1 : σ = 1 := by rw [hσdef, if_pos h0]
        rw [hs1]
        have : (10:ℕ) ^ i ≤ 10 ^ 17 := Nat.pow_le_pow_right (by norm_num) (by omega)
        rw [hL]
        norm_num at this ⊢
        omega
      · obtain ⟨hσs, hup⟩ := hv1facts h0
        have hstep : (2 ^ σ - 1) * 10 ^ i * 10 ≤ 2 ^ 64 - 2 := by
          have h1 : (2 ^ σ - 1) * 10 ^ i * 10 = (2 ^ σ - 1) * 10 ^ (i + 1) := by ring
          have h2 : (2 ^ σ - 1) * 10 ^ (i + 1) ≤ (2 ^ σ - 1) * 10 ^ expf :=
            Nat.mul_le_mul_left _ (Nat.pow_le_pow_right (by norm_num) (by omega))
          have h3 : (2 ^ σ - 1) * 10 ^ expf ≤ 2 * v1 * 10 ^ expf :=
            Nat.mul_le_mul_right _ (by omega)
          have h4 : 2 * v1 * 10 ^ expf ≤ 2 * (val - mv) := by
            calc 2 * v1 * 10 ^ expf = 2 * (v1 * 10 ^ expf) := by ring
            _ ≤ 2 * (val - mv) := Nat.mul_le_mul_left _ hv1mul
          have h5 : 2 * (val - mv) ≤ 2 ^ 64 - 2 := by
            unfold I64MAX at hvalI
            omega
          omega
        rw [hL]
        omega
  · rcases (show expf = 0 ∨ 1 ≤ expf from by omega) with he0 | he1
    · subst he0
      have hmin0 : val - v1 * 10 ^ 0 = mv := by
        simp only [pow_zero, Nat.mod_one] at hmin1 ⊢
        omega
      rw [hmin0]
      simp only [pow_zero, mul_one]
      rcases (show mv = 0 ∨ mv ≠ 0 from by omega) with hmv0 | hmv0
      · have : (2:ℕ) ^ mant ≤ 2 ^ 64 := Nat.pow_le_pow_right (by norm_num) hmant64
        unfold U64MAX
        omega
      · have hval0 : val ≠ 0 := by omega
        have hvalI : val ≤ I64MAX := by
          by_contra hbig
          exact hNR (Or.inl ⟨hmv0, by omega⟩)
        obtain ⟨hmvb, hmble⟩ := hmv_bound hmv0
        have hszmv := hsizemv1 hmv0
        rcases hcase with ⟨hm, hσle⟩ | ⟨hm, hble⟩
        · -- mant = mb1, 1 ≤ mb1 ≤ 63
          have hmb1one : 1 ≤ mb1 := by omega
          have h2a : (2:ℕ) ^ mb1 ≤ 2 ^ 63 := Nat.pow_le_pow_right (by norm_num) (by omega)
          have h2b : (2:ℕ) ^ (64 - mb1) ≤ 2 ^ 63 := Nat.pow_le_pow_right (by norm_num) (by omega)
          rw [hm]
          unfold U64MAX
          omega
        · rw [hm]
          rcases (show v1 = 0 ∨ v1 ≠ 0 from by omega) with h0 | h0
          · have hs1 : σ = 1 := by rw [hσdef, if_pos h0]
            have : val = mv := by
              have : val - mv = 0 := by
                rw [hv1def] at h0
                simp only [pow_zero, Nat.div_one] at h0
                omega
              omega
            rw [hs1]
            unfold U64MAX I64MAX at *
            omega
          · obtain ⟨hσs, hup⟩ := hv1facts h0
            have hv1e : v1 = val - mv := by
              rw [hv1def]; simp
            unfold U64MAX I64MAX at *
            omega
    · have hvalI : val ≤ I64MAX := by
        by_contra hbig
        have := hEXPF0 (Or.inr (by omega))
        omega
      rw [hmin1]
      rcases hcase with ⟨hm, hσle⟩ | ⟨hm, hble⟩
      · -- mant = mb1 case with the decide bound
        have hmb1one : 1 ≤ mb1 := by omega
        have hmb61 : mb1 ≤ 61 := by
          by_contra hbig
          have := hEXPF0 (Or.inl (by omega))
          omega
        have hA : (2 ^ mb1 - 1) * 10 ^ expf ≤ 2 ^ 64 - 6 := by
          have h1 := hINV (expf - 1) (by omega)
          rw [hL] at h1
          have h2 : (2 ^ mb1 - 1) * 10 ^ (expf - 1) * 10 = (2 ^ mb1 - 1) * 10 ^ expf := by
            rw [mul_assoc, ← pow_succ]
            congr 2
            omega
          omega
        have hfit := header_fit_bound mb1 (by omega) expf (by omega) hmb1one he1 hA
        have hmvlt : mv < 2 ^ (64 - mb1) := by
          rcases (show mv = 0 ∨ mv ≠ 0 from by omega) with h | h
          · have : (0:ℕ) < 2 ^ (64 - mb1) := Nat.pos_pow_of_pos _ (by norm_num)
            omega
          · exact (hmv_bound h).1
        rw [hm]
        unfold U64MAX
        omega
      · rw [hm]
        rcases (show v1 = 0 ∨ v1 ≠ 0 from by omega) with h0 | h0
        · have hs1 : σ = 1 := by rw [hσdef, if_pos h0]
          have h10e : (10:ℕ) ^ expf ≤ 10 ^ 18 := Nat.pow_le_pow_right (by norm_num) hexpf18
          rw [hs1]
          have : mv + (val - mv) % 10 ^ expf ≤ val := by omega
          unfold U64MAX I64MAX at *
          norm_num at h10e ⊢
          omega
        · obtain ⟨hσs, hup⟩ := hv1facts h0
          -- (2^σ-1)*10^e + min1 + 10^e ≤ 2*val
          have hkey : (2 ^ σ - 1) * 10 ^ expf + 10 ^ expf ≤ 2 * (v1 * 10 ^ expf) := by
            have h3 : (2 ^ σ - 1) * 10 ^ expf ≤ (2 * v1 - 1) * 10 ^ expf :=
              Nat.mul_le_mul_right _ (by omega)
            have h4 : (2 * v1 - 1) * 10 ^ expf + 10 ^ expf = 2 * v1 * 10 ^ expf := by
              have hv1pos : 1 ≤ v1 := by omega
              have : (2 * v1 - 1) + 1 = 2 * v1 := by omega
              calc (2 * v1 - 1) * 10 ^ expf + 10 ^ expf
                  = ((2 * v1 - 1) + 1) * 10 ^ expf := by ring
              _ = 2 * v1 * 10 ^ expf := by rw [this]
            calc (2 ^ σ - 1) * 10 ^ expf + 10 ^ expf
                ≤ (2 * v1 - 1) * 10 ^ expf + 10 ^ expf := by omega
            _ = 2 * v1 * 10 ^ expf := h4
            _ = 2 * (v1 * 10 ^ expf) := by ring
          have h10e1 : (10:ℕ) ≤ 10 ^ expf := by
            calc (10:ℕ) = 10 ^ 1 := (pow_one 10).symm
            _ ≤ 10 ^ expf := Nat.pow_le_pow_right (by norm_num) he1
          unfold U64MAX I64MAX at *
          omega

theorem getD_range_map {β : Type} (f : ℕ → β) (d : β) (n i : ℕ) (hi : i < n) :
    ((List.range n).map f).getD i d = f i := by
  rw [List.getD_eq_getElem?_getD]
  simp [List.getElem?_map, List.getElem?_range hi]

theorem map_range_const {β : Type} (a : β) :
    ∀ n : ℕ, (List.range n).map (fun _ => a) = List.replicate n a
  | 0 => rfl
  | n + 1 => by
    rw [List.range_succ, List.map_append, map_range_const a n, List.replicate_succ' n a]
    rfl

theorem map_range_ite_const {β : Type} (a b : β) (n : ℕ) (p : ℕ → Prop) [DecidablePred p]
    (h : ∀ i < n, p i) :
    (List.range n).map (fun i => if p i then a else b) = List.replicate n a := by
  rw [List.map_congr_left (fun i hi => if_pos (h i (List.mem_range.mp hi)))]
  exact map_range_const a n

/-- The verifier's re-derivation of the rings layout agrees with the prover's
for every mantissa in 1..64 (claim-relevant consequence of lines 242-248 vs
628-642). -/
theorem verifierRings_eq (m : ℕ) (hm : 1 ≤ m) :
    verifierRings m = ((m + 1) / 2,
      (List.range ((m + 1) / 2)).map
        (fun i => if i < (m + 1) / 2 - 1 ∨ m % 2 = 0 then 4 else 2),
      ((List.range ((m + 1) / 2)).map
        (fun i => if i < (m + 1) / 2 - 1 ∨ m % 2 = 0 then 4 else 2)).sum) := by
  unfold verifierRings
  rw [if_pos (by omega : m ≠ 0)]
  have hshr : m >>> 1 = m / 2 := by rw [Nat.shiftRight_eq_div_pow]
  have hshl : ∀ x : ℕ, x <<< 2 = x * 4 := fun x => by
    rw [Nat.shiftLeft_eq]
  rcases Nat.mod_two_eq_zero_or_one m with h2 | h2
  · rw [if_neg (by omega)]
    have hr : (m + 1) / 2 = m / 2 := by omega
    have hall : (List.range ((m + 1) / 2)).map
        (fun i => if i < (m + 1) / 2 - 1 ∨ m % 2 = 0 then 4 else 2) =
        List.replicate ((m + 1) / 2) 4 :=
      map_range_ite_const 4 2 _ _ (fun i _ => Or.inr h2)
    rw [hall, hshl, hshr, hr, List.sum_replicate, smul_eq_mul]
  · rw [if_pos (by omega)]
    have hr : (m + 1) / 2 = m / 2 + 1 := by omega
    have hsplit : (List.range ((m + 1) / 2)).map
        (fun i => if i < (m + 1) / 2 - 1 ∨ m % 2 = 0 then 4 else 2) =
        List.replicate (m / 2) 4 ++ [2] := by
      rw [hr, List.range_succ, List.map_append]
      congr 1
      · exact map_range_ite_const 4 2 _ _ (fun i hi => Or.inl (by omega))
      · simp only [List.map_cons, List.map_nil]
        rw [if_neg (by omega)]
    rw [hsplit, hshl, hshr, hr]
    refine Prod.ext rfl (Prod.ext rfl ?_)
    show m / 2 * 4 + 2 = (List.replicate (m / 2) 4 ++ [2]).sum
    rw [List.sum_append, List.sum_replicate, smul_eq_mul]
    simp

/-- Structure of the prover's ring sizes (rangeproof_impl.h lines 243-248),
over the `mkClean` record. -/
theorem mkClean_rsizes (mv mb val expf : ℕ) :
    (mkClean mv mb val expf).rsizes.length = (mkClean mv mb val expf).rings ∧
    2 ≤ (mkClean mv mb val expf).rsizes.getD 0 0 ∧
    (∀ i < (mkClean mv mb val expf).rings - 1,
      (mkClean mv mb val expf).rsizes.getD i 0 = 4) ∧
    (mkClean mv mb val expf).rsizes.getD ((mkClean mv mb val expf).rings - 1) 0 =
      (if (mkClean mv mb val expf).mantissa % 2 = 0 then 4 else 2) ∧
    verifierRings (mkClean mv mb val expf).mantissa =
      ((mkClean mv mb val expf).rings, (mkClean mv mb val expf).rsizes,
        (mkClean mv mb val expf).npub) := by
  have hproj : (mkClean mv mb val expf).rsizes =
      (List.range ((mkClean mv mb val expf).rings)).map
        (fun i => if i < (mkClean mv mb val expf).rings - 1 ∨
          (mkClean mv mb val expf).mantissa % 2 = 0 then 4 else 2) := rfl
  have hnp : (mkClean mv mb val expf).npub = (mkClean mv mb val expf).rsizes.sum := rfl
  have hrings : (mkClean mv mb val expf).rings =
      ((mkClean mv mb val expf).mantissa + 1) / 2 := rfl
  have hmant : (mkClean mv mb val expf).mantissa =
      max (if (val - mv) / 10 ^ expf = 0 then 1 else Nat.size ((val - mv) / 10 ^ expf))
        (clampBits mb mv) := rfl
  have hm1 : 1 ≤ (mkClean mv mb val expf).mantissa := by
    rw [hmant]
    refine le_trans ?_ (le_max_left _ _)
    split_ifs with h
    · omega
    · exact Nat.size_pos.mpr (Nat.pos_of_ne_zero h)
  have hr1 : 1 ≤ (mkClean mv mb val expf).rings := by rw [hrings]; omega
  refine ⟨?_, ?_, ?_, ?_, ?_⟩
  · rw [hproj]; simp
  · rw [hproj, getD_range_map _ _ _ _ (by omega)]
    split_ifs <;> omega
  · intro i hi
    rw [hproj, getD_range_map _ _ _ _ (by omega)]
    exact if_pos (Or.inl hi)
  · rw [hproj, getD_range_map _ _ _ _ (by omega)]
    split_ifs <;> omega
  · rw [verifierRings_eq _ hm1, hproj, hnp, hproj, hrings]

theorem genrandSlots_len {P : Type} [AddCommGroup P] (env : ExtEnv P) (seed : List ℕ)
    (u : Bool) (i : ℕ) : ∀ (k j ctr : ℕ) (msg : ℕ → List ℕ),
    (genrandSlots env seed u i j k ctr msg).1.length = k
  | 0, _, _, _ => rfl
  | k + 1, j, ctr, msg => by
    simp only [genrandSlots]
    rw [List.length_cons, genrandSlots_len env seed u i k (j + 1) (ctr + 1) _]

/-- Structural facts about the genrand ring loop: one blinding scalar per ring,
one signature scalar per slot, and the ring blinding factors sum to the negated
incoming accumulator (the last ring receives `-acc`). -/
theorem genrandGo_spec {P : Type} [AddCommGroup P] (env : ExtEnv P) (seed : List ℕ)
    (u : Bool) (fuel : ℕ) :
    ∀ (rsizes : List ℕ) (i : ℕ) (acc : Scalar) (ctr : ℕ) (msg : ℕ → List ℕ)
      (secs ss : List Scalar) (msgO : ℕ → List ℕ) (ok : Bool),
      genrandGo env seed u fuel rsizes i acc ctr msg = some (secs, ss, msgO, ok) →
      secs.length = rsizes.length ∧ ss.length = rsizes.sum ∧
      (rsizes ≠ [] → acc + secs.sum = 0)
  | [], i, acc, ctr, msg, secs, ss, msgO, ok, h => by
    simp only [genrandGo, Option.some_inj, Prod.mk.injEq] at h
    obtain ⟨h1, h2, h3, h4⟩ := h
    subst h1; subst h2
    refine ⟨rfl, rfl, fun hc => absurd rfl hc⟩
  | rs :: rest, i, acc, ctr, msg, secs, ss, msgO, ok, h => by
    simp only [genrandGo] at h
    rcases hd : (if rest.isEmpty then some (-acc, ctr)
        else genrandSec env seed fuel (ctr + 1)) with _ | p
    · rw [hd] at h; exact Option.noConfusion h
    · obtain ⟨sec_i, ctr1⟩ := p
      rw [hd] at h
      dsimp only at h
      rcases hrec : genrandGo env seed u fuel rest (i + 1) (acc + sec_i)
          (genrandSlots env seed u i 0 rs ctr1 msg).2.2.2
          (genrandSlots env seed u i 0 rs ctr1 msg).2.1 with _ | q
      · rw [hrec] at h; exact Option.noConfusion h
      · obtain ⟨secs1, ss1, msgO1, ret⟩ := q
        rw [hrec] at h
        simp only [Option.some_inj, Prod.mk.injEq] at h
        obtain ⟨h1, h2, h3, h4⟩ := h
        obtain ⟨hrl, hsl, hsum⟩ := genrandGo_spec env seed u fuel rest (i + 1)
          (acc + sec_i) _ _ secs1 ss1 msgO1 ret hrec
        subst h1; subst h2
        refine ⟨by simp [hrl], ?_, ?_⟩
        · rw [List.length_append, genrandSlots_len env seed u i rs 0 ctr1 msg, hsl,
            List.sum_cons]
        · intro _
          by_cases hre : rest = []
          · subst hre
            rw [if_pos (by rfl)] at hd
            simp only [Option.some_inj, Prod.mk.injEq] at hd
            simp only [List.length_nil, List.length_eq_zero] at hrl
            subst hrl
            rw [← hd.1]
            simp
          · have := hsum hre
            rw [List.sum_cons, ← add_assoc]
            exact this

/-- The per-ring committed amounts do not wrap and sum to `v * scale`
(rangeproof_impl.h line 360: the digits recompose the reduced value). -/
theorem signVals_sum (mv mb val expf : ℕ) (hval : val < 2 ^ 64)
    (hpost : (mkClean mv mb val expf).v * (mkClean mv mb val expf).scale +
      (mkClean mv mb val expf).min_value = val) :
    (∀ i < (mkClean mv mb val expf).rings,
      signVals (mkClean mv mb val expf) i =
        (mkClean mv mb val expf).secidx.getD i 0 * (mkClean mv mb val expf).scale * 4 ^ i) ∧
    ((List.range (mkClean mv mb val expf).rings).map
      (signVals (mkClean mv mb val expf))).sum =
      (mkClean mv mb val expf).v * (mkClean mv mb val expf).scale := by
  have hsecidx : (mkClean mv mb val expf).secidx =
      (List.range (mkClean mv mb val expf).rings).map
        (fun i => (mkClean mv mb val expf).v / 4 ^ i % 4) := rfl
  have hrings2 : (mkClean mv mb val expf).mantissa ≤ 2 * (mkClean mv mb val expf).rings := by
    have : (mkClean mv mb val expf).rings =
        ((mkClean mv mb val expf).mantissa + 1) / 2 := rfl
    omega
  have hv2m : (mkClean mv mb val expf).v < 2 ^ (mkClean mv mb val expf).mantissa := by
    have hm : (mkClean mv mb val expf).mantissa =
        max (if (val - mv) / 10 ^ expf = 0 then 1
          else Nat.size ((val - mv) / 10 ^ expf)) (clampBits mb mv) := rfl
    have hv : (mkClean mv mb val expf).v = (val - mv) / 10 ^ expf := rfl
    rw [hv, hm]
    rcases (show (val - mv) / 10 ^ expf = 0 ∨ (val - mv) / 10 ^ expf ≠ 0 from by omega)
      with h0 | h0
    · rw [h0]
      exact Nat.pos_pow_of_pos _ (by norm_num)
    · calc (val - mv) / 10 ^ expf < 2 ^ Nat.size ((val - mv) / 10 ^ expf) :=
        Nat.lt_size_self _
      _ ≤ 2 ^ max (if (val - mv) / 10 ^ expf = 0 then 1
          else Nat.size ((val - mv) / 10 ^ expf)) (clampBits mb mv) := by
        apply Nat.pow_le_pow_right (by norm_num)
        rw [if_neg h0]
        exact le_max_left _ _
  have hv4 : (mkClean mv mb val expf).v < 4 ^ (mkClean mv mb val expf).rings := by
    calc (mkClean mv mb val expf).v < 2 ^ (mkClean mv mb val expf).mantissa := hv2m
    _ ≤ 2 ^ (2 * (mkClean mv mb val expf).rings) := Nat.pow_le_pow_right (by norm_num) hrings2
    _ = 4 ^ (mkClean mv mb val expf).rings := by
      rw [pow_mul]
      norm_num
  have hdig : ((List.range (mkClean mv mb val expf).rings).map
      (fun i => (mkClean mv mb val expf).v / 4 ^ i % 4 * 4 ^ i)).sum =
      (mkClean mv mb val expf).v := by
    rw [digit4_sum, Nat.mod_eq_of_lt hv4]
  have hterm_le : ∀ i < (mkClean mv mb val expf).rings,
      (mkClean mv mb val expf).v / 4 ^ i % 4 * 4 ^ i ≤ (mkClean mv mb val expf).v := by
    intro i hi
    have hmem : (mkClean mv mb val expf).v / 4 ^ i % 4 * 4 ^ i ∈
        (List.range (mkClean mv mb val expf).rings).map
          (fun j => (mkClean mv mb val expf).v / 4 ^ j % 4 * 4 ^ j) :=
      List.mem_map.mpr ⟨i, List.mem_range.mpr hi, rfl⟩
    have hle := List.single_le_sum (fun x _ => Nat.zero_le x) _ hmem
    rw [hdig] at hle
    exact hle
  have heach : ∀ i < (mkClean mv mb val expf).rings,
      signVals (mkClean mv mb val expf) i =
        (mkClean mv mb val expf).v / 4 ^ i % 4 * (mkClean mv mb val expf).scale * 4 ^ i := by
    intro i hi
    have hd : (mkClean mv mb val expf).secidx.getD i 0 =
        (mkClean mv mb val expf).v / 4 ^ i % 4 := by
      rw [hsecidx, getD_range_map _ _ _ _ hi]
    have hle1 : (mkClean mv mb val expf).v / 4 ^ i % 4 * (mkClean mv mb val expf).scale *
        4 ^ i < 2 ^ 64 := by
      calc (mkClean mv mb val expf).v / 4 ^ i % 4 * (mkClean mv mb val expf).scale * 4 ^ i
          = ((mkClean mv mb val expf).v / 4 ^ i % 4 * 4 ^ i) *
            (mkClean mv mb val expf).scale := by ring
      _ ≤ (mkClean mv mb val expf).v * (mkClean mv mb val expf).scale :=
        Nat.mul_le_mul_right _ (hterm_le i hi)
      _ < 2 ^ 64 := by omega
    have hle2 : (mkClean mv mb val expf).v / 4 ^ i % 4 * (mkClean mv mb val expf).scale <
        2 ^ 64 := by
      have h4pos : (0:ℕ) < 4 ^ i := Nat.pos_pow_of_pos _ (by norm_num)
      calc (mkClean mv mb val expf).v / 4 ^ i % 4 * (mkClean mv mb val expf).scale
          ≤ (mkClean mv mb val expf).v / 4 ^ i % 4 * (mkClean mv mb val expf).scale *
            4 ^ i := Nat.le_mul_of_pos_right _ h4pos
      _ < 2 ^ 64 := hle1
    unfold signVals
    rw [hd, mul64_eq hle2, Nat.shiftLeft_eq]
    have h4 : (2:ℕ) ^ (i * 2) = 4 ^ i := by
      rw [mul_comm, pow_mul]
      norm_num
    rw [h4, Nat.mod_eq_of_lt hle1]
  constructor
  · intro i hi
    rw [heach i hi, hsecidx, getD_range_map _ _ _ _ hi]
  · rw [List.map_congr_left (fun i hi => heach i (List.mem_range.mp hi))]
    have hre : ∀ i ∈ List.range (mkClean mv mb val expf).rings,
        (mkClean mv mb val expf).v / 4 ^ i % 4 * (mkClean mv mb val expf).scale * 4 ^ i =
        (mkClean mv mb val expf).v / 4 ^ i % 4 * 4 ^ i * (mkClean mv mb val expf).scale :=
      fun i _ => by ring
    rw [List.map_congr_left hre, List.sum_map_mul_right, hdig]

/-- Acceptance of the prover's header by the header parser: given the two
arithmetic bounds, `getheader` on `signHeader pp ++ rest` recovers offset,
exp, mantissa, scale, min_value and the in-range max_value. -/
theorem getheader_signHeader (pp : ProveParams) (expf : ℕ) (rest : List ℕ)
    (hr0 : 2 ≤ pp.rsizes.getD 0 0)
    (hm1 : 1 ≤ pp.mantissa) (hm64 : pp.mantissa ≤ 64)
    (hexp : pp.exp = (expf : ℤ)) (hexpf18 : expf ≤ 18)
    (hmin : pp.min_value < 2 ^ 64)
    (hINV : ∀ i < expf, (2 ^ pp.mantissa - 1) * 10 ^ i ≤ U64MAX / 10)
    (hFIT : (2 ^ pp.mantissa - 1) * 10 ^ expf + pp.min_value ≤ U64MAX)
    (hlen : 65 ≤ (signHeader pp ++ rest).length) :
    getheader (signHeader pp ++ rest) =
      some ⟨(signHeader pp).length, (expf : ℤ), pp.mantissa, 10 ^ expf, pp.min_value,
        (2 ^ pp.mantissa - 1) * 10 ^ expf + pp.min_value⟩ := by
  obtain ⟨⟨hc128, hc64, hc31, hc32, hc256⟩, ⟨hd128, hd64, hd31, hd32, hd256⟩⟩ :=
    flagByte_bits expf (by omega)
  have hsl : headerScaleLoop (2 ^ pp.mantissa - 1) 1 expf =
      some ((2 ^ pp.mantissa - 1) * 10 ^ expf, 10 ^ expf) := by
    have h10 : (1:ℕ) * 10 ^ expf < 2 ^ 64 := by
      rw [one_mul]
      calc (10:ℕ) ^ expf ≤ 10 ^ 18 := Nat.pow_le_pow_right (by norm_num) hexpf18
      _ < 2 ^ 64 := by norm_num
    have := headerScaleLoop_succeeds expf (2 ^ pp.mantissa - 1) 1 hINV h10
    rw [this, one_mul]
  have hshift : U64MAX >>> (64 - (pp.mantissa - 1 + 1)) = 2 ^ pp.mantissa - 1 := by
    rw [show pp.mantissa - 1 + 1 = pp.mantissa from by omega]
    exact U64MAX_shift pp.mantissa (by omega)
  by_cases hminz : pp.min_value ≠ 0
  · have hshape : signHeader pp ++ rest = ((64 ||| expf) ||| 32) ::
        ((pp.mantissa - 1) :: (beBytes 8 pp.min_value ++ rest)) := by
      unfold signHeader
      rw [if_pos (by omega : pp.rsizes.getD 0 0 > 1), hexp, Int.toNat_natCast,
        if_pos hminz, if_pos (by omega : pp.rsizes.getD 0 0 > 1), if_pos hminz]
      simp
    have hlen10 : (signHeader pp).length = 10 := by
      unfold signHeader
      rw [if_pos (by omega : pp.rsizes.getD 0 0 > 1), if_pos hminz,
        if_pos (by omega : pp.rsizes.getD 0 0 > 1), if_pos hminz]
      simp [beBytes_length]
    rw [hshape]
    unfold getheader
    rw [List.getD_cons_zero]
    rw [if_neg (by
      rw [hshape] at hlen
      push_neg
      exact ⟨by omega, by rw [hc128]⟩)]
    rw [if_pos (by rw [hc64]; omega)]
    rw [if_neg (by rw [hc31]; omega)]
    have hg1 : (((64 ||| expf) ||| 32) :: ((pp.mantissa - 1) ::
        (beBytes 8 pp.min_value ++ rest))).getD 1 0 = pp.mantissa - 1 := rfl
    rw [hg1]
    rw [if_neg (by omega)]
    rw [hc31, hshift, hsl]
    dsimp only
    rw [if_pos (by rw [hc32]; omega)]
    rw [if_neg (by
      rw [hshape] at hlen
      simp only [List.length_cons] at hlen ⊢
      omega)]
    have hdrop : ((((64 ||| expf) ||| 32) :: ((pp.mantissa - 1) ::
        (beBytes 8 pp.min_value ++ rest))).drop 2) = beBytes 8 pp.min_value ++ rest := rfl
    rw [hdrop, List.take_left' (beBytes_length 8 pp.min_value),
      beRead_beBytes 8 pp.min_value (by
        have : (2:ℕ) ^ (8 * 8) = 2 ^ 64 := by norm_num
        omega)]
    rw [if_neg (by omega)]
    rw [hlen10]
    rw [show pp.mantissa - 1 + 1 = pp.mantissa from by omega]
  · push_neg at hminz
    have hshape : signHeader pp ++ rest = (64 ||| expf) ::
        ((pp.mantissa - 1) :: rest) := by
      unfold signHeader
      rw [if_pos (by omega : pp.rsizes.getD 0 0 > 1), hexp, Int.toNat_natCast,
        if_neg (by omega : ¬ pp.min_value ≠ 0),
        if_pos (by omega : pp.rsizes.getD 0 0 > 1),
        if_neg (by omega : ¬ pp.min_value ≠ 0)]
      simp
    have hlen2 : (signHeader pp).length = 2 := by
      unfold signHeader
      rw [if_pos (by omega : pp.rsizes.getD 0 0 > 1),
        if_neg (by omega : ¬ pp.min_value ≠ 0),
        if_pos (by omega : pp.rsizes.getD 0 0 > 1),
        if_neg (by omega : ¬ pp.min_value ≠ 0)]
      simp
    rw [hshape]
    unfold getheader
    rw [List.getD_cons_zero]
    rw [if_neg (by
      rw [hshape] at hlen
      push_neg
      exact ⟨by omega, by rw [hd128]⟩)]
    rw [if_pos (by rw [hd64]; omega)]
    rw [if_neg (by rw [hd31]; omega)]
    have hg1 : ((64 ||| expf) :: ((pp.mantissa - 1) :: rest)).getD 1 0 =
        pp.mantissa - 1 := rfl
    rw [hg1]
    rw [if_neg (by omega)]
    rw [hd31, hshift, hsl]
    dsimp only
    rw [if_neg (by rw [hd32]; omega)]
    rw [if_neg (by omega)]
    rw [hlen2, hminz]
    rw [show pp.mantissa - 1 + 1 = pp.mantissa from by omega]
    simp

/-- Header acceptance for exact-value proofs (the `exp < 0` branch of
proveparams): the degenerate single-ring header decodes to `exp = -1`,
`mantissa = 0` and `min = max = value`. -/
theorem getheader_signHeader_exact (val mb : ℕ) (hval : val < 2 ^ 64) (rest : List ℕ)
    (hlen : 65 ≤ ((signHeader ⟨0, 1, [1], 2, [0], val, 0, 1, 0, mb⟩ : List ℕ) ++
      rest).length) :
    getheader (signHeader ⟨0, 1, [1], 2, [0], val, 0, 1, 0, mb⟩ ++ rest) =
      some ⟨(signHeader ⟨0, 1, [1], 2, [0], val, 0, 1, 0, mb⟩).length, -1, 0, 1, val,
        val⟩ := by
  by_cases hv0 : val ≠ 0
  · have hshape : (signHeader ⟨0, 1, [1], 2, [0], val, 0, 1, 0, mb⟩ : List ℕ) ++ rest =
        32 :: (beBytes 8 val ++ rest) := by
      unfold signHeader
      dsimp only
      rw [if_neg (by norm_num), if_pos hv0, if_neg (by norm_num), if_pos hv0]
      simp
    have hlen9 : (signHeader ⟨0, 1, [1], 2, [0], val, 0, 1, 0, mb⟩ : List ℕ).length = 9 := by
      unfold signHeader
      dsimp only
      rw [if_neg (by norm_num), if_pos hv0, if_neg (by norm_num), if_pos hv0]
      simp [beBytes_length]
    rw [hshape]
    unfold getheader
    rw [List.getD_cons_zero]
    rw [if_neg (by
      rw [hshape] at hlen
      push_neg
      exact ⟨by omega, by decide⟩)]
    rw [if_neg (by decide)]
    rw [if_pos (by decide)]
    rw [if_neg (by
      rw [hshape] at hlen
      simp only [List.length_cons] at hlen ⊢
      omega)]
    have hdrop : ((32 : ℕ) :: (beBytes 8 val ++ rest)).drop 1 = beBytes 8 val ++ rest := rfl
    rw [hdrop, List.take_left' (beBytes_length 8 val),
      beRead_beBytes 8 val (by
        have : (2:ℕ) ^ (8 * 8) = 2 ^ 64 := by norm_num
        omega)]
    rw [if_neg (by omega)]
    rw [hlen9]
  · push_neg at hv0
    subst hv0
    have hshape : (signHeader ⟨0, 1, [1], 2, [0], 0, 0, 1, 0, mb⟩ : List ℕ) ++ rest =
        0 :: rest := by
      unfold signHeader
      dsimp only
      rw [if_neg (by norm_num), if_neg (by norm_num), if_neg (by norm_num),
        if_neg (by norm_num)]
      simp
    have hlen1 : (signHeader ⟨0, 1, [1], 2, [0], 0, 0, 1, 0, mb⟩ : List ℕ).length = 1 := by
      unfold signHeader
      dsimp only
      rw [if_neg (by norm_num), if_neg (by norm_num), if_neg (by norm_num),
        if_neg (by norm_num)]
      simp
    rw [hshape]
    unfold getheader
    rw [List.getD_cons_zero]
    rw [if_neg (by
      rw [hshape] at hlen
      push_neg
      exact ⟨by omega, by decide⟩)]
    rw [if_neg (by decide)]
    rw [if_neg (by decide)]
    rw [hlen1]

/-- Inversion of a successful signing run: every guard along
`secp256k1_rangeproof_sign_impl` passed, and the proof has the concatenated
shape written by the code. -/
theorem sign_inversion {P : Type} [AddCommGroup P] [DecidableEq P] (env : ExtEnv P)
    (fuel plen mv : ℕ) (commit blind nonce : List ℕ) (exp : ℤ) (mb val : ℕ)
    (proofB : List ℕ)
    (hsign : rangeproof_sign_impl env fuel plen mv commit blind nonce exp mb val =
      some proofB) :
    ∃ (pp : ProveParams) (sec s : List Scalar) (msgO : ℕ → List ℕ)
      (sec1 : List Scalar) (serL : List (List ℕ)) (e0 : List ℕ) (s2 : List Scalar),
      ¬(plen < 65 ∨ mv > val ∨ mb > 64 ∨ exp < -1 ∨ exp > 18) ∧
      range_proveparams mv exp mb val = some pp ∧
      rangeproof_genrand env (signPrep pp) pp.rsizes nonce commit (signHeader pp) fuel =
        some (sec, s, msgO, true) ∧
      (scalar_set_b32 blind).2 = false ∧
      sec.getD (pp.rings - 1) 0 + (scalar_set_b32 blind).1 ≠ 0 ∧
      sec1 = sec.set (pp.rings - 1) (sec.getD (pp.rings - 1) 0 + (scalar_set_b32 blind).1) ∧
      (∀ i < pp.rings, (signBases env pp sec1).getD i 0 ≠ 0) ∧
      tryMap (fun i => env.serPt ((signBases env pp sec1).getD i 0))
        (List.range (pp.rings - 1)) = some serL ∧
      env.borrSign (signS1 pp s) (pub_expand env.prec pp.exp pp.rsizes (signBases env pp sec1))
        (signKs pp s) sec1 pp.rsizes pp.secidx pp.rings
        (env.sha256 (commit ++ signHeader pp ++ serL.flatten)) = some (e0, s2) ∧
      proofB = signHeader pp ++ (signSigns pp serL ++ (signXs pp serL ++
        (e0 ++ (s2.map scalar_get_b32).flatten))) := by
  unfold rangeproof_sign_impl at hsign
  by_cases h1 : plen < 65 ∨ mv > val ∨ mb > 64 ∨ exp < -1 ∨ exp > 18
  · rw [if_pos h1] at hsign
    exact Option.noConfusion hsign
  rw [if_neg h1] at hsign
  rcases hpp : range_proveparams mv exp mb val with _ | pp
  · rw [hpp] at hsign
    exact Option.noConfusion hsign
  rw [hpp] at hsign
  dsimp only at hsign
  by_cases h2 : plen - (signHeader pp).length <
      32 * (pp.npub + pp.rings - 1) + 32 + ((pp.rings + 6) >>> 3)
  · rw [if_pos h2] at hsign
    exact Option.noConfusion hsign
  rw [if_neg h2] at hsign
  rcases hgen : rangeproof_genrand env (signPrep pp) pp.rsizes nonce commit
      (signHeader pp) fuel with _ | q
  · rw [hgen] at hsign
    exact Option.noConfusion hsign
  obtain ⟨sec, s, msgO, ok⟩ := q
  rw [hgen] at hsign
  dsimp only at hsign
  by_cases h3 : !ok
  · rw [if_pos h3] at hsign
    exact Option.noConfusion hsign
  rw [if_neg h3] at hsign
  have hok : ok = true := by
    rcases ok with _ | _
    · simp at h3
    · rfl
  subst hok
  by_cases h4 : (scalar_set_b32 blind).2 ||
      decide (sec.getD (pp.rings - 1) 0 + (scalar_set_b32 blind).1 = 0)
  · rw [if_pos h4] at hsign
    exact Option.noConfusion hsign
  rw [if_neg h4] at hsign
  simp only [Bool.or_eq_true, decide_eq_true_eq, not_or] at h4
  obtain ⟨h4a, h4b⟩ := h4
  by_cases h5 : (List.range pp.rings).any (fun i => decide
      ((signBases env pp (sec.set (pp.rings - 1)
        (sec.getD (pp.rings - 1) 0 + (scalar_set_b32 blind).1))).getD i 0 = 0))
  · rw [if_pos h5] at hsign
    exact Option.noConfusion hsign
  rw [if_neg h5] at hsign
  rcases hser : tryMap (fun i => env.serPt ((signBases env pp (sec.set (pp.rings - 1)
      (sec.getD (pp.rings - 1) 0 + (scalar_set_b32 blind).1))).getD i 0))
      (List.range (pp.rings - 1)) with _ | serL
  · rw [hser] at hsign
    exact Option.noConfusion hsign
  rw [hser] at hsign
  dsimp only at hsign
  rcases hbs : env.borrSign
      (signS1 pp s)
      (pub_expand env.prec pp.exp pp.rsizes (signBases env pp (sec.set (pp.rings - 1)
        (sec.getD (pp.rings - 1) 0 + (scalar_set_b32 blind).1))))
      (signKs pp s)
      (sec.set (pp.rings - 1) (sec.getD (pp.rings - 1) 0 + (scalar_set_b32 blind).1))
      pp.rsizes pp.secidx pp.rings
      (env.sha256 (commit ++ signHeader pp ++ serL.flatten)) with _ | r
  · rw [hbs] at hsign
    exact Option.noConfusion hsign
  obtain ⟨e0, s2⟩ := r
  rw [hbs] at hsign
  dsimp only at hsign
  refine ⟨pp, sec, s, msgO, _, serL, e0, s2, h1, rfl, hgen,
    Bool.eq_false_iff.mpr h4a, h4b, rfl, ?_, hser, hbs, ?_⟩
  · intro i hi
    have := (List.any_eq_true.not.mp h5)
    push_neg at this
    have h := this i (List.mem_range.mpr hi)
    simpa using h
  · exact (Option.some_inj.mp hsign).symm

theorem map_range_getD_self {β : Type} (l : List β) (d : β) :
    (List.range l.length).map (fun i => l.getD i d) = l := by
  apply List.ext_getElem (by simp)
  intro i h1 h2
  rw [List.getElem_map, List.getElem_range, List.getD_eq_getElem l d h2]

theorem cons_getD_drop {β : Type} (l : List β) (d : β) (h : l ≠ []) :
    l = l.getD 0 d :: l.drop 1 := by
  cases l with
  | nil => exact absurd rfl h
  | cons x t => rfl

theorem drop_append_len {β : Type} (a b : List β) (k : ℕ) :
    (a ++ b).drop (a.length + k) = b.drop k := by
  rw [← List.drop_drop, List.drop_left]

theorem getD_append_len {β : Type} (a b : List β) (k : ℕ) (d : β) :
    (a ++ b).getD (a.length + k) d = b.getD k d := by
  rw [List.getD_append_right _ _ _ _ (by omega), Nat.add_sub_cancel_left]

theorem getD_map_lt {β γ : Type} (f : β → γ) (l : List β) (i : ℕ) (hi : i < l.length)
    (d : β) (d' : γ) : (l.map f).getD i d' = f (l.getD i d) := by
  rw [List.getD_eq_getElem _ _ (by simpa using hi), List.getElem_map,
    List.getD_eq_getElem _ _ hi]

theorem forall₂_getD {β γ : Type} (R : β → γ → Prop) (l1 : List β) (l2 : List γ)
    (h : List.Forall₂ R l1 l2) (d1 : β) (d2 : γ) :
    l1.length = l2.length ∧ ∀ i < l1.length, R (l1.getD i d1) (l2.getD i d2) := by
  induction h with
  | nil => exact ⟨rfl, fun i hi => absurd hi (by simp)⟩
  | cons hr _ ih =>
    refine ⟨by simp [ih.1], fun i hi => ?_⟩
    cases i with
    | zero => exact hr
    | succ j =>
      simp only [List.getD_cons_succ]
      exact ih.2 j (by simpa using hi)

theorem range_getD (n i d : ℕ) (hi : i < n) : (List.range n).getD i d = i := by
  rw [List.getD_eq_getElem _ _ (by simpa using hi), List.getElem_range]

theorem slice_of_flatten_append {m : ℕ} (blocks : List (List ℕ)) (rest : List ℕ)
    (h : ∀ b ∈ blocks, b.length = m) (i : ℕ) (hi : i < blocks.length) :
    ((blocks.flatten ++ rest).drop (m * i)).take m = blocks.getD i [] := by
  have hsplit : blocks.flatten = (blocks.take i).flatten ++ (blocks.drop i).flatten := by
    rw [← List.flatten_append, List.take_append_drop]
  have hlen : (blocks.take i).flatten.length = m * i := by
    rw [flatten_length_const _ (fun b hb => h b (List.mem_of_mem_take hb)),
      List.length_take, min_eq_left (by omega)]
  rw [hsplit, List.append_assoc, ← hlen, List.drop_left]
  rw [List.drop_eq_getElem_cons hi, List.flatten_cons, List.append_assoc,
    List.take_left' (h _ (List.getElem_mem hi)), List.getD_eq_getElem blocks [] hi]

/-- The verifier accepts a proof of the shape written by the prover and reaches
the borromean check with exactly the prover's public data; with a nonce it
proceeds to the rewind branch with the parsed signature scalars.  All group and
byte-level reasoning of `secp256k1_rangeproof_verify_impl` up to (and
including) `secp256k1_borromean_verify` is captured here. -/
theorem verify_trace {P : Type} [AddCommGroup P] [DecidableEq P] (env : ExtEnv P)
    (fuel2 val : ℕ) (commit blind : List ℕ) (pp : ProveParams) (sec1 : List Scalar)
    (serL : List (List ℕ)) (e0 : List ℕ) (s2 : List Scalar) (hdrE : Header)
    (proofB : List ℕ)
    (henv_ser : ∀ pt b, env.serPt pt = some b → env.parsePt b = some pt ∧
      b.length = 33 ∧ (b.getD 0 0 = 2 ∨ b.getD 0 0 = 3) ∧ ∀ x ∈ b, x < 256)
    (hGord : (scalarOrder : ℕ) • env.G = 0)
    (hhdr : getheader proofB = some hdrE)
    (hvr : verifierRings hdrE.mantissa = (pp.rings, pp.rsizes, pp.rsizes.sum))
    (hoff : hdrE.offset = (signHeader pp).length)
    (hminE : hdrE.min_value = pp.min_value)
    (hminlt : pp.min_value < 2 ^ 64)
    (hexpoff : (if hdrE.exp < 0 then 0 else hdrE.exp.toNat) =
      (if pp.exp < 0 then 0 else pp.exp.toNat))
    (hrings1 : 1 ≤ pp.rings)
    (hsec1len : sec1.length = pp.rings)
    (hslen : s2.length = pp.rsizes.sum)
    (hsec1sum : sec1.sum = (scalar_set_b32 blind).1)
    (hserL : List.Forall₂ (fun i b => env.serPt ((signBases env pp sec1).getD i 0) = some b)
      (List.range (pp.rings - 1)) serL)
    (hinf : ∀ i < pp.rings, (signBases env pp sec1).getD i 0 ≠ 0)
    (hcommitpt : env.parsePt commit =
      some (pedersen_ecmult env.G env.g2 env.numsPt (scalar_set_b32 blind).1 val))
    (hvals_sum : ((List.range pp.rings).map (signVals pp)).sum = pp.v * pp.scale)
    (hpost : pp.v * pp.scale + pp.min_value = val)
    (hval : val < 2 ^ 64)
    (hbver : env.borrVerify e0 s2
      (pub_expand env.prec pp.exp pp.rsizes (signBases env pp sec1)) pp.rsizes pp.rings
      (env.sha256 (commit ++ signHeader pp ++ serL.flatten)) = true)
    (he0len : e0.length = 32)
    (hproofB : proofB = signHeader pp ++ (signSigns pp serL ++ (signXs pp serL ++
      (e0 ++ (s2.map scalar_get_b32).flatten)))) :
    ∀ nonceOpt : Option (List ℕ),
    rangeproof_verify_impl env fuel2 nonceOpt commit proofB =
      match nonceOpt with
      | none => some (hdrE.min_value, hdrE.max_value, none)
      | some nonce1 =>
        match rangeproof_rewind_inner env fuel2
            (env.borrEval e0 s2
              (pub_expand env.prec pp.exp pp.rsizes (signBases env pp sec1))
              pp.rsizes pp.rings (env.sha256 (commit ++ signHeader pp ++ serL.flatten)))
            s2 pp.rsizes pp.rings nonce1 commit proofB hdrE.offset with
        | none => none
        | some (blind1, v0) =>
          if pedersen_ecmult env.G env.g2 env.numsPt blind1
              ((mul64 v0 hdrE.scale + hdrE.min_value) % 2 ^ 64) = 0 then none
          else
            match env.serPt (pedersen_ecmult env.G env.g2 env.numsPt blind1
                ((mul64 v0 hdrE.scale + hdrE.min_value) % 2 ^ 64)) with
            | none => none
            | some creco =>
              if creco ≠ commit then none
              else some (hdrE.min_value, hdrE.max_value,
                some (scalar_get_b32 blind1, (mul64 v0 hdrE.scale + hdrE.min_value) % 2 ^ 64)) := by
  obtain ⟨hserLlen, hserLD⟩ := forall₂_getD _ _ _ hserL 0 []
  rw [List.length_range] at hserLlen
  have hserLD' : ∀ i < pp.rings - 1,
      env.serPt ((signBases env pp sec1).getD i 0) = some (serL.getD i []) := by
    intro i hi
    have h2 := hserLD i (by simpa using hi)
    rwa [range_getD _ _ _ hi] at h2
  have hserF : ∀ i < pp.rings - 1,
      env.parsePt (serL.getD i []) = some ((signBases env pp sec1).getD i 0) ∧
      (serL.getD i []).length = 33 ∧
      ((serL.getD i []).getD 0 0 = 2 ∨ (serL.getD i []).getD 0 0 = 3) ∧
      ∀ x ∈ serL.getD i [], x < 256 :=
    fun i hi => henv_ser _ _ (hserLD' i hi)
  have hsblen : (signSigns pp serL).length = (pp.rings + 6) >>> 3 := by
    unfold signSigns
    simp
  have hxsblocks : ∀ b ∈ (List.range (pp.rings - 1)).map
      (fun i => (serL.getD i []).drop 1), b.length = 32 := by
    intro b hb
    obtain ⟨i, hi, hbi⟩ := List.mem_map.mp hb
    have := (hserF i (List.mem_range.mp hi)).2.1
    rw [← hbi, List.length_drop, this]
  have hxslen : (signXs pp serL).length = 32 * (pp.rings - 1) := by
    unfold signXs
    rw [flatten_length_const _ hxsblocks]
    simp
  have hsBblocks : ∀ b ∈ s2.map scalar_get_b32, b.length = 32 := by
    intro b hb
    obtain ⟨x, _, hbx⟩ := List.mem_map.mp hb
    rw [← hbx]
    unfold scalar_get_b32
    exact beBytes_length 32 _
  have hsBlen : ((s2.map scalar_get_b32).flatten).length = 32 * pp.rsizes.sum := by
    rw [flatten_length_const _ hsBblocks, List.length_map, hslen]
  have hplen : proofB.length = (signHeader pp).length + (((pp.rings + 6) >>> 3) +
      (32 * (pp.rings - 1) + (32 + 32 * pp.rsizes.sum))) := by
    rw [hproofB]
    simp only [List.length_append]
    rw [hsblen, hxslen, he0len, hsBlen]
  have hvr1 : (verifierRings hdrE.mantissa).1 = pp.rings := by rw [hvr]
  have hvr2 : (verifierRings hdrE.mantissa).2.1 = pp.rsizes := by rw [hvr]
  have hrlen : pp.rsizes.length = pp.rings := by
    rw [← hvr2, ← hvr1]
    unfold verifierRings
    split_ifs <;> simp
  have hsb8 : (pp.rings + 6) >>> 3 = (pp.rings + 6) / 8 := by
    rw [Nat.shiftRight_eq_div_pow]
  have hand7 : ∀ x : ℕ, x &&& 7 = x % 8 := fun x => by
    rw [show (7:ℕ) = 2 ^ 3 - 1 from rfl, Nat.and_pow_two_sub_one_eq_mod]
  have hshr3 : ∀ x : ℕ, x >>> 3 = x / 8 := fun x => by
    rw [Nat.shiftRight_eq_div_pow]
  -- the value of each transmitted x-coordinate slice of the proof
  have hslice : ∀ i < pp.rings - 1,
      List.take 32 (List.drop (hdrE.offset + (pp.rings + 6) >>> 3 + 32 * i) proofB) =
        (serL.getD i []).drop 1 := by
    intro i hi
    rw [hoff, hproofB]
    rw [show (signHeader pp).length + (pp.rings + 6) >>> 3 + 32 * i =
      (signHeader pp).length + (((pp.rings + 6) >>> 3) + 32 * i) from by omega]
    rw [drop_append_len]
    rw [show ((pp.rings + 6) >>> 3) + 32 * i = (signSigns pp serL).length + 32 * i from by
      rw [hsblen]]
    rw [drop_append_len]
    unfold signXs
    rw [slice_of_flatten_append _ _ hxsblocks i (by simpa using hi)]
    rw [getD_map_lt _ _ _ (by simpa using hi) 0, range_getD _ _ _ hi]
  -- the sign bit of each transmitted ring as read back by the verifier
  have hbit : ∀ i < pp.rings - 1,
      (proofB.getD (hdrE.offset + i >>> 3) 0 &&& 1 <<< (i &&& 7) != 0) = true ↔
        (serL.getD i []).getD 0 0 = 3 := by
    intro i hi
    have hi8 : i >>> 3 < (pp.rings + 6) >>> 3 := by
      rw [hshr3, hsb8]
      omega
    rw [hoff, hproofB, getD_append_len]
    rw [List.getD_append _ _ _ _ (by rw [hsblen]; exact hi8)]
    unfold signSigns
    rw [getD_range_map _ _ _ _ hi8]
    rw [show (1:ℕ) <<< (i &&& 7) = 1 <<< (i &&& 7) from rfl]
    have hj7 : i &&& 7 < 8 := by rw [hand7]; omega
    have hsplit8 : 8 * (i >>> 3) + (i &&& 7) = i := by
      rw [hshr3, hand7]
      omega
    constructor
    · intro hb
      have hne : signsByte ((List.range (pp.rings - 1)).map fun i =>
          (serL.getD i []).getD 0 0) (pp.rings - 1) (i >>> 3) &&& 1 <<< (i &&& 7) ≠ 0 := by
        simpa using hb
      have := (signsByte_testBit _ _ _ _ hj7).mp hne
      rw [hsplit8] at this
      have h2 := this.2
      rwa [getD_map_lt _ _ _ (by simpa using hi) 0, range_getD _ _ _ hi] at h2
    · intro hh
      have : 8 * (i >>> 3) + (i &&& 7) < pp.rings - 1 ∧
          ((List.range (pp.rings - 1)).map fun i => (serL.getD i []).getD 0 0).getD
            (8 * (i >>> 3) + (i &&& 7)) 0 = 3 := by
        rw [hsplit8]
        refine ⟨hi, ?_⟩
        rwa [getD_map_lt _ _ _ (by simpa using hi) 0, range_getD _ _ _ hi]
      have := (signsByte_testBit _ _ _ _ hj7).mpr this
      simpa using this
  intro nonceOpt
  unfold rangeproof_verify_impl
  rw [hhdr]
  dsimp only
  rw [hvr]
  dsimp only
  rw [if_neg (by rw [hoff]; omega)]
  rw [if_neg (by
    rintro ⟨hr7, hbyte⟩
    rw [hand7] at hr7
    have hsb1 : 1 ≤ (pp.rings + 6) >>> 3 := by rw [hsb8]; omega
    rw [hoff, hproofB] at hbyte
    rw [show (signHeader pp).length + (pp.rings + 6) >>> 3 - 1 =
      (signHeader pp).length + (((pp.rings + 6) >>> 3) - 1) from by omega] at hbyte
    rw [getD_append_len] at hbyte
    rw [List.getD_append _ _ _ _ (by rw [hsblen]; omega)] at hbyte
    unfold signSigns at hbyte
    rw [getD_range_map _ _ _ _ (by omega)] at hbyte
    nth_rewrite 2 [show pp.rings - 1 = 8 * ((pp.rings + 6) >>> 3 - 1) +
      ((pp.rings - 1) &&& 7) from by
      rw [hand7, hsb8]
      omega] at hbyte
    rw [signsByte_shift _ _ _ (by rw [hand7]; omega)] at hbyte
    exact hbyte rfl)]
  rw [tryMap_of_map _ (fun i => (signBases env pp sec1).getD i 0) _ (by
    intro i hmem
    have hi : i < pp.rings - 1 := List.mem_range.mp hmem
    rw [hslice i hi]
    obtain ⟨hparse, hlen33, hhead, hbytes⟩ := hserF i hi
    have hne : serL.getD i [] ≠ [] := by
      intro hc
      rw [hc] at hlen33
      simp at hlen33
    rcases hhead with h2 | h3
    · rw [if_neg (by rw [hbit i hi, h2]; omega)]
      rw [show (2:ℕ) = (serL.getD i []).getD 0 0 from h2.symm]
      rw [← cons_getD_drop _ 0 hne]
      exact hparse
    · rw [if_pos (by rw [hbit i hi]; exact h3)]
      rw [show (3:ℕ) = (serL.getD i []).getD 0 0 from h3.symm]
      rw [← cons_getD_drop _ 0 hne]
      exact hparse)]
  dsimp only
  rw [hcommitpt]
  dsimp only
  rw [show -((if hdrE.min_value ≠ 0 then
        pedersen_ecmult_small (pedersen_prec env.g2 env.numsPt) hdrE.min_value else 0) +
      (List.map (fun i => (signBases env pp sec1).getD i 0)
        (List.range (pp.rings - 1))).sum) +
      pedersen_ecmult env.G env.g2 env.numsPt (scalar_set_b32 blind).1 val =
      (signBases env pp sec1).getD (pp.rings - 1) 0 from by
    have hvals_lt : ∀ i, signVals pp i < 2 ^ 64 := fun i => Nat.mod_lt _ (by norm_num)
    have hBsum : (signBases env pp sec1).sum =
        ((scalar_set_b32 blind).1).val • env.G + (pp.v * pp.scale) • env.g2 := by
      unfold signBases
      rw [pedersen_range_sum env.G env.g2 env.numsPt (fun i => sec1.getD i 0)
        (signVals pp) pp.rings (fun i _ => hvals_lt i)]
      rw [hvals_sum]
      congr 1
      have h1 : (List.range pp.rings).map (fun i => (sec1.getD i 0).val) =
          sec1.map ZMod.val := by
        rw [← hsec1len]
        rw [show (fun i => (sec1.getD i 0).val) =
          ZMod.val ∘ (fun i => sec1.getD i 0) from rfl]
        rw [← List.map_map, map_range_getD_self]
      rw [h1, sum_val_smul env.G hGord, hsec1sum]
    have hBlen : (signBases env pp sec1).length = pp.rings := by
      unfold signBases
      simp
    have hsplitB : signBases env pp sec1 =
        List.map (fun i => (signBases env pp sec1).getD i 0)
          (List.range (pp.rings - 1)) ++ [(signBases env pp sec1).getD (pp.rings - 1) 0] := by
      conv_lhs => rw [← map_range_getD_self (signBases env pp sec1) 0]
      rw [hBlen, show pp.rings = (pp.rings - 1) + 1 from by omega, List.range_succ,
        List.map_append]
      rfl
    have hptsum : (List.map (fun i => (signBases env pp sec1).getD i 0)
        (List.range (pp.rings - 1))).sum + (signBases env pp sec1).getD (pp.rings - 1) 0 =
        (signBases env pp sec1).sum := by
      conv_rhs => rw [hsplitB]
      rw [List.sum_append]
      simp
    have hacc0 : (if hdrE.min_value ≠ 0 then
        pedersen_ecmult_small (pedersen_prec env.g2 env.numsPt) hdrE.min_value else 0) =
        pp.min_value • env.g2 := by
      rw [hminE]
      split_ifs with h
      · exact pedersen_ecmult_small_eq env.g2 env.numsPt pp.min_value hminlt
      · rw [show pp.min_value = 0 from by omega, zero_smul]
    have hcptval : pedersen_ecmult env.G env.g2 env.numsPt (scalar_set_b32 blind).1 val =
        ((scalar_set_b32 blind).1).val • env.G +
          ((pp.v * pp.scale) • env.g2 + pp.min_value • env.g2) := by
      unfold pedersen_ecmult ecmult_gen
      rw [pedersen_ecmult_small_eq env.g2 env.numsPt val hval, ← hpost, add_nsmul]
    rw [hacc0, hcptval]
    rw [show ((scalar_set_b32 blind).1).val • env.G +
        ((pp.v * pp.scale) • env.g2 + pp.min_value • env.g2) =
        (((scalar_set_b32 blind).1).val • env.G + (pp.v * pp.scale) • env.g2) +
          pp.min_value • env.g2 from by abel]
    rw [← hBsum, ← hptsum]
    abel]
  rw [if_neg (hinf (pp.rings - 1) (by omega))]
  rw [show List.map (fun i => (signBases env pp sec1).getD i 0) (List.range (pp.rings - 1)) ++
      [(signBases env pp sec1).getD (pp.rings - 1) 0] = signBases env pp sec1 from by
    conv_rhs => rw [← map_range_getD_self (signBases env pp sec1) 0]
    rw [show (signBases env pp sec1).length = pp.rings from by unfold signBases; simp,
      show pp.rings = (pp.rings - 1) + 1 from by omega, List.range_succ, List.map_append]
    rfl]
  rw [tryMap_of_map _ (fun i => s2.getD i 0) _ (by
    intro i hmem
    have hi : i < pp.rsizes.sum := List.mem_range.mp hmem
    have hsl2 : List.take 32
        (List.drop (hdrE.offset + (pp.rings + 6) >>> 3 + 32 * (pp.rings - 1) + 32 + 32 * i)
          proofB) = scalar_get_b32 (s2.getD i 0) := by
      rw [hoff, hproofB]
      rw [show (signHeader pp).length + (pp.rings + 6) >>> 3 + 32 * (pp.rings - 1) + 32 +
        32 * i = (signHeader pp).length + (((pp.rings + 6) >>> 3) +
          (32 * (pp.rings - 1) + (32 + 32 * i))) from by omega]
      rw [drop_append_len]
      rw [show ((pp.rings + 6) >>> 3) + (32 * (pp.rings - 1) + (32 + 32 * i)) =
        (signSigns pp serL).length + (32 * (pp.rings - 1) + (32 + 32 * i)) from by
        rw [hsblen]]
      rw [drop_append_len]
      rw [show 32 * (pp.rings - 1) + (32 + 32 * i) =
        (signXs pp serL).length + (32 + 32 * i) from by rw [hxslen]]
      rw [drop_append_len]
      rw [show 32 + 32 * i = e0.length + 32 * i from by rw [he0len]]
      rw [drop_append_len]
      rw [flatten_slice _ hsBblocks i (by rw [List.length_map, hslen]; exact hi)]
      rw [getD_map_lt _ _ _ (by rw [hslen]; exact hi) 0]
    rw [hsl2]
    have hvallt : (s2.getD i 0).val < scalarOrder := ZMod.val_lt _
    have hread : beRead (scalar_get_b32 (s2.getD i 0)) = (s2.getD i 0).val := by
      unfold scalar_get_b32
      apply beRead_beBytes
      have : scalarOrder < 2 ^ (8 * 32) := by norm_num [scalarOrder]
      omega
    rw [if_neg (by
      unfold scalar_set_b32
      dsimp only
      rw [hread]
      simp only [decide_eq_true_eq]
      omega)]
    unfold scalar_set_b32
    dsimp only
    rw [hread, scalar_cast_val])]
  rw [show (List.range pp.rsizes.sum).map (fun i => s2.getD i 0) = s2 from by
    rw [← hslen, map_range_getD_self]]
  dsimp only
  rw [if_neg (by rw [hoff]; omega)]
  rw [show List.take 32
      (List.drop (hdrE.offset + (pp.rings + 6) >>> 3 + 32 * (pp.rings - 1)) proofB) =
      e0 from by
    rw [hoff, hproofB]
    rw [show (signHeader pp).length + (pp.rings + 6) >>> 3 + 32 * (pp.rings - 1) =
      (signHeader pp).length + (((pp.rings + 6) >>> 3) + 32 * (pp.rings - 1)) from by omega]
    rw [drop_append_len]
    rw [show ((pp.rings + 6) >>> 3) + 32 * (pp.rings - 1) =
      (signSigns pp serL).length + 32 * (pp.rings - 1) from by rw [hsblen]]
    rw [drop_append_len]
    rw [show 32 * (pp.rings - 1) = (signXs pp serL).length + 0 from by rw [hxslen]; omega]
    rw [drop_append_len]
    rw [List.drop_zero, List.take_left' he0len]]
  rw [show List.take hdrE.offset proofB = signHeader pp from by
    rw [hoff, hproofB, List.take_left]]
  rw [show List.map
      (fun i => (if (proofB.getD (hdrE.offset + i >>> 3) 0 &&& 1 <<< (i &&& 7) != 0) = true
        then 3 else 2) ::
        List.take 32 (List.drop (hdrE.offset + (pp.rings + 6) >>> 3 + 32 * i) proofB))
      (List.range (pp.rings - 1)) = serL from by
    have hpt : ∀ i ∈ List.range (pp.rings - 1),
        ((if (proofB.getD (hdrE.offset + i >>> 3) 0 &&& 1 <<< (i &&& 7) != 0) = true
          then 3 else 2) ::
          List.take 32 (List.drop (hdrE.offset + (pp.rings + 6) >>> 3 + 32 * i) proofB) :
            List ℕ) = serL.getD i [] := by
      intro i hmem
      have hi : i < pp.rings - 1 := List.mem_range.mp hmem
      rw [hslice i hi]
      obtain ⟨-, hlen33, hhead, -⟩ := hserF i hi
      have hne : serL.getD i [] ≠ [] := by
        intro hc
        rw [hc] at hlen33
        simp at hlen33
      rcases hhead with h2 | h3
      · rw [if_neg (by rw [hbit i hi, h2]; omega)]
        rw [show (2:ℕ) = (serL.getD i []).getD 0 0 from h2.symm]
        rw [← cons_getD_drop _ 0 hne]
      · rw [if_pos (by rw [hbit i hi]; exact h3)]
        rw [show (3:ℕ) = (serL.getD i []).getD 0 0 from h3.symm]
        rw [← cons_getD_drop _ 0 hne]
    rw [List.map_congr_left hpt, hserLlen, map_range_getD_self]]
  rw [show pub_expand env.prec hdrE.exp pp.rsizes (signBases env pp sec1) =
      pub_expand env.prec pp.exp pp.rsizes (signBases env pp sec1) from by
    unfold pub_expand
    rw [hexpoff]]
  rw [if_pos hbver]

/-- The reduced value fits in the chosen mantissa
(`VERIFY_CHECK((*v & ~(UINT64_MAX>>(64-*mantissa))) == 0)`). -/
theorem mkClean_v_lt (mv mb val expf : ℕ) :
    (mkClean mv mb val expf).v < 2 ^ (mkClean mv mb val expf).mantissa := by
  have hm : (mkClean mv mb val expf).mantissa =
      max (if (val - mv) / 10 ^ expf = 0 then 1
        else Nat.size ((val - mv) / 10 ^ expf)) (clampBits mb mv) := rfl
  have hv : (mkClean mv mb val expf).v = (val - mv) / 10 ^ expf := rfl
  rw [hv, hm]
  rcases (show (val - mv) / 10 ^ expf = 0 ∨ (val - mv) / 10 ^ expf ≠ 0 from by omega)
    with h0 | h0
  · rw [h0]
    exact Nat.pos_pow_of_pos _ (by norm_num)
  · calc (val - mv) / 10 ^ expf < 2 ^ Nat.size ((val - mv) / 10 ^ expf) :=
      Nat.lt_size_self _
    _ ≤ 2 ^ max (if (val - mv) / 10 ^ expf = 0 then 1
        else Nat.size ((val - mv) / 10 ^ expf)) (clampBits mb mv) := by
      apply Nat.pow_le_pow_right (by norm_num)
      rw [if_neg h0]
      exact le_max_left _ _

/-- Updating the last entry of a zero-sum scalar list by adding `x` makes the
list sum to `x` (the prover folds the commitment blinding factor into the last
ring, rangeproof_impl.h lines 346-347). -/
theorem sum_set_last (sec : List Scalar) (x : Scalar) (n : ℕ) (hlen : sec.length = n)
    (hn : 1 ≤ n) (hsum : sec.sum = 0) :
    (sec.set (n - 1) (sec.getD (n - 1) 0 + x)).sum = x := by
  have hlt : n - 1 < sec.length := by omega
  have hdropn : sec.drop n = [] := by
    apply List.drop_eq_nil_of_le
    omega
  have hdec : sec.sum = (sec.take (n - 1)).sum + sec.getD (n - 1) 0 := by
    conv_lhs => rw [← List.take_append_drop (n - 1) sec]
    rw [List.sum_append, List.drop_eq_getElem_cons hlt, List.sum_cons,
      show n - 1 + 1 = n from by omega, hdropn, List.sum_nil, add_zero,
      ← List.getD_eq_getElem sec 0 hlt]
  rw [List.set_eq_take_cons_drop _ hlt, List.sum_append, List.sum_cons,
    show n - 1 + 1 = n from by omega, hdropn, List.sum_nil, add_zero]
  rw [hdec] at hsum
  have hneg : (sec.take (n - 1)).sum = -(sec.getD (n - 1) 0) := by
    rw [← add_eq_zero_iff_eq_neg]
    exact hsum
  rw [hneg]
  abel

/-- C1: range-proof soundness round-trip.  Under the black-box contracts for
point serialization (serialize/parse round-trip, 33 bytes, compressed headers)
and the Borromean ring signature (completeness, 32-byte e0, in-place signature
array), over any group in which `G` has order `n`: if `pedersen_commit(blind,
value)` produced `commit` and `rangeproof_sign` succeeds, then
`rangeproof_verify` accepts the produced proof and its out-parameters satisfy
`min_value_out ≤ value ≤ max_value_out`. -/
theorem C1_soundness_roundtrip {P : Type} [AddCommGroup P] [DecidableEq P]
    (env : ExtEnv P) (fuel fuel2 plen mv : ℕ) (blind nonce commit : List ℕ) (exp : ℤ)
    (mb val : ℕ) (proofB : List ℕ)
    (hGord : (scalarOrder : ℕ) • env.G = 0)
    (henv_ser : ∀ pt b, env.serPt pt = some b → env.parsePt b = some pt ∧
      b.length = 33 ∧ (b.getD 0 0 = 2 ∨ b.getD 0 0 = 3) ∧ ∀ x ∈ b, x < 256)
    (hbsign : ∀ s1 pubs k sec rsizes secidx rings m e0 s2,
      env.borrSign s1 pubs k sec rsizes secidx rings m = some (e0, s2) →
      env.borrVerify e0 s2 pubs rsizes rings m = true ∧ e0.length = 32 ∧
        s2.length = s1.length)
    (hval : val < 2 ^ 64)
    (hcommit : pedersen_commit env blind val = some commit)
    (hsign : rangeproof_sign_impl env fuel plen mv commit blind nonce exp mb val =
      some proofB) :
    ∃ mn mx : ℕ,
      rangeproof_verify_impl env fuel2 none commit proofB = some (mn, mx, none) ∧
      mn ≤ val ∧ val ≤ mx := by
  obtain ⟨pp, sec, s, msgO, sec1, serL, e0, s2, h1, hpp, hgen, hbl2, hblnz, hsec1, hinf,
    hser, hbs, hpf⟩ := sign_inversion env fuel plen mv commit blind nonce exp mb val
      proofB hsign
  push_neg at h1
  obtain ⟨hplen65, hmvval, hmb64, hexpm1, hexp18⟩ := h1
  have hcommit2 : (if (scalar_set_b32 blind).2 then (none : Option (List ℕ))
      else if pedersen_ecmult env.G env.g2 env.numsPt (scalar_set_b32 blind).1 val = 0
        then none
        else env.serPt (pedersen_ecmult env.G env.g2 env.numsPt (scalar_set_b32 blind).1
          val)) = some commit := hcommit
  rw [hbl2] at hcommit2
  rw [if_neg Bool.false_ne_true] at hcommit2
  by_cases hcp : pedersen_ecmult env.G env.g2 env.numsPt (scalar_set_b32 blind).1 val = 0
  · rw [if_pos hcp] at hcommit2
    exact Option.noConfusion hcommit2
  rw [if_neg hcp] at hcommit2
  have hcommitpt : env.parsePt commit =
      some (pedersen_ecmult env.G env.g2 env.numsPt (scalar_set_b32 blind).1 val) :=
    (henv_ser _ _ hcommit2).1
  unfold rangeproof_genrand at hgen
  obtain ⟨hseclen, hsslen, hsecsum0⟩ := genrandGo_spec env _ true fuel pp.rsizes 0 0 0
    (signPrep pp) sec s msgO true hgen
  obtain ⟨hbver, he0len, hs2len0⟩ := hbsign _ _ _ _ _ _ _ _ _ _ hbs
  have hs2len : s2.length = s.length := by
    rw [hs2len0]
    unfold signS1
    simp
  have hserL := tryMap_forall _ _ _ hser
  have hsBl : ((s2.map scalar_get_b32).flatten).length = 32 * s2.length := by
    rw [flatten_length_const _ (by
      intro b hb
      obtain ⟨x, _, hbx⟩ := List.mem_map.mp hb
      rw [← hbx]
      exact beBytes_length 32 _), List.length_map]
  rcases range_proveparams_cases mv exp mb val pp hpp with ⟨hmvU, hexp0, hNR, hppm⟩ |
    ⟨hcond, hppx⟩
  · -- main branch: exp ≥ 0
    obtain ⟨expf, hmain, hexpfle, hEXPF0, hINVmb⟩ := proveparamsMain_eq mv exp mb val
      hexp0 hexp18 hmb64 hmvval (by unfold U64MAX; omega)
    have hppc : pp = mkClean mv mb val expf := by rw [hppm, hmain]
    subst hppc
    have hexpf18 : expf ≤ 18 := by omega
    obtain ⟨hpost, hm1, hm64, hr1, hr32, hnp128⟩ := mkClean_post mv mb val expf hmb64
      hmvval hval
    obtain ⟨hrlen, hr0, hrs4, hrslast, hvrx⟩ := mkClean_rsizes mv mb val expf
    obtain ⟨hINV2, hFIT⟩ := header_fits mv mb val expf hmb64 hmvval hval hmvU hNR
      hEXPF0 hINVmb hexpf18
    have hminlt : (mkClean mv mb val expf).min_value < 2 ^ 64 := by omega
    have hrsne : (mkClean mv mb val expf).rsizes ≠ [] := by
      intro hc
      rw [hc] at hrlen
      simp at hrlen
      omega
    have hsum1 : 1 ≤ (mkClean mv mb val expf).rsizes.sum := by
      conv_rhs => rw [cons_getD_drop _ 0 hrsne]
      rw [List.sum_cons]
      omega
    have hlen0pos : 1 ≤ (signHeader (mkClean mv mb val expf)).length := by
      unfold signHeader
      rw [List.length_cons]
      omega
    have hlen65 : 65 ≤ proofB.length := by
      rw [hpf]
      simp only [List.length_append]
      rw [he0len, hsBl]
      have : 1 ≤ s2.length := by omega
      omega
    have hhdrE := getheader_signHeader (mkClean mv mb val expf) expf
      (signSigns (mkClean mv mb val expf) serL ++ (signXs (mkClean mv mb val expf) serL ++
        (e0 ++ (s2.map scalar_get_b32).flatten))) hr0 hm1 hm64 rfl hexpf18 hminlt
      hINV2 hFIT (by rw [← hpf]; exact hlen65)
    have htr := verify_trace env fuel2 val commit blind (mkClean mv mb val expf) sec1
      serL e0 s2 ⟨(signHeader (mkClean mv mb val expf)).length, (expf : ℤ),
        (mkClean mv mb val expf).mantissa, 10 ^ expf, (mkClean mv mb val expf).min_value,
        (2 ^ (mkClean mv mb val expf).mantissa - 1) * 10 ^ expf +
          (mkClean mv mb val expf).min_value⟩
      proofB henv_ser hGord (by rw [hpf]; exact hhdrE) hvrx rfl rfl hminlt rfl hr1
      (by rw [hsec1, List.length_set]; omega)
      (by rw [hs2len]; omega)
      (by
        rw [hsec1]
        exact sum_set_last sec ((scalar_set_b32 blind).1) (mkClean mv mb val expf).rings
          (by omega) hr1 (by
            have := hsecsum0 hrsne
            rwa [zero_add] at this))
      hserL hinf hcommitpt ((signVals_sum mv mb val expf hval hpost).2) hpost hval hbver
      he0len hpf
    refine ⟨(mkClean mv mb val expf).min_value,
      (2 ^ (mkClean mv mb val expf).mantissa - 1) * 10 ^ expf +
        (mkClean mv mb val expf).min_value, htr none, by omega, ?_⟩
    have hvlt := mkClean_v_lt mv mb val expf
    have hscale : (mkClean mv mb val expf).scale = 10 ^ expf := rfl
    have hle : (mkClean mv mb val expf).v * (mkClean mv mb val expf).scale ≤
        (2 ^ (mkClean mv mb val expf).mantissa - 1) * 10 ^ expf := by
      rw [hscale]
      exact Nat.mul_le_mul_right _ (by omega)
    omega
  · -- exact-value branch
    subst hppx
    have hs21 : s2.length = 1 := by
      rw [hs2len, hsslen]
      rfl
    have hlen65 : 65 ≤ proofB.length := by
      rw [hpf]
      simp only [List.length_append]
      rw [he0len, hsBl, hs21]
      have hlen0pos :
          1 ≤ (signHeader ⟨0, 1, [1], 2, [0], val, 0, 1, 0, mb⟩ : List ℕ).length := by
        unfold signHeader
        rw [List.length_cons]
        omega
      omega
    have hgetex := getheader_signHeader_exact val mb hval
      (signSigns ⟨0, 1, [1], 2, [0], val, 0, 1, 0, mb⟩ serL ++
        (signXs ⟨0, 1, [1], 2, [0], val, 0, 1, 0, mb⟩ serL ++
          (e0 ++ (s2.map scalar_get_b32).flatten)))
      (by rw [← hpf]; exact hlen65)
    have htr := verify_trace env fuel2 val commit blind ⟨0, 1, [1], 2, [0], val, 0, 1, 0, mb⟩
      sec1 serL e0 s2 ⟨(signHeader ⟨0, 1, [1], 2, [0], val, 0, 1, 0, mb⟩ : List ℕ).length,
        -1, 0, 1, val, val⟩
      proofB henv_ser hGord (by rw [hpf]; exact hgetex) rfl rfl rfl hval
      (by norm_num)
      (le_refl 1)
      (by rw [hsec1, List.length_set, hseclen]; rfl)
      (by rw [hs2len, hsslen])
      (by
        rw [hsec1]
        exact sum_set_last sec ((scalar_set_b32 blind).1) 1
          (by rw [hseclen]; rfl) (le_refl 1) (by
            have h0 := hsecsum0 (by simp)
            rwa [zero_add] at h0))
      hserL hinf hcommitpt rfl (by simp) hval hbver he0len hpf
    exact ⟨val, val, htr none, le_refl val, le_refl val⟩

end RangeproofVerification
